import Mathlib

/-!
# AVL tree (`src/src/avl_tree.cpp`): embedding and verification

The C++ class `AVLTree<K, T>` owns a pointer graph of `Node`s
(`key`, `val`, cached height `h`, children `lc`/`rc`, back pointer `par`).

The embedding below is a value-level one.  A `Node*` is a value of the
inductive type `Node K T`: `Node.null` is the `NULL` pointer and `Node.node`
carries the fields `lc key val h rc` of the pointee.  The tree object is its
`root`.  A procedure that mutates the subtree hanging below a pointer becomes a
function returning the subtree that hangs in the same slot afterwards; the
slot itself (`root`, `par->lc` or `par->rc`, which the source finds through
`par`) is rebuilt by the caller.  The `par` field is therefore not a field of
the model: it is the position of a node inside its parent.

The `par` links themselves are the subject of a second embedding,
`AVLTree.Linked`: a heap of cells with the fields `lc`, `rc` and `par`, the
`root` member, and the mutating member functions translated statement by
statement.  It is shown to simulate the value-level embedding.

Dereferencing `NULL` is undefined behaviour in the source; the functions that
can do so return `Option`, with `none` standing for that event.

The key type `K` is any linearly ordered type (the source uses `<`, `>` and
`==` on keys), the stored height is the source's `int`, modelled by `Int`
(a stored height never exceeds the node count, far below `2^31`).
-/

namespace AVLTree

/-- A `Node*`: either `NULL` or a node with children `lc`, `rc`, payload
`key`, `val` and cached height `h` (source lines 21-30). -/
inductive Node (K T : Type) where
  | null : Node K T
  | node (lc : Node K T) (key : K) (val : T) (h : Int) (rc : Node K T) : Node K T
  deriving DecidableEq

variable {K T : Type}

/-- Constructor `new Node(key, val, par)`: height 1, no children (line 28). -/
def new_node (key : K) (val : T) : Node K T :=
  .node .null key val 1 .null

/-- Source `get_h` (line 32). -/
def get_h : Node K T → Int
  | .null => 0
  | .node _ _ _ h _ => h

/-- Source `get_bf` (line 33): right height minus left height. -/
def get_bf : Node K T → Int
  | .null => 0
  | .node lc _ _ _ rc => get_h rc - get_h lc

/-- Source `update` (lines 35-38). -/
def update : Node K T → Node K T
  | .null => .null
  | .node lc key val _ rc => .node lc key val (1 + max (get_h lc) (get_h rc)) rc

/-- Source `find(key, node)` (lines 40-45); `default` is the source's `T()`. -/
def find [LinearOrder K] [Inhabited T] (key : K) : Node K T → T
  | .null => default
  | .node lc nkey nval _ rc =>
    if key < nkey then find key lc
    else if key > nkey then find key rc
    else nval

/-- Source `count(key, node)` (lines 47-52). -/
def count [LinearOrder K] (key : K) : Node K T → Bool
  | .null => false
  | .node lc nkey _ _ rc =>
    if key < nkey then count key lc
    else if key > nkey then count key rc
    else true

/-- Source `left_rot(node)` (lines 54-76), as the subtree that replaces `node` in its
slot.  `node->rc` is dereferenced, so a missing right child (or a `NULL`
argument) gives `none`.  The final `update(par)` belongs to the slot's owner
and is applied by the caller. -/
def left_rot : Node K T → Option (Node K T)
  | .node lc key val h (.node rlc rkey rval rh rrc) =>
    some (update (.node (update (.node lc key val h rlc)) rkey rval rh rrc))
  | _ => none

/-- Source `right_rot(node)` (lines 78-100), mirror image of `left_rot`. -/
def right_rot : Node K T → Option (Node K T)
  | .node (.node llc lkey lval lh lrc) key val h rc =>
    some (update (.node llc lkey lval lh (update (.node lrc key val h rc))))
  | _ => none

/-- Source `balance(node)` (lines 102-120), as the subtree that replaces `node` in
its slot.  In the double rotations the inner rotation runs on a child of
`node`, so its closing `update(par)` refreshes `node` itself before the outer
rotation. -/
def balance : Node K T → Option (Node K T)
  | .null => some .null
  | .node lc key val h rc =>
    let node := update (.node lc key val h rc)
    if get_bf node = -2 then
      if get_bf lc ≠ 1 then right_rot node
      else
        match left_rot lc with
        | none => none
        | some lc' => right_rot (update (.node lc' key val (get_h node) rc))
    else if get_bf node = 2 then
      if get_bf rc ≠ -1 then left_rot node
      else
        match right_rot rc with
        | none => none
        | some rc' => left_rot (update (.node lc key val (get_h node) rc'))
    else some node

/-- Private `insert(key, val, node)` (lines 122-140).  `node` is dereferenced
at once, so `NULL` gives `none`. -/
def insert_node [LinearOrder K] (key : K) (val : T) : Node K T → Option (Node K T)
  | .null => none
  | .node lc nkey nval h rc =>
    if nkey = key then some (.node lc nkey val h rc)
    else if key < nkey then
      match lc with
      | .null => balance (.node (new_node key val) nkey nval h rc)
      | .node .. =>
        match insert_node key val lc with
        | none => none
        | some lc' => balance (.node lc' nkey nval h rc)
    else
      match rc with
      | .null => balance (.node lc nkey nval h (new_node key val))
      | .node .. =>
        match insert_node key val rc with
        | none => none
        | some rc' => balance (.node lc nkey nval h rc')

/-- Public `insert(key, val)` (lines 280-286), on the tree's `root`. -/
def insert [LinearOrder K] (key : K) (val : T) (root : Node K T) : Option (Node K T) :=
  match root with
  | .null => some (new_node key val)
  | .node .. => insert_node key val root

/-- Private `erase(key, node, elem)` with `elem != NULL` (lines 143-178 and
243): the in-order successor extraction.  `key` is not read on this path and
`elem` is passed on unchanged.  Returns the subtree left in `node`'s slot and
the pair written to `elem->key`, `elem->val` (`none`: nothing written). -/
def erase_elem : Node K T → Option (Node K T × Option (K × T))
  | .null => some (.null, none)
  | .node lc nkey nval h rc =>
    match lc with
    | .node .. =>
      match erase_elem lc with
      | none => none
      | some (lc', w) =>
        match balance (.node lc' nkey nval h rc) with
        | none => none
        | some t => some (t, w)
    | .null =>
      match rc with
      | .null => some (.null, some (nkey, nval))
      | .node nlc k2 v2 _ nrc =>
        match balance (.node nlc k2 v2 h nrc) with
        | none => none
        | some t => some (t, some (nkey, nval))

/-- Private `erase(key, node, elem)` with `elem == NULL` (lines 143-144 and
179-244), as the subtree left in `node`'s slot. -/
def erase_node [LinearOrder K] (key : K) : Node K T → Option (Node K T)
  | .null => some .null
  | .node lc nkey nval h rc =>
    if key = nkey then
      match lc, rc with
      | .null, .null => some .null
      | .null, .node nlc k2 v2 _ nrc => balance (.node nlc k2 v2 h nrc)
      | .node nlc k2 v2 _ nrc, .null => balance (.node nlc k2 v2 h nrc)
      | .node .., .node .null k2 v2 _ nrc => balance (.node lc k2 v2 h nrc)
      | .node .., .node (.node ..) .. =>
        match erase_elem rc with
        | none => none
        | some (rc', w) =>
          match w with
          | none => balance (.node lc nkey nval h rc')
          | some (k2, v2) => balance (.node lc k2 v2 h rc')
    else if key < nkey then
      match erase_node key lc with
      | none => none
      | some lc' => balance (.node lc' nkey nval h rc)
    else
      match erase_node key rc with
      | none => none
      | some rc' => balance (.node lc nkey nval h rc')

/-- Public `erase(key)` (line 288), on the tree's `root`. -/
def erase [LinearOrder K] (key : K) (root : Node K T) : Option (Node K T) :=
  erase_node key root

/-- The `operator<` of `std::pair<K, T>`: lexicographic, with `ltT` the
`operator<` of the value type. -/
def pair_lt [LinearOrder K] (ltT : T → T → Bool) (a b : K × T) : Bool :=
  decide (a.1 < b.1) || (!decide (b.1 < a.1) && ltT a.2 b.2)

/-- Library `std::min(a, b)` on pairs: `b` when `b < a`, otherwise `a`. -/
def pair_min [LinearOrder K] (ltT : T → T → Bool) (a b : K × T) : K × T :=
  if pair_lt ltT b a then b else a

/-- Library `std::max(a, b)` on pairs: `b` when `a < b`, otherwise `a`. -/
def pair_max [LinearOrder K] (ltT : T → T → Bool) (a b : K × T) : K × T :=
  if pair_lt ltT a b then b else a

/-- Source `succ(key, node)` (lines 246-255). -/
def succ [LinearOrder K] (ltT : T → T → Bool) (key : K) : Node K T → Option (K × T)
  | .null => none
  | .node lc nkey nval _ rc =>
    if key = nkey then some (nkey, nval)
    else if key < nkey then
      match succ ltT key lc with
      | none => some (nkey, nval)
      | some r => some (pair_min ltT (nkey, nval) r)
    else succ ltT key rc

/-- Source `prec(key, node)` (lines 257-266). -/
def prec [LinearOrder K] (ltT : T → T → Bool) (key : K) : Node K T → Option (K × T)
  | .null => none
  | .node lc nkey nval _ rc =>
    if key = nkey then some (nkey, nval)
    else if key > nkey then
      match prec ltT key rc with
      | none => some (nkey, nval)
      | some r => some (pair_max ltT (nkey, nval) r)
    else prec ltT key lc

/-! ## Specification vocabulary -/

/-- In-order traversal: the key/value pairs, left subtree first. -/
def inorder : Node K T → List (K × T)
  | .null => []
  | .node lc key val _ rc => inorder lc ++ (key, val) :: inorder rc

/-- The keys in in-order. -/
def keys (t : Node K T) : List K :=
  (inorder t).map Prod.fst

/-- Number of nodes. -/
def size : Node K T → Nat
  | .null => 0
  | .node lc _ _ _ rc => size lc + 1 + size rc

/-- The true height of a subtree: 0 for `NULL`, else one more than the taller
child. -/
def height : Node K T → Int
  | .null => 0
  | .node lc _ _ _ rc => 1 + max (height lc) (height rc)

/-- BST order: the in-order keys are strictly increasing. -/
def bst [LinearOrder K] (t : Node K T) : Prop :=
  (keys t).Pairwise (· < ·)

/-- Balance: at every node the children's heights differ by at most 1. -/
def balanced : Node K T → Prop
  | .null => True
  | .node lc _ _ _ rc => balanced lc ∧ balanced rc ∧ |height lc - height rc| ≤ 1

/-- Height cache correctness: every stored `h` is `1 + max` of the children's
heights, an absent child counting 0. -/
def heights_ok : Node K T → Prop
  | .null => True
  | .node lc _ _ h rc => heights_ok lc ∧ heights_ok rc ∧ h = 1 + max (get_h lc) (get_h rc)

/-- A well-formed tree: BST order, balance and correct stored heights. -/
def well_formed [LinearOrder K] (t : Node K T) : Prop :=
  bst t ∧ balanced t ∧ heights_ok t

instance balanced_decidable : (t : Node K T) → Decidable (balanced t)
  | .null => isTrue trivial
  | .node lc _ _ _ rc =>
    have := balanced_decidable lc
    have := balanced_decidable rc
    inferInstanceAs (Decidable (balanced lc ∧ balanced rc ∧ |height lc - height rc| ≤ 1))

instance heights_ok_decidable : (t : Node K T) → Decidable (heights_ok t)
  | .null => isTrue trivial
  | .node lc _ _ h rc =>
    have := heights_ok_decidable lc
    have := heights_ok_decidable rc
    inferInstanceAs
      (Decidable (heights_ok lc ∧ heights_ok rc ∧ h = 1 + max (get_h lc) (get_h rc)))

instance bst_decidable [LinearOrder K] (t : Node K T) : Decidable (bst t) :=
  inferInstanceAs (Decidable ((keys t).Pairwise (· < ·)))

instance well_formed_decidable [LinearOrder K] (t : Node K T) : Decidable (well_formed t) :=
  inferInstanceAs (Decidable (bst t ∧ balanced t ∧ heights_ok t))

/-- Working invariant: balance and height cache stated on the stored heights. -/
def avl : Node K T → Prop
  | .null => True
  | .node lc _ _ h rc =>
    avl lc ∧ avl rc ∧ h = 1 + max (get_h lc) (get_h rc) ∧
      get_h rc - get_h lc ≤ 1 ∧ get_h lc - get_h rc ≤ 1

/-- Sorted-list counterpart of insertion: replace the value stored with `k`,
or place `(k, v)` just before the first larger key. -/
def ins_list [LinearOrder K] (k : K) (v : T) : List (K × T) → List (K × T)
  | [] => [(k, v)]
  | p :: xs =>
    if k < p.1 then (k, v) :: p :: xs
    else if p.1 < k then p :: ins_list k v xs
    else (k, v) :: xs

/-- A run of public `insert` calls, left to right, starting from `root`. -/
def insert_all [LinearOrder K] (ops : List (K × T)) (root : Node K T) : Option (Node K T) :=
  ops.foldl (fun acc op => acc.bind (insert op.1 op.2)) (some root)

/-- A well-formed tree with keys 1, 3, 5, 7 (values ten times the key). -/
def tree_1357 : Node Int Int :=
  .node (.node .null 1 10 1 .null) 3 30 3 (.node .null 5 50 2 (.node .null 7 70 1 .null))

/-- A public mutation: `insert(key, val)` or `erase(key)`. -/
inductive Op (K T : Type) where
  | ins (key : K) (val : T) : Op K T
  | del (key : K) : Op K T

/-- One public call applied to the tree's `root`. -/
def apply_op [LinearOrder K] : Op K T → Node K T → Option (Node K T)
  | .ins key val, root => insert key val root
  | .del key, root => erase key root

/-- A run of public `insert`/`erase` calls, left to right, starting from `root`. -/
def run_ops [LinearOrder K] (ops : List (Op K T)) (root : Node K T) : Option (Node K T) :=
  ops.foldl (fun acc op => acc.bind (apply_op op)) (some root)

/-- Fewest nodes a tree of height `n` can have when every node is balanced
within 1. -/
def min_nodes : Nat → Nat
  | 0 => 0
  | 1 => 1
  | n + 2 => min_nodes (n + 1) + min_nodes n + 1

/-- The keys of the end-to-end scenario, in insertion order. -/
def scenario_keys : List Int := [5, 3, 8, 1, 4, 7, 9, 2, 6]

/-- The first `n` inserts of the scenario, each key with the value `val`
assigns to it. -/
def scenario_ops (val : Int → T) (n : Nat) : List (Int × T) :=
  (scenario_keys.take n).map (fun k => (k, val k))

/-- Source `balance(node)` (lines 102-120) together with the number of rotation
calls it makes: the same control flow as `balance`, each `left_rot` or
`right_rot` call counted once. -/
def balance_traced : Node K T → Option (Node K T × Nat)
  | .null => some (.null, 0)
  | .node lc key val h rc =>
    let node := update (.node lc key val h rc)
    if get_bf node = -2 then
      if get_bf lc ≠ 1 then (right_rot node).map (fun t => (t, 1))
      else
        match left_rot lc with
        | none => none
        | some lc' =>
          (right_rot (update (.node lc' key val (get_h node) rc))).map (fun t => (t, 2))
    else if get_bf node = 2 then
      if get_bf rc ≠ -1 then (left_rot node).map (fun t => (t, 1))
      else
        match right_rot rc with
        | none => none
        | some rc' =>
          (left_rot (update (.node lc key val (get_h node) rc'))).map (fun t => (t, 2))
    else some (node, 0)

/-- Source `left_rot(node)` or `right_rot(node)` (passed as `rot`) for a
`node` that is the left (`is_lc`) or right child of `par`, seen from `par`
(lines 64-75 and 88-99): the rotated subtree is linked into the slot of `par`
that held `node`, then `update(par)` runs.  A `NULL` parent has no slot of
this kind. -/
def rot_child (rot : Node K T → Option (Node K T)) (is_lc : Bool) :
    Node K T → Option (Node K T)
  | .null => none
  | .node lc key val h rc =>
    if is_lc then
      match rot lc with
      | none => none
      | some lc' => some (update (.node lc' key val h rc))
    else
      match rot rc with
      | none => none
      | some rc' => some (update (.node lc key val h rc'))

/-- The left child `node->lc` (`NULL` for a `NULL` node). -/
def lc_of : Node K T → Node K T
  | .null => .null
  | .node lc _ _ _ _ => lc

/-- The right child `node->rc` (`NULL` for a `NULL` node). -/
def rc_of : Node K T → Node K T
  | .null => .null
  | .node _ _ _ _ rc => rc

/-- A parent `P` holding `N` as its left (`is_lc`) or right child, `S` being
the other child. -/
def parent_of (is_lc : Bool) (N S : Node K T) (pk : K) (pv : T) (ph : Int) : Node K T :=
  if is_lc then .node N pk pv ph S else .node S pk pv ph N

/-- A tree with correct stored heights in which `left_rot` runs on the left
child 1 of the root 4: it arises when key 0 is erased from below 1. -/
def rot_parent_example : Node Int Int :=
  .node (.node .null 1 10 3 (.node .null 2 20 2 (.node .null 3 30 1 .null))) 4 40 4
    (.node .null 5 50 2 (.node .null 6 60 1 .null))

/-- Private `insert(key, val, node)` (lines 122-140) together with the number
of rotation calls made by the `balance` calls on the way back up: the same
control flow as `insert_node`, with `balance_traced` in place of `balance`. -/
def insert_node_traced [LinearOrder K] (key : K) (val : T) :
    Node K T → Option (Node K T × Nat)
  | .null => none
  | .node lc nkey nval h rc =>
    if nkey = key then some (.node lc nkey val h rc, 0)
    else if key < nkey then
      match lc with
      | .null => balance_traced (.node (new_node key val) nkey nval h rc)
      | .node .. =>
        match insert_node_traced key val lc with
        | none => none
        | some (lc', n) =>
          match balance_traced (.node lc' nkey nval h rc) with
          | none => none
          | some (t, m) => some (t, n + m)
    else
      match rc with
      | .null => balance_traced (.node lc nkey nval h (new_node key val))
      | .node .. =>
        match insert_node_traced key val rc with
        | none => none
        | some (rc', n) =>
          match balance_traced (.node lc nkey nval h rc') with
          | none => none
          | some (t, m) => some (t, n + m)

/-- Public `insert(key, val)` (lines 280-286) together with the number of
rotation calls it causes. -/
def insert_traced [LinearOrder K] (key : K) (val : T) (root : Node K T) :
    Option (Node K T × Nat) :=
  match root with
  | .null => some (new_node key val, 0)
  | .node .. => insert_node_traced key val root

/-- The tree `t` with the value stored under key `k` replaced by `v`: same
shape, same keys, same stored heights, same values under every other key. -/
def replace_val [LinearOrder K] (k : K) (v : T) : Node K T → Node K T
  | .null => .null
  | .node lc key val h rc =>
    .node (replace_val k v lc) key (if key = k then v else val) h (replace_val k v rc)

/-- No stored height is negative.  Every height the class writes is 1 (the
constructor, line 28) or `1 + max` of two stored heights (`update`, line 37),
so this holds of every tree the class builds, balanced or not. -/
def heights_nonneg : Node K T → Prop
  | .null => True
  | .node lc _ _ h rc => heights_nonneg lc ∧ heights_nonneg rc ∧ 0 ≤ h

instance heights_nonneg_decidable : (t : Node K T) → Decidable (heights_nonneg t)
  | .null => isTrue trivial
  | .node lc _ _ h rc =>
    have := heights_nonneg_decidable lc
    have := heights_nonneg_decidable rc
    inferInstanceAs (Decidable (heights_nonneg lc ∧ heights_nonneg rc ∧ 0 ≤ h))

/-! ## Pointer-level model

The class as it is written: nodes are heap cells linked by `lc`, `rc` and
`par`, and the member functions update the cells in place. -/

namespace Linked

/-- The pointee of a `Node*` (source lines 21-30): payload, cached height and
the three links, each link an address or `none` for `NULL`. -/
structure Cell (K T : Type) where
  key : K
  val : T
  h : Int
  lc : Option Nat
  rc : Option Nat
  par : Option Nat

/-- The memory seen by an `AVLTree` object: its `root` member and the heap,
which maps the address of every live node to its contents. -/
structure Mem (K T : Type) where
  root : Option Nat
  heap : Nat → Option (Cell K T)

/-- Store `c` at address `a`. -/
def Mem.write (m : Mem K T) (a : Nat) (c : Cell K T) : Mem K T :=
  ⟨m.root, fun x => if x = a then some c else m.heap x⟩

/-- The statement `delete node`: the address is no longer live. -/
def Mem.free (m : Mem K T) (a : Nat) : Mem K T :=
  ⟨m.root, fun x => if x = a then none else m.heap x⟩

/-- An assignment to fields of `*a`; dereferencing a dead address gives `none`. -/
def Mem.modify (m : Mem K T) (a : Nat) (f : Cell K T → Cell K T) : Option (Mem K T) :=
  match m.heap a with
  | none => none
  | some c => some (m.write a (f c))

/-- The guarded assignment `if (p != NULL) p->par = par`. -/
def set_par (m : Mem K T) (p : Option Nat) (par : Option Nat) : Option (Mem K T) :=
  match p with
  | none => some m
  | some a => m.modify a (fun c => { c with par := par })

/-- Source `get_h` (line 32). -/
def get_h (m : Mem K T) (p : Option Nat) : Option Int :=
  match p with
  | none => some 0
  | some a =>
    match m.heap a with
    | none => none
    | some c => some c.h

/-- Source `get_bf` (line 33). -/
def get_bf (m : Mem K T) (p : Option Nat) : Option Int :=
  match p with
  | none => some 0
  | some a =>
    match m.heap a with
    | none => none
    | some c =>
      match get_h m c.rc, get_h m c.lc with
      | some hr, some hl => some (hr - hl)
      | _, _ => none

/-- Source `update` (lines 35-38). -/
def update (m : Mem K T) (p : Option Nat) : Option (Mem K T) :=
  match p with
  | none => some m
  | some a =>
    match m.heap a with
    | none => none
    | some c =>
      match get_h m c.lc, get_h m c.rc with
      | some hl, some hr => some (m.write a { c with h := 1 + max hl hr })
      | _, _ => none

/-- The re-linking of the slot that held `node` (lines 65-71, 89-95, and with
`p = NULL` lines 152-158, 181-187): `root` when `par == NULL`, else `par->lc`
when `par->lc == node`, else `par->rc`. -/
def set_slot (m : Mem K T) (par : Option Nat) (node : Nat) (p : Option Nat) :
    Option (Mem K T) :=
  match par with
  | none => some ⟨p, m.heap⟩
  | some q =>
    match m.heap q with
    | none => none
    | some cq =>
      if cq.lc = some node then some (m.write q { cq with lc := p })
      else some (m.write q { cq with rc := p })

/-- Source `left_rot` (lines 54-76), statement by statement. -/
def left_rot (m : Mem K T) (node : Nat) : Option (Mem K T) := do
  let cn ← m.heap node
  let par := cn.par
  let rc ← cn.rc
  let cr ← m.heap rc
  let m ← m.modify node (fun c => { c with rc := cr.lc })
  let m ← set_par m cr.lc (some node)
  let m ← m.modify rc (fun c => { c with lc := some node })
  let m ← m.modify node (fun c => { c with par := some rc })
  let m ← m.modify rc (fun c => { c with par := par })
  let m ← set_slot m par node (some rc)
  let m ← update m (some node)
  let m ← update m (some rc)
  update m par

/-- Source `right_rot` (lines 78-100), statement by statement. -/
def right_rot (m : Mem K T) (node : Nat) : Option (Mem K T) := do
  let cn ← m.heap node
  let par := cn.par
  let lc ← cn.lc
  let cl ← m.heap lc
  let m ← m.modify node (fun c => { c with lc := cl.rc })
  let m ← set_par m cl.rc (some node)
  let m ← m.modify lc (fun c => { c with rc := some node })
  let m ← m.modify node (fun c => { c with par := some lc })
  let m ← m.modify lc (fun c => { c with par := par })
  let m ← set_slot m par node (some lc)
  let m ← update m (some node)
  let m ← update m (some lc)
  update m par

/-- The field `p->lc` read through a possibly null `p`: reading through `NULL`
or a dead address gives `none`. -/
def read (m : Mem K T) (p : Option Nat) : Option (Cell K T) :=
  match p with
  | none => none
  | some a => m.heap a

/-- Source `balance` (lines 102-120). -/
def balance (m : Mem K T) (node : Option Nat) : Option (Mem K T) := do
  let m ← update m node
  let bf ← get_bf m node
  if bf = -2 then
    let cn ← read m node
    let bfl ← get_bf m cn.lc
    if bfl ≠ 1 then
      let n ← node
      right_rot m n
    else
      let l ← cn.lc
      let m ← left_rot m l
      let n ← node
      right_rot m n
  else if bf = 2 then
    let cn ← read m node
    let bfr ← get_bf m cn.rc
    if bfr ≠ -1 then
      let n ← node
      left_rot m n
    else
      let r ← cn.rc
      let m ← right_rot m r
      let n ← node
      left_rot m n
  else some m

/-- Private `insert(key, val, node)` (lines 122-140).  The recursion is bounded
by `fuel`; `fresh` is the address returned by `new`. -/
def insert_node [LinearOrder K] (fresh : Nat) (key : K) (val : T) :
    Nat → Mem K T → Nat → Option (Mem K T)
  | 0, _, _ => none
  | fuel + 1, m, node => do
    let cn ← m.heap node
    if cn.key = key then m.modify node (fun c => { c with val := val })
    else if key < cn.key then
      match cn.lc with
      | none =>
        let m := m.write fresh ⟨key, val, 1, none, none, some node⟩
        let m ← m.modify node (fun c => { c with lc := some fresh })
        balance m (some node)
      | some l =>
        let m ← insert_node fresh key val fuel m l
        balance m (some node)
    else
      match cn.rc with
      | none =>
        let m := m.write fresh ⟨key, val, 1, none, none, some node⟩
        let m ← m.modify node (fun c => { c with rc := some fresh })
        balance m (some node)
      | some r =>
        let m ← insert_node fresh key val fuel m r
        balance m (some node)

/-- Public `insert(key, val)` (lines 280-286). -/
def insert [LinearOrder K] (fresh : Nat) (key : K) (val : T) (fuel : Nat) (m : Mem K T) :
    Option (Mem K T) :=
  match m.root with
  | none => some ⟨some fresh, (m.write fresh ⟨key, val, 1, none, none, none⟩).heap⟩
  | some r => insert_node fresh key val fuel m r

/-- The removal of a childless `node` (lines 152-160, 181-189): its slot is
set to `NULL` and the node is deleted. -/
def detach (m : Mem K T) (node : Nat) : Option (Mem K T) := do
  let cn ← m.heap node
  let m ← set_slot m cn.par node none
  some (m.free node)

/-- The splice of a child `n` into `node` (lines 162-176, 191-205, 207-221):
key, value and both child links of `n` are copied into `node`, the children
are re-parented to `node`, and `n` is deleted. -/
def splice (m : Mem K T) (node : Nat) (n : Nat) : Option (Mem K T) := do
  let c ← m.heap n
  let m ← m.modify node (fun x => { x with key := c.key })
  let c ← m.heap n
  let m ← m.modify node (fun x => { x with val := c.val })
  let c ← m.heap n
  let m ← m.modify node (fun x => { x with lc := c.lc })
  let c ← m.heap n
  let m ← m.modify node (fun x => { x with rc := c.rc })
  let cn ← m.heap node
  let m ← set_par m cn.lc (some node)
  let cn ← m.heap node
  let m ← set_par m cn.rc (some node)
  some (m.free n)

/-- The promotion of the right child `n` of `node` when `n` has no left child
(lines 223-233): key, value and right link of `n` are copied into `node`, the
new right child is re-parented, and `n` is deleted. -/
def promote (m : Mem K T) (node : Nat) (n : Nat) : Option (Mem K T) := do
  let c ← m.heap n
  let m ← m.modify node (fun x => { x with key := c.key })
  let c ← m.heap n
  let m ← m.modify node (fun x => { x with val := c.val })
  let c ← m.heap n
  let m ← m.modify node (fun x => { x with rc := c.rc })
  let cn ← m.heap node
  let m ← set_par m cn.rc (some node)
  some (m.free n)

/-- Private `erase(key, node, elem)` (lines 142-244).  The recursion is
bounded by `fuel`. -/
def erase_node [LinearOrder K] (key : K) :
    Nat → Mem K T → Option Nat → Option Nat → Option (Mem K T)
  | 0, _, _, _ => none
  | _ + 1, m, none, _ => some m
  | fuel + 1, m, some node, elem => do
    let cn ← m.heap node
    match elem with
    | some e =>
      match cn.lc with
      | some l =>
        let m ← erase_node key fuel m (some l) (some e)
        balance m (some node)
      | none =>
        let m ← m.modify e (fun c => { c with key := cn.key })
        let cn ← m.heap node
        let m ← m.modify e (fun c => { c with val := cn.val })
        let cn ← m.heap node
        match cn.rc with
        | none => detach m node
        | some n =>
          let m ← splice m node n
          balance m (some node)
    | none =>
      if key = cn.key then
        match cn.lc, cn.rc with
        | none, none => detach m node
        | none, some n =>
          let m ← splice m node n
          balance m (some node)
        | some n, none =>
          let m ← splice m node n
          balance m (some node)
        | some _, some r =>
          let cr ← m.heap r
          match cr.lc with
          | none =>
            let m ← promote m node r
            balance m (some node)
          | some _ =>
            let m ← erase_node key fuel m (some r) (some node)
            balance m (some node)
      else if key < cn.key then
        let m ← erase_node key fuel m cn.lc none
        balance m (some node)
      else
        let m ← erase_node key fuel m cn.rc none
        balance m (some node)

/-- Public `erase(key)` (line 288). -/
def erase [LinearOrder K] (key : K) (fuel : Nat) (m : Mem K T) : Option (Mem K T) :=
  erase_node key fuel m m.root none

/-- The heap holds the value-level tree `t` at pointer `p`: every node of `t`
is a live cell with the fields of that node, its child links lead to the cells
of its subtrees, its `par` link is the expected parent (`par` for the root of
`t`, the holding node below), and no cell is used twice.  `fp` lists the
addresses used. -/
def Rep (heap : Nat → Option (Cell K T)) :
    Node K T → Option Nat → Option Nat → List Nat → Prop
  | .null, p, _, fp => p = none ∧ fp = []
  | .node l k v h r, p, par, fp =>
    ∃ a pl pr fl fr, p = some a ∧ heap a = some ⟨k, v, h, pl, pr, par⟩ ∧
      Rep heap l pl (some a) fl ∧ Rep heap r pr (some a) fr ∧
      fp = a :: (fl ++ fr) ∧ a ∉ fl ∧ a ∉ fr ∧ ∀ x ∈ fl, x ∉ fr

/-- The other child of the slot owner `q`: `NULL`, or a live cell outside the
subtree under consideration. -/
def Sib (m : Mem K T) (s : Option Nat) (fp : List Nat) (q : Nat) : Prop :=
  s = none ∨ ∃ b cb, s = some b ∧ b ∉ fp ∧ b ≠ q ∧ m.heap b = some cb

/-- The left (`side = true`) or right child link of a cell. -/
def child (c : Cell K T) (side : Bool) : Option Nat :=
  if side then c.lc else c.rc

/-- The cell with its left (`side = true`) or right child link replaced. -/
def set_child (c : Cell K T) (side : Bool) (p : Option Nat) : Cell K T :=
  if side then { c with lc := p } else { c with rc := p }

/-- The slot holding pointer `p`: the `root` member when `par` is `NULL`,
otherwise the left (`side = true`) or right child link of the live cell `par`,
which lies outside the subtree `fp`. -/
def Slot (m : Mem K T) (p : Option Nat) (par : Option Nat) (side : Bool)
    (fp : List Nat) : Prop :=
  match par with
  | none => m.root = p
  | some q => q ∉ fp ∧ ∃ cq, m.heap q = some cq ∧ child cq side = p ∧
      Sib m (child cq (!side)) fp q

/-- The slot described by `par` and `side` holds `p'` in `m'`; its owner is
otherwise as in `m` except for its cached height. -/
def SlotPost (m m' : Mem K T) (p' : Option Nat) (par : Option Nat) (side : Bool) : Prop :=
  match par with
  | none => m'.root = p'
  | some q => m'.root = m.root ∧ ∃ cq h', m.heap q = some cq ∧
      m'.heap q = some (set_child { cq with h := h' } side p')

/-- The effect of an operation on the subtree in a slot: afterwards the slot
holds a representation of `t'` inside the addresses `fp`, and nothing outside
`fp` and the slot owner has changed. -/
def Post (m m' : Mem K T) (t' : Node K T) (par : Option Nat) (side : Bool)
    (fp : List Nat) : Prop :=
  ∃ p' fp', Rep m'.heap t' p' par fp' ∧ (∀ a ∈ fp', a ∈ fp) ∧ SlotPost m m' p' par side ∧
    ∀ a, a ∉ fp → some a ≠ par → m'.heap a = m.heap a

/-- The heap run `r` follows the value-level run `v`: either both dereference
`NULL` and give no result, or both return, with results related by `P`. -/
def Sim {α : Type} (v : Option α) (r : Option (Mem K T)) (P : α → Mem K T → Prop) : Prop :=
  match v with
  | some a => ∃ m', r = some m' ∧ P a m'
  | none => r = none

/-- The heap holds the value-level tree `t` at pointer `p`, whatever the
parent links are: every node of `t` is a live cell with the key, value and
cached height of that node, its child links lead to the cells of its subtrees,
and no cell is used twice.  `fp` lists the addresses of the nodes. -/
def Shape (heap : Nat → Option (Cell K T)) : Node K T → Option Nat → List Nat → Prop
  | .null, p, fp => p = none ∧ fp = []
  | .node l k v h r, p, fp =>
    ∃ a c fl fr, p = some a ∧ heap a = some c ∧ c.key = k ∧ c.val = v ∧ c.h = h ∧
      Shape heap l c.lc fl ∧ Shape heap r c.rc fr ∧
      fp = a :: (fl ++ fr) ∧ a ∉ fl ∧ a ∉ fr ∧ ∀ x ∈ fl, x ∉ fr

/-- Parent-link consistency of the tree with nodes `fp`: the `par` of the root
is `NULL`, and the `par` of every node held as `lc` or `rc` by a node of the
tree is that node. -/
def parent_links_ok (m : Mem K T) (fp : List Nat) : Prop :=
  (∀ a c, m.root = some a → m.heap a = some c → c.par = none) ∧
  ∀ a ∈ fp, ∀ c b cb, m.heap a = some c → (c.lc = some b ∨ c.rc = some b) →
    m.heap b = some cb → cb.par = some a

/-- An unbalanced tree with correct stored heights: 5 with the only child 3,
which holds 2 and 4. -/
def tree_5324 : Node Int Int :=
  .node (.node (.node .null 2 20 1 .null) 3 30 2 (.node .null 4 40 1 .null)) 5 50 3 .null

/-- The tree `tree_5324` laid out at the addresses 0 to 3. -/
def mem_5324 : Mem Int Int :=
  ⟨some 0, fun a =>
    match a with
    | 0 => some ⟨5, 50, 3, some 1, none, none⟩
    | 1 => some ⟨3, 30, 2, some 2, some 3, some 0⟩
    | 2 => some ⟨2, 20, 1, none, none, some 1⟩
    | 3 => some ⟨4, 40, 1, none, none, some 1⟩
    | _ => none⟩

end Linked

/-! ## Auxiliary lemmas -/

@[simp] theorem get_h_null : get_h (.null : Node K T) = 0 := rfl

@[simp] theorem get_h_node (lc rc : Node K T) (key : K) (val : T) (h : Int) :
    get_h (.node lc key val h rc) = h := rfl

theorem get_h_eq_height {t : Node K T} (ht : heights_ok t) : get_h t = height t := by
  induction t with
  | null => rfl
  | node lc key val h rc ihl ihr =>
    obtain ⟨hl, hr, hh⟩ := ht
    simp only [get_h_node, height, hh, ihl hl, ihr hr]

theorem avl_iff (t : Node K T) : avl t ↔ balanced t ∧ heights_ok t := by
  induction t with
  | null => simp [avl, balanced, heights_ok]
  | node lc key val h rc ihl ihr =>
    simp only [avl, balanced, heights_ok, ihl, ihr]
    constructor
    · rintro ⟨⟨bl, ol⟩, ⟨br, or_⟩, hh, h1, h2⟩
      rw [get_h_eq_height ol, get_h_eq_height or_] at h1 h2
      exact ⟨⟨bl, br, abs_le.mpr ⟨by omega, by omega⟩⟩, ol, or_, hh⟩
    · rintro ⟨⟨bl, br, hb⟩, ol, or_, hh⟩
      have := abs_le.mp hb
      rw [get_h_eq_height ol, get_h_eq_height or_]
      rw [get_h_eq_height ol, get_h_eq_height or_] at hh
      exact ⟨⟨bl, ol⟩, ⟨br, or_⟩, hh, by omega, by omega⟩

theorem avl_get_h_nonneg {t : Node K T} (ht : avl t) : 0 ≤ get_h t := by
  induction t with
  | null => simp [get_h]
  | node lc key val h rc ihl ihr =>
    obtain ⟨al, ar, hh, -, -⟩ := ht
    have := ihl al
    have := ihr ar
    simp only [get_h]
    omega

theorem avl_get_h_pos {lc rc : Node K T} {key : K} {val : T} {h : Int}
    (ht : avl (.node lc key val h rc)) : 1 ≤ h := by
  obtain ⟨al, ar, hh, -, -⟩ := ht
  have := avl_get_h_nonneg al
  have := avl_get_h_nonneg ar
  omega

theorem balance_of_even (lc rc : Node K T) (key : K) (val : T) (h : Int)
    (c1 : get_h rc - get_h lc ≠ -2) (c2 : get_h rc - get_h lc ≠ 2) :
    balance (.node lc key val h rc) =
      some (.node lc key val (1 + max (get_h lc) (get_h rc)) rc) := by
  simp [balance, update, get_bf, c1, c2]

theorem balance_left_single (ll lr rc : Node K T) (lk key : K) (lv val : T) (lh h : Int)
    (c1 : get_h rc - lh = -2) (c2 : get_h lr - get_h ll ≠ 1) :
    balance (.node (.node ll lk lv lh lr) key val h rc) =
      some (.node ll lk lv (1 + max (get_h ll) (1 + max (get_h lr) (get_h rc)))
        (.node lr key val (1 + max (get_h lr) (get_h rc)) rc)) := by
  simp [balance, update, get_bf, c1, c2, right_rot]

theorem balance_left_double (ll lrl lrr rc : Node K T) (lk lrk key : K) (lv lrv val : T)
    (lh lrh h : Int) (c1 : get_h rc - lh = -2) (c2 : lrh - get_h ll = 1) :
    balance (.node (.node ll lk lv lh (.node lrl lrk lrv lrh lrr)) key val h rc) =
      some (.node (.node ll lk lv (1 + max (get_h ll) (get_h lrl)) lrl) lrk lrv
        (1 + max (1 + max (get_h ll) (get_h lrl)) (1 + max (get_h lrr) (get_h rc)))
        (.node lrr key val (1 + max (get_h lrr) (get_h rc)) rc)) := by
  simp [balance, update, get_bf, c1, c2, left_rot, right_rot]

theorem balance_right_single (lc rl rr : Node K T) (rk key : K) (rv val : T) (rh h : Int)
    (c1 : rh - get_h lc = 2) (c2 : get_h rr - get_h rl ≠ -1) :
    balance (.node lc key val h (.node rl rk rv rh rr)) =
      some (.node (.node lc key val (1 + max (get_h lc) (get_h rl)) rl) rk rv
        (1 + max (1 + max (get_h lc) (get_h rl)) (get_h rr)) rr) := by
  simp [balance, update, get_bf, c1, c2, left_rot]

theorem balance_right_double (lc rll rlr rr : Node K T) (rlk rk key : K) (rlv rv val : T)
    (rlh rh h : Int) (c1 : rh - get_h lc = 2) (c2 : get_h rr - rlh = -1) :
    balance (.node lc key val h (.node (.node rll rlk rlv rlh rlr) rk rv rh rr)) =
      some (.node (.node lc key val (1 + max (get_h lc) (get_h rll)) rll) rlk rlv
        (1 + max (1 + max (get_h lc) (get_h rll)) (1 + max (get_h rlr) (get_h rr)))
        (.node rlr rk rv (1 + max (get_h rlr) (get_h rr)) rr)) := by
  simp [balance, update, get_bf, c1, c2, left_rot, right_rot]

/-- What `balance` does to a node whose children are AVL and differ in height
by at most 2. -/
theorem balance_spec (lc rc : Node K T) (key : K) (val : T) (h : Int)
    (al : avl lc) (ar : avl rc)
    (h1 : get_h rc - get_h lc ≤ 2) (h2 : get_h lc - get_h rc ≤ 2) :
    ∃ t, balance (.node lc key val h rc) = some t ∧ avl t ∧
      inorder t = inorder lc ++ (key, val) :: inorder rc ∧
      max (get_h lc) (get_h rc) ≤ get_h t ∧ get_h t ≤ 1 + max (get_h lc) (get_h rc) ∧
      (get_h rc - get_h lc ≤ 1 ∧ get_h lc - get_h rc ≤ 1 →
        t = .node lc key val (1 + max (get_h lc) (get_h rc)) rc) := by
  have nl := avl_get_h_nonneg al
  have nr := avl_get_h_nonneg ar
  by_cases c1 : get_h rc - get_h lc = -2
  · -- left-heavy
    cases lc with
    | null => simp only [get_h_null] at *; omega
    | node ll lk lv lh lr =>
      obtain ⟨all, alr, hlh, b1, b2⟩ := al
      have nll := avl_get_h_nonneg all
      have nlr := avl_get_h_nonneg alr
      simp only [get_h_node] at c1 h1 h2 nl
      by_cases c2 : get_h lr - get_h ll = 1
      · cases lr with
        | null => simp only [get_h_null] at *; omega
        | node lrl lrk lrv lrh lrr =>
          obtain ⟨a1, a2, hlrh, b3, b4⟩ := alr
          have := avl_get_h_nonneg a1
          have := avl_get_h_nonneg a2
          simp only [get_h_node] at c2 b1 b2 hlh nlr
          refine ⟨_, balance_left_double _ _ _ _ _ _ _ _ _ _ _ _ _ c1 c2, ?_, ?_, ?_, ?_, ?_⟩
          · refine ⟨⟨all, a1, rfl, ?_, ?_⟩, ⟨a2, ar, rfl, ?_, ?_⟩, rfl, ?_, ?_⟩ <;>
              (try simp only [get_h_node]) <;> omega
          · simp [inorder]
          · simp only [get_h_node]; omega
          · simp only [get_h_node]; omega
          · rintro ⟨_, _⟩; simp only [get_h_node] at *; omega
      · refine ⟨_, balance_left_single _ _ _ _ _ _ _ _ _ c1 c2, ?_, ?_, ?_, ?_, ?_⟩
        · refine ⟨all, ⟨alr, ar, rfl, ?_, ?_⟩, rfl, ?_, ?_⟩ <;>
            (try simp only [get_h_node]) <;> omega
        · simp [inorder]
        · simp only [get_h_node]; omega
        · simp only [get_h_node]; omega
        · rintro ⟨_, _⟩; simp only [get_h_node] at *; omega
  · by_cases c3 : get_h rc - get_h lc = 2
    · cases rc with
      | null => simp only [get_h_null] at *; omega
      | node rl rk rv rh rr =>
        obtain ⟨arl, arr, hrh, b1, b2⟩ := ar
        have nrl := avl_get_h_nonneg arl
        have nrr := avl_get_h_nonneg arr
        simp only [get_h_node] at c1 c3 h1 h2 nr
        by_cases c4 : get_h rr - get_h rl = -1
        · cases rl with
          | null => simp only [get_h_null] at *; omega
          | node rll rlk rlv rlh rlr =>
            obtain ⟨a1, a2, hrlh, b3, b4⟩ := arl
            have := avl_get_h_nonneg a1
            have := avl_get_h_nonneg a2
            simp only [get_h_node] at c4 b1 b2 hrh nrl
            refine ⟨_, balance_right_double _ _ _ _ _ _ _ _ _ _ _ _ _ c3 c4, ?_, ?_, ?_, ?_, ?_⟩
            · refine ⟨⟨al, a1, rfl, ?_, ?_⟩, ⟨a2, arr, rfl, ?_, ?_⟩, rfl, ?_, ?_⟩ <;>
                (try simp only [get_h_node]) <;> omega
            · simp [inorder]
            · simp only [get_h_node]; omega
            · simp only [get_h_node]; omega
            · rintro ⟨_, _⟩; simp only [get_h_node] at *; omega
        · refine ⟨_, balance_right_single _ _ _ _ _ _ _ _ _ c3 c4, ?_, ?_, ?_, ?_, ?_⟩
          · refine ⟨⟨al, arl, rfl, ?_, ?_⟩, arr, rfl, ?_, ?_⟩ <;>
              (try simp only [get_h_node]) <;> omega
          · simp [inorder]
          · simp only [get_h_node]; omega
          · simp only [get_h_node]; omega
          · rintro ⟨_, _⟩; simp only [get_h_node] at *; omega
    · refine ⟨_, balance_of_even _ _ _ _ _ c1 c3, ?_, ?_, ?_, ?_, ?_⟩
      · refine ⟨al, ar, rfl, ?_, ?_⟩ <;> omega
      · simp [inorder]
      · simp only [get_h_node]; omega
      · simp only [get_h_node]; omega
      · intro _; rfl

theorem erase_elem_node (lc rc : Node K T) (nkey : K) (nval : T) (h : Int) :
    erase_elem (.node lc nkey nval h rc) =
      match lc with
      | .node .. =>
        match erase_elem lc with
        | none => none
        | some (lc', w) =>
          match balance (.node lc' nkey nval h rc) with
          | none => none
          | some t => some (t, w)
      | .null =>
        match rc with
        | .null => some (.null, some (nkey, nval))
        | .node nlc k2 v2 _ nrc =>
          match balance (.node nlc k2 v2 h nrc) with
          | none => none
          | some t => some (t, some (nkey, nval)) := by
  cases lc <;> cases rc <;> rfl

theorem avl_new_node (k : K) (v : T) : avl (new_node k v) := by
  simp [new_node, avl]

/-- The successor extraction (`erase` with `elem != NULL`) on a non-null AVL
subtree removes the leftmost entry and reports it. -/
theorem erase_elem_spec (t : Node K T) (hne : t ≠ .null) (a : avl t) :
    ∃ t' kv, erase_elem t = some (t', some kv) ∧ avl t' ∧ get_h t - 1 ≤ get_h t' ∧
      get_h t' ≤ get_h t ∧ inorder t = kv :: inorder t' := by
  induction t with
  | null => exact absurd rfl hne
  | node lc nkey nval h rc ihl _ =>
    obtain ⟨al, ar, hh, b1, b2⟩ := a
    have nl := avl_get_h_nonneg al
    have nr := avl_get_h_nonneg ar
    cases lc with
    | null =>
      cases rc with
      | null =>
        refine ⟨.null, (nkey, nval), by simp [erase_elem_node], trivial, ?_, ?_, by simp [inorder]⟩
        · simp only [get_h_null, get_h_node] at *; omega
        · simp only [get_h_null, get_h_node] at *; omega
      | node nlc k2 v2 rh nrc =>
        obtain ⟨a1, a2, hrh, b3, b4⟩ := ar
        obtain ⟨t', e, at', io, g1, g2, g3⟩ := balance_spec nlc nrc k2 v2 h a1 a2 (by omega) (by omega)
        have e3 := g3 ⟨b3, b4⟩
        refine ⟨t', (nkey, nval), by simp [erase_elem_node, e], at', ?_, ?_, ?_⟩
        · subst e3; simp only [get_h_null, get_h_node] at *; omega
        · subst e3; simp only [get_h_null, get_h_node] at *; omega
        · rw [io]; simp [inorder]
    | node ll lk lv lh lr =>
      obtain ⟨lc', kv, e1, al', g1, g2, io1⟩ := ihl (by simp) al
      obtain ⟨t', e, at', io, g3, g4, g5⟩ :=
        balance_spec lc' rc nkey nval h al' ar (by omega) (by omega)
      refine ⟨t', kv, ?_, at', ?_, ?_, ?_⟩
      · rw [erase_elem_node]
        simp only [e1, e]
      · by_cases c : get_h rc - get_h lc' ≤ 1 ∧ get_h lc' - get_h rc ≤ 1
        · rw [g5 c]; simp only [get_h_node] at *; omega
        · simp only [get_h_node] at *; omega
      · simp only [get_h_node] at *; omega
      · rw [io]
        show inorder (.node ll lk lv lh lr) ++ _ = _
        rw [io1]; rfl

theorem mem_keys_node (k : K) (lc rc : Node K T) (key : K) (val : T) (h : Int) :
    k ∈ keys (.node lc key val h rc) ↔ k ∈ keys lc ∨ k = key ∨ k ∈ keys rc := by
  simp only [keys, inorder, List.map_append, List.map_cons, List.mem_append, List.mem_cons]

theorem size_eq_length (t : Node K T) : size t = (inorder t).length := by
  induction t with
  | null => rfl
  | node lc key val h rc ihl ihr => simp [size, inorder, ihl, ihr]; omega

theorem find_pairwise_iff {α : Type} (R : α → α → Prop) (P : α → Bool) (xs : List α)
    (hp : xs.Pairwise R) (hasym : ∀ a b, R a b → ¬ R b a) (p : α) :
    xs.find? P = some p ↔
      p ∈ xs ∧ P p = true ∧ ∀ q ∈ xs, P q = true → q = p ∨ R p q := by
  induction xs with
  | nil => simp
  | cons x xs ih =>
    obtain ⟨hx, hxs⟩ := List.pairwise_cons.mp hp
    by_cases c : P x = true
    · rw [List.find?_cons_of_pos _ c]
      constructor
      · intro e
        cases e
        refine ⟨List.mem_cons_self _ _, c, ?_⟩
        intro q hq _
        rcases List.mem_cons.mp hq with rfl | hq
        · exact Or.inl rfl
        · exact Or.inr (hx q hq)
      · rintro ⟨hm, _, hmin⟩
        rcases List.mem_cons.mp hm with rfl | hm
        · rfl
        · rcases hmin x (List.mem_cons_self _ _) c with e | r
          · rw [e]
          · exact absurd (hx p hm) (hasym _ _ r)
    · rw [List.find?_cons_of_neg _ c, ih hxs]
      constructor
      · rintro ⟨hm, hP, hmin⟩
        refine ⟨List.mem_cons_of_mem _ hm, hP, ?_⟩
        intro q hq hPq
        rcases List.mem_cons.mp hq with rfl | hq
        · exact absurd hPq c
        · exact hmin q hq hPq
      · rintro ⟨hm, hP, hmin⟩
        rcases List.mem_cons.mp hm with rfl | hm
        · exact absurd hP c
        · exact ⟨hm, hP, fun q hq hPq => hmin q (List.mem_cons_of_mem _ hq) hPq⟩

theorem mem_keys_iff (k : K) (t : Node K T) : k ∈ keys t ↔ ∃ v, (k, v) ∈ inorder t := by
  simp [keys]

section order
variable [LinearOrder K]

theorem bst_node (lc rc : Node K T) (key : K) (val : T) (h : Int) :
    bst (.node lc key val h rc) ↔
      bst lc ∧ bst rc ∧ (∀ p ∈ inorder lc, p.1 < key) ∧ (∀ p ∈ inorder rc, key < p.1) := by
  simp only [bst, keys, inorder, List.map_append, List.map_cons, List.pairwise_append,
    List.pairwise_cons, List.mem_map, List.mem_cons]
  constructor
  · rintro ⟨h1, ⟨h2, h3⟩, h4⟩
    refine ⟨h1, h3, ?_, ?_⟩
    · intro p hp
      exact h4 _ ⟨p, hp, rfl⟩ _ (Or.inl rfl)
    · intro p hp
      exact h2 _ ⟨p, hp, rfl⟩
  · rintro ⟨h1, h2, h3, h4⟩
    refine ⟨h1, ⟨?_, h2⟩, ?_⟩
    · rintro a ⟨p, hp, rfl⟩
      exact h4 p hp
    · rintro a ⟨p, hp, rfl⟩ b (rfl | ⟨q, hq, rfl⟩)
      · exact h3 p hp
      · exact lt_trans (h3 p hp) (h4 q hq)

theorem ins_list_append_lt (k : K) (v : T) (key : K) (val : T) (hk : k < key)
    (L R : List (K × T)) :
    ins_list k v (L ++ (key, val) :: R) = ins_list k v L ++ (key, val) :: R := by
  induction L with
  | nil => simp [ins_list, hk]
  | cons p xs ih =>
    simp only [List.cons_append, ins_list]
    split_ifs <;> simp [ih]

theorem ins_list_append_gt (k : K) (v : T) (key : K) (val : T) (hk : key < k)
    (L R : List (K × T)) (hL : ∀ p ∈ L, p.1 < k) :
    ins_list k v (L ++ (key, val) :: R) = L ++ (key, val) :: ins_list k v R := by
  induction L with
  | nil => simp [ins_list, hk, not_lt_of_lt hk]
  | cons p xs ih =>
    have hp : p.1 < k := hL p (List.mem_cons_self _ _)
    simp [ins_list, hp, not_lt_of_lt hp, ih (fun q hq => hL q (List.mem_cons_of_mem _ hq))]

theorem ins_list_append_eq (k : K) (v : T) (val : T)
    (L R : List (K × T)) (hL : ∀ p ∈ L, p.1 < k) :
    ins_list k v (L ++ (k, val) :: R) = L ++ (k, v) :: R := by
  induction L with
  | nil => simp [ins_list]
  | cons p xs ih =>
    have hp : p.1 < k := hL p (List.mem_cons_self _ _)
    simp [ins_list, hp, not_lt_of_lt hp, ih (fun q hq => hL q (List.mem_cons_of_mem _ hq))]

theorem insert_node_node (k : K) (v : T) (lc rc : Node K T) (nkey : K) (nval : T) (h : Int) :
    insert_node k v (.node lc nkey nval h rc) =
      if nkey = k then some (.node lc nkey v h rc)
      else if k < nkey then
        match lc with
        | .null => balance (.node (new_node k v) nkey nval h rc)
        | .node .. =>
          match insert_node k v lc with
          | none => none
          | some lc' => balance (.node lc' nkey nval h rc)
      else
        match rc with
        | .null => balance (.node lc nkey nval h (new_node k v))
        | .node .. =>
          match insert_node k v rc with
          | none => none
          | some rc' => balance (.node lc nkey nval h rc') := by
  cases lc <;> cases rc <;> rfl

theorem erase_node_node (key : K) (lc rc : Node K T) (nkey : K) (nval : T) (h : Int) :
    erase_node key (.node lc nkey nval h rc) =
    if key = nkey then
      match lc, rc with
      | .null, .null => some .null
      | .null, .node nlc k2 v2 _ nrc => balance (.node nlc k2 v2 h nrc)
      | .node nlc k2 v2 _ nrc, .null => balance (.node nlc k2 v2 h nrc)
      | .node .., .node .null k2 v2 _ nrc => balance (.node lc k2 v2 h nrc)
      | .node .., .node (.node ..) .. =>
        match erase_elem rc with
        | none => none
        | some (rc', w) =>
          match w with
          | none => balance (.node lc nkey nval h rc')
          | some (k2, v2) => balance (.node lc k2 v2 h rc')
    else if key < nkey then
      match erase_node key lc with
      | none => none
      | some lc' => balance (.node lc' nkey nval h rc)
    else
      match erase_node key rc with
      | none => none
      | some rc' => balance (.node lc nkey nval h rc') := by
  cases lc <;> cases rc <;> rfl
/-- The private `insert` on a non-null AVL, BST-ordered subtree. -/
theorem insert_node_spec (k : K) (v : T) (t : Node K T) (hne : t ≠ .null)
    (a : avl t) (b : bst t) :
    ∃ t', insert_node k v t = some t' ∧ avl t' ∧ get_h t ≤ get_h t' ∧
      get_h t' ≤ get_h t + 1 ∧ inorder t' = ins_list k v (inorder t) := by
  induction t with
  | null => exact absurd rfl hne
  | node lc nkey nval h rc ihl ihr =>
    obtain ⟨al, ar, hh, b1, b2⟩ := a
    obtain ⟨bl, br, hlt, hgt⟩ := (bst_node _ _ _ _ _).mp b
    have nl := avl_get_h_nonneg al
    have nr := avl_get_h_nonneg ar
    by_cases c1 : nkey = k
    · subst c1
      refine ⟨.node lc nkey v h rc, by simp [insert_node_node], ⟨al, ar, hh, b1, b2⟩, le_refl _,
        by simp only [get_h_node]; omega, ?_⟩
      simp only [inorder]
      rw [ins_list_append_eq _ _ _ _ _ hlt]
    · by_cases c2 : k < nkey
      · cases lc with
        | null =>
          simp only [get_h_null] at *
          obtain ⟨t', e, at', io, g1, g2, g3⟩ :=
            balance_spec (new_node k v) rc nkey nval h (avl_new_node k v) ar
              (by simp only [new_node, get_h_node]; omega)
              (by simp only [new_node, get_h_node]; omega)
          simp only [new_node, get_h_node] at g1 g2 g3
          have e3 := g3 ⟨by omega, by omega⟩
          refine ⟨t', by simpa [insert_node_node, c1, c2] using e, at', ?_, ?_, ?_⟩
          · subst e3; simp only [get_h_node]; omega
          · subst e3; simp only [get_h_node]; omega
          · rw [io]; simp [inorder, new_node, ins_list, c2]
        | node ll lk lv lh lr =>
          obtain ⟨lc', e1, al', g1, g2, io1⟩ := ihl (by simp) al bl
          obtain ⟨t', e, at', io, g3, g4, g5⟩ :=
            balance_spec lc' rc nkey nval h al' ar (by omega) (by omega)
          refine ⟨t', ?_, at', ?_, ?_, ?_⟩
          · rw [insert_node_node]
            simp only [c1, c2, if_false, if_true, e1]
            exact e
          · by_cases c : get_h rc - get_h lc' ≤ 1 ∧ get_h lc' - get_h rc ≤ 1
            · rw [g5 c]; simp only [get_h_node] at *; omega
            · simp only [get_h_node] at *; omega
          · simp only [get_h_node] at *; omega
          · rw [io, io1]
            simp only [inorder]
            rw [ins_list_append_lt _ _ _ _ c2]
      · have c3 : nkey < k := lt_of_le_of_ne (not_lt.mp c2) c1
        have hlk : ∀ p ∈ inorder lc, p.1 < k := fun p hp => lt_trans (hlt p hp) c3
        cases rc with
        | null =>
          simp only [get_h_null] at *
          obtain ⟨t', e, at', io, g1, g2, g3⟩ :=
            balance_spec lc (new_node k v) nkey nval h al (avl_new_node k v)
              (by simp only [new_node, get_h_node]; omega)
              (by simp only [new_node, get_h_node]; omega)
          simp only [new_node, get_h_node] at g1 g2 g3
          have e3 := g3 ⟨by omega, by omega⟩
          refine ⟨t', by simpa [insert_node_node, c1, c2] using e, at', ?_, ?_, ?_⟩
          · subst e3; simp only [get_h_node]; omega
          · subst e3; simp only [get_h_node]; omega
          · rw [io]
            simp only [inorder, new_node, List.nil_append]
            rw [ins_list_append_gt _ _ _ _ c3 _ _ hlk]
            simp [ins_list]
        | node rl rk rv rh rr =>
          obtain ⟨rc', e1, ar', g1, g2, io1⟩ := ihr (by simp) ar br
          obtain ⟨t', e, at', io, g3, g4, g5⟩ :=
            balance_spec lc rc' nkey nval h al ar' (by omega) (by omega)
          refine ⟨t', ?_, at', ?_, ?_, ?_⟩
          · rw [insert_node_node]
            simp only [c1, c2, if_false, if_true, e1]
            exact e
          · by_cases c : get_h rc' - get_h lc ≤ 1 ∧ get_h lc - get_h rc' ≤ 1
            · rw [g5 c]; simp only [get_h_node] at *; omega
            · simp only [get_h_node] at *; omega
          · simp only [get_h_node] at *; omega
          · rw [io, io1]
            simp only [inorder]
            rw [ins_list_append_gt _ _ _ _ c3 _ _ hlk]

theorem filter_ne_append_eq (k : K) (val : T) (L R : List (K × T))
    (hL : ∀ p ∈ L, p.1 < k) (hR : ∀ p ∈ R, k < p.1) :
    (L ++ (k, val) :: R).filter (fun p => decide (p.1 ≠ k)) = L ++ R := by
  rw [List.filter_append, List.filter_cons]
  have h1 : L.filter (fun p => decide (p.1 ≠ k)) = L :=
    List.filter_eq_self.mpr (fun p hp => by simpa using ne_of_lt (hL p hp))
  have h2 : R.filter (fun p => decide (p.1 ≠ k)) = R :=
    List.filter_eq_self.mpr (fun p hp => by simpa using ne_of_gt (hR p hp))
  rw [h1, h2]; simp

theorem filter_ne_append_lt (k key : K) (val : T) (L R : List (K × T)) (hk : k < key)
    (hR : ∀ p ∈ R, key < p.1) :
    (L ++ (key, val) :: R).filter (fun p => decide (p.1 ≠ k)) =
      L.filter (fun p => decide (p.1 ≠ k)) ++ (key, val) :: R := by
  rw [List.filter_append, List.filter_cons]
  have h2 : R.filter (fun p => decide (p.1 ≠ k)) = R :=
    List.filter_eq_self.mpr (fun p hp => by simpa using ne_of_gt (lt_trans hk (hR p hp)))
  rw [h2]; simp [ne_of_gt hk]

theorem filter_ne_append_gt (k key : K) (val : T) (L R : List (K × T)) (hk : key < k)
    (hL : ∀ p ∈ L, p.1 < key) :
    (L ++ (key, val) :: R).filter (fun p => decide (p.1 ≠ k)) =
      L ++ (key, val) :: R.filter (fun p => decide (p.1 ≠ k)) := by
  rw [List.filter_append, List.filter_cons]
  have h1 : L.filter (fun p => decide (p.1 ≠ k)) = L :=
    List.filter_eq_self.mpr (fun p hp => by simpa using ne_of_lt (lt_trans (hL p hp) hk))
  rw [h1]; simp [ne_of_lt hk]

/-- The private `erase` with `elem == NULL` on an AVL, BST-ordered subtree. -/
theorem erase_node_spec (k : K) (t : Node K T) (a : avl t) (b : bst t) :
    ∃ t', erase_node k t = some t' ∧ avl t' ∧ get_h t - 1 ≤ get_h t' ∧
      get_h t' ≤ get_h t ∧
      inorder t' = (inorder t).filter (fun p => decide (p.1 ≠ k)) ∧
      (k ∉ keys t → t' = t) := by
  induction t with
  | null => exact ⟨.null, rfl, trivial, by simp, by simp, by simp [inorder], fun _ => rfl⟩
  | node lc nkey nval h rc ihl ihr =>
    have a0 := a
    obtain ⟨al, ar, hh, b1, b2⟩ := a
    obtain ⟨bl, br, hlt, hgt⟩ := (bst_node _ _ _ _ _).mp b
    have nl := avl_get_h_nonneg al
    have nr := avl_get_h_nonneg ar
    by_cases c1 : k = nkey
    · subst c1
      have hmem : ¬ k ∉ keys (.node lc k nval h rc) := by
        simp [mem_keys_node]
      have hio : (inorder (.node lc k nval h rc)).filter (fun p => decide (p.1 ≠ k)) =
          inorder lc ++ inorder rc := filter_ne_append_eq k nval _ _ hlt hgt
      rw [hio]
      cases lc with
      | null =>
        cases rc with
        | null =>
          refine ⟨.null, by simp [erase_node_node], trivial, ?_, ?_, by simp [inorder],
            fun hk => absurd hk hmem⟩
          · simp only [get_h_null, get_h_node] at *; omega
          · simp only [get_h_null, get_h_node] at *; omega
        | node nlc k2 v2 rh nrc =>
          obtain ⟨a1, a2, hrh, b3, b4⟩ := ar
          obtain ⟨t', e, at', io, g1, g2, g3⟩ :=
            balance_spec nlc nrc k2 v2 h a1 a2 (by omega) (by omega)
          have e3 := g3 ⟨b3, b4⟩
          refine ⟨t', by simp [erase_node_node, e], at', ?_, ?_, ?_, fun hk => absurd hk hmem⟩
          · subst e3; simp only [get_h_null, get_h_node] at *; omega
          · subst e3; simp only [get_h_null, get_h_node] at *; omega
          · rw [io]; simp [inorder]
      | node ll lk lv lh lr =>
        cases rc with
        | null =>
          obtain ⟨a1, a2, hlh, b3, b4⟩ := al
          obtain ⟨t', e, at', io, g1, g2, g3⟩ :=
            balance_spec ll lr lk lv h a1 a2 (by omega) (by omega)
          have e3 := g3 ⟨b3, b4⟩
          refine ⟨t', by simp [erase_node_node, e], at', ?_, ?_, ?_, fun hk => absurd hk hmem⟩
          · subst e3; simp only [get_h_null, get_h_node] at *; omega
          · subst e3; simp only [get_h_null, get_h_node] at *; omega
          · rw [io]; simp [inorder]
        | node rl rk rv rh rr =>
          cases rl with
          | null =>
            obtain ⟨-, a2, hrh, b3, b4⟩ := ar
            have := avl_get_h_nonneg a2
            simp only [get_h_null, get_h_node] at *
            obtain ⟨t', e, at', io, g1, g2, g3⟩ :=
              balance_spec (.node ll lk lv lh lr) rr rk rv h al a2
                (by simp only [get_h_node]; omega) (by simp only [get_h_node]; omega)
            refine ⟨t', by simp [erase_node_node, e], at', ?_, ?_, ?_,
              fun hk => absurd hk hmem⟩
            · by_cases c : get_h rr - get_h (.node ll lk lv lh lr) ≤ 1 ∧
                  get_h (.node ll lk lv lh lr) - get_h rr ≤ 1
              · rw [g3 c]; simp only [get_h_node] at *; omega
              · simp only [get_h_node] at *; omega
            · simp only [get_h_node] at *; omega
            · rw [io]; simp [inorder]
          | node rll rlk rlv rlh rlr =>
            obtain ⟨rc', kv, e1, ar', g1, g2, io1⟩ :=
              erase_elem_spec (.node (.node rll rlk rlv rlh rlr) rk rv rh rr) (by simp) ar
            obtain ⟨t', e, at', io, g3, g4, g5⟩ :=
              balance_spec (.node ll lk lv lh lr) rc' kv.1 kv.2 h al ar'
                (by omega) (by omega)
            refine ⟨t', ?_, at', ?_, ?_, ?_, fun hk => absurd hk hmem⟩
            · rw [erase_node_node]
              simp only [if_true, e1]
              exact e
            · by_cases c : get_h rc' - get_h (.node ll lk lv lh lr) ≤ 1 ∧
                  get_h (.node ll lk lv lh lr) - get_h rc' ≤ 1
              · rw [g5 c]; simp only [get_h_node] at *; omega
              · simp only [get_h_node] at *; omega
            · simp only [get_h_node] at *; omega
            · rw [io, io1]
    · by_cases c2 : k < nkey
      · obtain ⟨lc', e1, al', g1, g2, io1, same⟩ := ihl al bl
        obtain ⟨t', e, at', io, g3, g4, g5⟩ :=
          balance_spec lc' rc nkey nval h al' ar (by omega) (by omega)
        refine ⟨t', ?_, at', ?_, ?_, ?_, ?_⟩
        · rw [erase_node_node]
          simp only [c1, c2, if_false, if_true, e1]
          exact e
        · by_cases c : get_h rc - get_h lc' ≤ 1 ∧ get_h lc' - get_h rc ≤ 1
          · rw [g5 c]; simp only [get_h_node] at *; omega
          · simp only [get_h_node] at *; omega
        · simp only [get_h_node] at *; omega
        · rw [io, io1]
          simp only [inorder]
          rw [filter_ne_append_lt k nkey nval _ _ c2 hgt]
        · intro hk
          have hl : lc' = lc := same (fun hm => hk ((mem_keys_node _ _ _ _ _ _).mpr (Or.inl hm)))
          subst hl
          rw [g5 ⟨b1, b2⟩, hh]
      · have c3 : nkey < k := lt_of_le_of_ne (not_lt.mp c2) (Ne.symm c1)
        obtain ⟨rc', e1, ar', g1, g2, io1, same⟩ := ihr ar br
        obtain ⟨t', e, at', io, g3, g4, g5⟩ :=
          balance_spec lc rc' nkey nval h al ar' (by omega) (by omega)
        refine ⟨t', ?_, at', ?_, ?_, ?_, ?_⟩
        · rw [erase_node_node]
          simp only [c1, c2, if_false, if_true, e1]
          exact e
        · by_cases c : get_h rc' - get_h lc ≤ 1 ∧ get_h lc - get_h rc' ≤ 1
          · rw [g5 c]; simp only [get_h_node] at *; omega
          · simp only [get_h_node] at *; omega
        · simp only [get_h_node] at *; omega
        · rw [io, io1]
          simp only [inorder]
          rw [filter_ne_append_gt k nkey nval _ _ c3 hlt]
        · intro hk
          have hr : rc' = rc :=
            same (fun hm => hk ((mem_keys_node _ _ _ _ _ _).mpr (Or.inr (Or.inr hm))))
          subst hr
          rw [g5 ⟨b1, b2⟩, hh]

theorem mem_ins_list (k : K) (v : T) (xs : List (K × T)) (p : K × T)
    (hp : p ∈ ins_list k v xs) : p = (k, v) ∨ p ∈ xs := by
  induction xs with
  | nil => simpa [ins_list] using hp
  | cons x xs ih =>
    simp only [ins_list] at hp
    split_ifs at hp with h1 h2
    · rcases List.mem_cons.mp hp with e | hp
      · exact Or.inl e
      · exact Or.inr hp
    · rcases List.mem_cons.mp hp with e | hp
      · exact Or.inr (e ▸ List.mem_cons_self _ _)
      · rcases ih hp with e | hm
        · exact Or.inl e
        · exact Or.inr (List.mem_cons_of_mem _ hm)
    · rcases List.mem_cons.mp hp with e | hp
      · exact Or.inl e
      · exact Or.inr (List.mem_cons_of_mem _ hp)

theorem mem_ins_list_self (k : K) (v : T) (xs : List (K × T)) : (k, v) ∈ ins_list k v xs := by
  induction xs with
  | nil => simp [ins_list]
  | cons x xs ih =>
    simp only [ins_list]
    split_ifs <;> simp [ih]

theorem ins_list_sorted (k : K) (v : T) (xs : List (K × T))
    (hs : (xs.map Prod.fst).Pairwise (· < ·)) :
    ((ins_list k v xs).map Prod.fst).Pairwise (· < ·) := by
  induction xs with
  | nil => simp [ins_list]
  | cons x xs ih =>
    simp only [List.map_cons, List.pairwise_cons, List.mem_map] at hs
    obtain ⟨hx, hxs⟩ := hs
    simp only [ins_list]
    split_ifs with h1 h2
    · simp only [List.map_cons, List.pairwise_cons, List.mem_cons, List.mem_map]
      refine ⟨?_, hx, hxs⟩
      rintro a (rfl | ⟨q, hq, rfl⟩)
      · exact h1
      · exact lt_trans h1 (hx _ ⟨q, hq, rfl⟩)
    · simp only [List.map_cons, List.pairwise_cons, List.mem_map]
      refine ⟨?_, ih hxs⟩
      rintro a ⟨q, hq, rfl⟩
      rcases mem_ins_list k v xs q hq with rfl | hm
      · exact h2
      · exact hx _ ⟨q, hm, rfl⟩
    · have e : x.1 = k := le_antisymm (not_lt.mp h1) (not_lt.mp h2)
      simp only [List.map_cons, List.pairwise_cons, List.mem_map]
      refine ⟨?_, hxs⟩
      rintro a ⟨q, hq, rfl⟩
      exact e ▸ hx _ ⟨q, hq, rfl⟩

theorem ins_list_ins_list (k : K) (v w : T) (xs : List (K × T)) :
    ins_list k w (ins_list k v xs) = ins_list k w xs := by
  induction xs with
  | nil => simp [ins_list]
  | cons x xs ih =>
    simp only [ins_list]
    split_ifs with h1 h2
    · simp [ins_list]
    · simp [ins_list, h1, h2, ih]
    · simp [ins_list]

theorem keys_ins_list (k : K) (v w : T) (xs : List (K × T)) :
    (ins_list k v xs).map Prod.fst = (ins_list k w xs).map Prod.fst := by
  induction xs with
  | nil => simp [ins_list]
  | cons x xs ih =>
    simp only [ins_list]
    split_ifs <;> simp [ih]

/-- The public `insert` on a well-formed tree. -/
theorem insert_spec (k : K) (v : T) (t : Node K T) (hw : well_formed t) :
    ∃ t', insert k v t = some t' ∧ well_formed t' ∧
      inorder t' = ins_list k v (inorder t) := by
  obtain ⟨hb, hbal, hok⟩ := hw
  have ha : avl t := (avl_iff t).mpr ⟨hbal, hok⟩
  cases t with
  | null =>
    refine ⟨new_node k v, rfl, ⟨?_, ?_⟩, ?_⟩
    · simp [bst, keys, inorder, new_node]
    · exact (avl_iff _).mp (avl_new_node k v)
    · simp [inorder, new_node, ins_list]
  | node lc nkey nval h rc =>
    obtain ⟨t', e, a', -, -, io⟩ := insert_node_spec k v (.node lc nkey nval h rc) (by simp) ha hb
    refine ⟨t', e, ⟨?_, (avl_iff _).mp a'⟩, io⟩
    show ((inorder t').map Prod.fst).Pairwise (· < ·)
    rw [io]
    exact ins_list_sorted k v _ hb

/-- The public `erase` on a well-formed tree. -/
theorem erase_spec (k : K) (t : Node K T) (hw : well_formed t) :
    ∃ t', erase k t = some t' ∧ well_formed t' ∧
      inorder t' = (inorder t).filter (fun p => decide (p.1 ≠ k)) ∧
      (k ∉ keys t → t' = t) := by
  obtain ⟨hb, hbal, hok⟩ := hw
  have ha : avl t := (avl_iff t).mpr ⟨hbal, hok⟩
  obtain ⟨t', e, a', -, -, io, same⟩ := erase_node_spec k t ha hb
  refine ⟨t', e, ⟨?_, (avl_iff _).mp a'⟩, io, same⟩
  show ((inorder t').map Prod.fst).Pairwise (· < ·)
  rw [io]
  exact List.Pairwise.sublist ((List.filter_sublist _).map _) hb

theorem count_iff (k : K) (t : Node K T) (hb : bst t) : count k t = true ↔ k ∈ keys t := by
  induction t with
  | null => simp [count, keys, inorder]
  | node lc nkey nval h rc ihl ihr =>
    obtain ⟨bl, br, hlt, hgt⟩ := (bst_node _ _ _ _ _).mp hb
    rw [mem_keys_node]
    have hL : ∀ x ∈ keys lc, x < nkey := by
      intro x hx
      obtain ⟨v, hv⟩ := (mem_keys_iff x lc).mp hx
      exact hlt _ hv
    have hR : ∀ x ∈ keys rc, nkey < x := by
      intro x hx
      obtain ⟨v, hv⟩ := (mem_keys_iff x rc).mp hx
      exact hgt _ hv
    simp only [count]
    split_ifs with h1 h2
    · rw [ihl bl]
      constructor
      · exact Or.inl
      · rintro (hm | e | hm)
        · exact hm
        · exact absurd h1 (e ▸ lt_irrefl _)
        · exact absurd (lt_trans (hR k hm) h1) (lt_irrefl _)
    · rw [ihr br]
      constructor
      · exact fun hm => Or.inr (Or.inr hm)
      · rintro (hm | e | hm)
        · exact absurd (lt_trans (hL k hm) h2) (lt_irrefl _)
        · exact absurd h2 (e ▸ lt_irrefl _)
        · exact hm
    · have e : k = nkey := le_antisymm (not_lt.mp h2) (not_lt.mp h1)
      simp [e]

theorem find_of_mem [Inhabited T] (k : K) (v : T) (t : Node K T) (hb : bst t)
    (hm : (k, v) ∈ inorder t) : find k t = v := by
  induction t with
  | null => simp [inorder] at hm
  | node lc nkey nval h rc ihl ihr =>
    obtain ⟨bl, br, hlt, hgt⟩ := (bst_node _ _ _ _ _).mp hb
    simp only [inorder, List.mem_append, List.mem_cons, Prod.mk.injEq] at hm
    simp only [find]
    split_ifs with h1 h2
    · rcases hm with hm | ⟨e, -⟩ | hm
      · exact ihl bl hm
      · exact absurd h1 (e ▸ lt_irrefl _)
      · exact absurd (lt_trans (hgt _ hm) h1) (lt_irrefl _)
    · rcases hm with hm | ⟨e, -⟩ | hm
      · exact absurd (lt_trans (hlt _ hm) h2) (lt_irrefl _)
      · exact absurd h2 (e ▸ lt_irrefl _)
      · exact ihr br hm
    · rcases hm with hm | ⟨-, e⟩ | hm
      · exact absurd (hlt _ hm) h1
      · exact e.symm
      · exact absurd (hgt _ hm) h2

theorem find_of_not_mem [Inhabited T] (k : K) (t : Node K T) (hm : k ∉ keys t) :
    find k t = default := by
  induction t with
  | null => rfl
  | node lc nkey nval h rc ihl ihr =>
    rw [mem_keys_node] at hm
    push_neg at hm
    obtain ⟨h1, h2, h3⟩ := hm
    simp only [find]
    split_ifs with c1 c2
    · exact ihl h1
    · exact ihr h3
    · exact absurd (le_antisymm (not_lt.mp c2) (not_lt.mp c1)) h2

theorem pairwise_key_unique (xs : List (K × T)) (hs : (xs.map Prod.fst).Pairwise (· < ·))
    (p p' : K × T) (hp : p ∈ xs) (hp' : p' ∈ xs) (e : p.1 = p'.1) : p = p' := by
  induction xs with
  | nil => simp at hp
  | cons x xs ih =>
    simp only [List.map_cons, List.pairwise_cons, List.mem_map] at hs
    obtain ⟨hx, hxs⟩ := hs
    rcases List.mem_cons.mp hp with h1 | h1 <;> rcases List.mem_cons.mp hp' with h2 | h2
    · rw [h1, h2]
    · have := hx _ ⟨p', h2, rfl⟩
      rw [← h1, e] at this
      exact absurd this (lt_irrefl _)
    · have := hx _ ⟨p, h1, rfl⟩
      rw [← h2, e] at this
      exact absurd this (lt_irrefl _)
    · exact ih hxs h1 h2

theorem pairwise_inorder (t : Node K T) (hb : bst t) :
    (inorder t).Pairwise (fun a b => a.1 < b.1) :=
  List.pairwise_map.mp hb

theorem succ_eq_find (ltT : T → T → Bool) (q : K) (t : Node K T) (hb : bst t) :
    succ ltT q t = (inorder t).find? (fun p => decide (q ≤ p.1)) := by
  induction t with
  | null => rfl
  | node lc nkey nval h rc ihl ihr =>
    obtain ⟨bl, br, hlt, hgt⟩ := (bst_node _ _ _ _ _).mp hb
    have hnone : nkey ≤ q → (inorder lc).find? (fun p => decide (q ≤ p.1)) = none := by
      intro hq
      rw [List.find?_eq_none]
      intro p hp
      simpa using lt_of_lt_of_le (hlt p hp) hq
    simp only [succ, inorder, List.find?_append]
    split_ifs with c1 c2
    · subst c1
      rw [hnone (le_refl _), List.find?_cons_of_pos _ (by simp)]
      rfl
    · rw [ihl bl]
      cases hf : (inorder lc).find? (fun p => decide (q ≤ p.1)) with
      | none =>
        rw [List.find?_cons_of_pos _ (by simpa using le_of_lt c2)]
        rfl
      | some r =>
        have hr : r.1 < nkey := hlt r (List.mem_of_find?_eq_some hf)
        simp [pair_min, pair_lt, hr]
    · have c3 : nkey < q := lt_of_le_of_ne (not_lt.mp c2) (Ne.symm c1)
      rw [hnone (le_of_lt c3), List.find?_cons_of_neg _ (by simpa using c3), ihr br]
      rfl

theorem prec_eq_find (ltT : T → T → Bool) (q : K) (t : Node K T) (hb : bst t) :
    prec ltT q t = (inorder t).reverse.find? (fun p => decide (p.1 ≤ q)) := by
  induction t with
  | null => rfl
  | node lc nkey nval h rc ihl ihr =>
    obtain ⟨bl, br, hlt, hgt⟩ := (bst_node _ _ _ _ _).mp hb
    have hnone : q ≤ nkey → (inorder rc).reverse.find? (fun p => decide (p.1 ≤ q)) = none := by
      intro hq
      rw [List.find?_eq_none]
      intro p hp
      simpa using lt_of_le_of_lt hq (hgt p (List.mem_reverse.mp hp))
    simp only [prec, inorder, List.reverse_append, List.reverse_cons, List.append_assoc,
      List.singleton_append, List.find?_append]
    split_ifs with c1 c2
    · subst c1
      rw [hnone (le_refl _), List.find?_cons_of_pos _ (by simp)]
      rfl
    · rw [ihr br]
      cases hf : (inorder rc).reverse.find? (fun p => decide (p.1 ≤ q)) with
      | none =>
        rw [List.find?_cons_of_pos _ (by simpa using le_of_lt c2)]
        rfl
      | some r =>
        have hr : nkey < r.1 := hgt r (List.mem_reverse.mp (List.mem_of_find?_eq_some hf))
        simp [pair_max, pair_lt, hr]
    · have c3 : q < nkey := lt_of_le_of_ne (not_lt.mp c2) c1
      rw [hnone (le_of_lt c3), List.find?_cons_of_neg _ (by simpa using c3), ihl bl]
      rfl

/-! ## Verified properties of the operations -/

theorem insert_all_spec (ops : List (K × T)) (t : Node K T) (hw : well_formed t) :
    ∃ t', insert_all ops t = some t' ∧ well_formed t' := by
  induction ops generalizing t with
  | nil => exact ⟨t, rfl, hw⟩
  | cons op ops ih =>
    obtain ⟨t1, e1, w1, -⟩ := insert_spec op.1 op.2 t hw
    obtain ⟨t', e', w'⟩ := ih t1 w1
    refine ⟨t', ?_, w'⟩
    simpa [insert_all, e1] using e'

theorem well_formed_null : well_formed (.null : Node K T) := by
  refine ⟨?_, trivial, trivial⟩
  simp [bst, keys, inorder]

/-- C1. `insert` preserves the AVL invariants: on a well-formed tree (in-order
keys strictly increasing, children's heights within 1 at every node, every
stored height equal to `1 + max` of the children's) the public `insert`
returns, and the tree it leaves is well-formed again; hence every run of
inserts from the empty tree leaves a well-formed tree. -/
theorem insert_preserves_well_formed (t : Node K T) (k : K) (v : T) (hw : well_formed t) :
    (∃ t', insert k v t = some t' ∧ well_formed t') ∧
    (∀ ops : List (K × T), ∃ t', insert_all ops .null = some t' ∧ well_formed t') := by
  obtain ⟨t', e, w, -⟩ := insert_spec k v t hw
  exact ⟨⟨t', e, w⟩, fun ops => insert_all_spec ops .null well_formed_null⟩

theorem insert_preserves_well_formed_witness :
    well_formed tree_1357 ∧
    ((∃ t', insert 4 40 tree_1357 = some t' ∧ well_formed t') ∧
     (∀ ops : List (Int × Int), ∃ t', insert_all ops .null = some t' ∧ well_formed t')) :=
  ⟨by decide, insert_preserves_well_formed tree_1357 4 40 (by decide)⟩

/-- C2. `erase` preserves the AVL invariants: on a well-formed tree and for
every key, stored or not, the public `erase` returns and leaves a well-formed
tree, whichever deletion shape (leaf, one child, right child without left
child, successor deeper in the right subtree) is taken. -/
theorem erase_preserves_well_formed (t : Node K T) (k : K) (hw : well_formed t) :
    ∃ t', erase k t = some t' ∧ well_formed t' := by
  obtain ⟨t', e, w, -, -⟩ := erase_spec k t hw
  exact ⟨t', e, w⟩

theorem erase_preserves_well_formed_witness :
    well_formed tree_1357 ∧ ∃ t', erase 3 tree_1357 = some t' ∧ well_formed t' :=
  ⟨by decide, erase_preserves_well_formed tree_1357 3 (by decide)⟩

/-- C3. Insert/lookup round trip: after `insert(k, v)` on a well-formed tree,
`find(k)` returns `v` and `count(k)` returns true, whether or not `k` was
stored before. -/
theorem insert_then_lookup [Inhabited T] (t : Node K T) (k : K) (v : T)
    (hw : well_formed t) :
    ∃ t', insert k v t = some t' ∧ find k t' = v ∧ count k t' = true := by
  obtain ⟨t', e, w, io⟩ := insert_spec k v t hw
  have hm : (k, v) ∈ inorder t' := io ▸ mem_ins_list_self k v _
  refine ⟨t', e, find_of_mem k v t' w.1 hm, ?_⟩
  exact (count_iff k t' w.1).mpr ((mem_keys_iff k t').mpr ⟨v, hm⟩)

theorem insert_then_lookup_witness :
    well_formed tree_1357 ∧
    ∃ t', insert 4 40 tree_1357 = some t' ∧ find 4 t' = 40 ∧ count 4 t' = true :=
  ⟨by decide, insert_then_lookup tree_1357 4 40 (by decide)⟩

/-- C4. Deletion removes the key: after `erase(k)` on a well-formed tree,
`count(k)` returns false. -/
theorem erase_then_count (t : Node K T) (k : K) (hw : well_formed t) :
    ∃ t', erase k t = some t' ∧ count k t' = false := by
  obtain ⟨t', e, w, io, -⟩ := erase_spec k t hw
  refine ⟨t', e, ?_⟩
  rw [Bool.eq_false_iff]
  intro hc
  obtain ⟨v, hv⟩ := (mem_keys_iff k t').mp ((count_iff k t' w.1).mp hc)
  rw [io] at hv
  simpa using (List.mem_filter.mp hv).2

theorem erase_then_count_witness :
    well_formed tree_1357 ∧ ∃ t', erase 3 tree_1357 = some t' ∧ count 3 t' = false :=
  ⟨by decide, erase_then_count tree_1357 3 (by decide)⟩

/-- C5. Lookup agrees with the contents of a BST-ordered tree: `count(k)` is
true exactly when some node holds `k`; `find(k)` then returns the value stored
with `k`, and returns the default-constructed value when no node holds `k`. -/
theorem lookup_agrees_with_contents [Inhabited T] (t : Node K T) (k : K) (hb : bst t) :
    (count k t = true ↔ k ∈ keys t) ∧
    (∀ v, (k, v) ∈ inorder t → find k t = v) ∧
    (k ∉ keys t → find k t = default) :=
  ⟨count_iff k t hb, fun v hm => find_of_mem k v t hb hm, find_of_not_mem k t⟩

theorem lookup_agrees_with_contents_witness :
    bst tree_1357 ∧
    ((count 5 tree_1357 = true ↔ (5 : Int) ∈ keys tree_1357) ∧
     (∀ v, ((5 : Int), v) ∈ inorder tree_1357 → find 5 tree_1357 = v) ∧
     ((5 : Int) ∉ keys tree_1357 → find 5 tree_1357 = default)) :=
  ⟨by decide, lookup_agrees_with_contents tree_1357 5 (by decide)⟩

theorem find_ge_sorted (xs : List (K × T)) (hs : (xs.map Prod.fst).Pairwise (· < ·))
    (q k : K) (v : T) :
    xs.find? (fun p => decide (q ≤ p.1)) = some (k, v) ↔
      (k, v) ∈ xs ∧ q ≤ k ∧ ∀ k' ∈ xs.map Prod.fst, q ≤ k' → k ≤ k' := by
  rw [find_pairwise_iff (fun a b : K × T => a.1 < b.1) _ xs (List.pairwise_map.mp hs)
    (fun a b h => not_lt_of_lt h)]
  simp only [decide_eq_true_eq, List.mem_map]
  constructor
  · rintro ⟨hm, hq, hmin⟩
    refine ⟨hm, hq, ?_⟩
    rintro k' ⟨p, hp, rfl⟩ hk
    rcases hmin p hp hk with e | h
    · rw [e]
    · exact le_of_lt h
  · rintro ⟨hm, hq, hmin⟩
    refine ⟨hm, hq, ?_⟩
    intro p hp hk
    rcases lt_or_eq_of_le (hmin p.1 ⟨p, hp, rfl⟩ hk) with h | h
    · exact Or.inr h
    · exact Or.inl (pairwise_key_unique xs hs p (k, v) hp hm h.symm)

theorem find_le_sorted (xs : List (K × T)) (hs : (xs.map Prod.fst).Pairwise (· < ·))
    (q k : K) (v : T) :
    xs.reverse.find? (fun p => decide (p.1 ≤ q)) = some (k, v) ↔
      (k, v) ∈ xs ∧ k ≤ q ∧ ∀ k' ∈ xs.map Prod.fst, k' ≤ q → k' ≤ k := by
  rw [find_pairwise_iff (fun a b : K × T => b.1 < a.1) _ xs.reverse
    (List.pairwise_reverse.mpr (List.pairwise_map.mp hs)) (fun a b h => not_lt_of_lt h)]
  simp only [decide_eq_true_eq, List.mem_map, List.mem_reverse]
  constructor
  · rintro ⟨hm, hq, hmin⟩
    refine ⟨hm, hq, ?_⟩
    rintro k' ⟨p, hp, rfl⟩ hk
    rcases hmin p hp hk with e | h
    · rw [e]
    · exact le_of_lt h
  · rintro ⟨hm, hq, hmin⟩
    refine ⟨hm, hq, ?_⟩
    intro p hp hk
    rcases lt_or_eq_of_le (hmin p.1 ⟨p, hp, rfl⟩ hk) with h | h
    · exact Or.inr h
    · exact Or.inl (pairwise_key_unique xs hs p (k, v) hp hm h)

/-- C6. On a BST-ordered tree `succ(q)` is absent exactly when no stored key
is at or above `q`; otherwise it is the stored pair whose key is the least
stored key at or above `q` (`q` itself when stored); the comparison of values
never influences the result.  With keys 1, 3, 5, 7: `succ(4)` is the entry of
5, `succ(7)` the entry of 7, `succ(8)` is absent. -/
theorem succ_least_key_at_or_above (ltT : T → T → Bool) (t : Node K T) (q : K)
    (hb : bst t) :
    (succ ltT q t = none ↔ ∀ k ∈ keys t, ¬ q ≤ k) ∧
    (∀ k v, succ ltT q t = some (k, v) ↔
      (k, v) ∈ inorder t ∧ q ≤ k ∧ ∀ k' ∈ keys t, q ≤ k' → k ≤ k') ∧
    (∀ v, (q, v) ∈ inorder t → succ ltT q t = some (q, v)) ∧
    (∀ ltT' : T → T → Bool, succ ltT' q t = succ ltT q t) ∧
    (∀ (s : Node Int T) (a b c d : T), inorder s = [(1, a), (3, b), (5, c), (7, d)] →
      succ ltT 4 s = some (5, c) ∧ succ ltT 7 s = some (7, d) ∧ succ ltT 8 s = none) := by
  have h2 : ∀ k v, succ ltT q t = some (k, v) ↔
      (k, v) ∈ inorder t ∧ q ≤ k ∧ ∀ k' ∈ keys t, q ≤ k' → k ≤ k' := by
    intro k v
    rw [succ_eq_find ltT q t hb]
    exact find_ge_sorted (inorder t) hb q k v
  refine ⟨?_, h2, ?_, ?_, ?_⟩
  · rw [succ_eq_find ltT q t hb, List.find?_eq_none]
    simp [keys]
  · intro v hv
    exact (h2 q v).mpr ⟨hv, le_refl _, fun k' _ hk => hk⟩
  · intro ltT'
    rw [succ_eq_find ltT q t hb, succ_eq_find ltT' q t hb]
  · intro s a b c d hs
    have hbs : bst s := by
      simp only [bst, keys, hs, List.map_cons, List.map_nil]
      decide
    rw [succ_eq_find ltT 4 s hbs, succ_eq_find ltT 7 s hbs, succ_eq_find ltT 8 s hbs, hs]
    refine ⟨?_, ?_, ?_⟩ <;> simp [List.find?_cons]

theorem succ_least_key_at_or_above_witness :
    bst tree_1357 ∧
    ((succ (fun a b => decide (a < b)) 4 tree_1357 = none ↔
        ∀ k ∈ keys tree_1357, ¬ (4 : Int) ≤ k) ∧
    (∀ k v, succ (fun a b => decide (a < b)) 4 tree_1357 = some (k, v) ↔
      (k, v) ∈ inorder tree_1357 ∧ 4 ≤ k ∧ ∀ k' ∈ keys tree_1357, 4 ≤ k' → k ≤ k') ∧
    (∀ v, ((4 : Int), v) ∈ inorder tree_1357 →
      succ (fun a b => decide (a < b)) 4 tree_1357 = some (4, v)) ∧
    (∀ ltT' : Int → Int → Bool,
      succ ltT' 4 tree_1357 = succ (fun a b => decide (a < b)) 4 tree_1357) ∧
    (∀ (s : Node Int Int) (a b c d : Int), inorder s = [(1, a), (3, b), (5, c), (7, d)] →
      succ (fun a b => decide (a < b)) 4 s = some (5, c) ∧
      succ (fun a b => decide (a < b)) 7 s = some (7, d) ∧
      succ (fun a b => decide (a < b)) 8 s = none)) :=
  ⟨by decide, succ_least_key_at_or_above _ tree_1357 4 (by decide)⟩

/-- C7. On a BST-ordered tree `prec(q)` is absent exactly when no stored key
is at or below `q`; otherwise it is the stored pair whose key is the greatest
stored key at or below `q` (`q` itself when stored); the comparison of values
never influences the result.  With keys 1, 3, 5, 7: `prec(4)` is the entry of
3, `prec(1)` the entry of 1, `prec(0)` is absent. -/
theorem prec_greatest_key_at_or_below (ltT : T → T → Bool) (t : Node K T) (q : K)
    (hb : bst t) :
    (prec ltT q t = none ↔ ∀ k ∈ keys t, ¬ k ≤ q) ∧
    (∀ k v, prec ltT q t = some (k, v) ↔
      (k, v) ∈ inorder t ∧ k ≤ q ∧ ∀ k' ∈ keys t, k' ≤ q → k' ≤ k) ∧
    (∀ v, (q, v) ∈ inorder t → prec ltT q t = some (q, v)) ∧
    (∀ ltT' : T → T → Bool, prec ltT' q t = prec ltT q t) ∧
    (∀ (s : Node Int T) (a b c d : T), inorder s = [(1, a), (3, b), (5, c), (7, d)] →
      prec ltT 4 s = some (3, b) ∧ prec ltT 1 s = some (1, a) ∧ prec ltT 0 s = none) := by
  have h2 : ∀ k v, prec ltT q t = some (k, v) ↔
      (k, v) ∈ inorder t ∧ k ≤ q ∧ ∀ k' ∈ keys t, k' ≤ q → k' ≤ k := by
    intro k v
    rw [prec_eq_find ltT q t hb]
    exact find_le_sorted (inorder t) hb q k v
  refine ⟨?_, h2, ?_, ?_, ?_⟩
  · rw [prec_eq_find ltT q t hb, List.find?_eq_none]
    simp [keys]
  · intro v hv
    exact (h2 q v).mpr ⟨hv, le_refl _, fun k' _ hk => hk⟩
  · intro ltT'
    rw [prec_eq_find ltT q t hb, prec_eq_find ltT' q t hb]
  · intro s a b c d hs
    have hbs : bst s := by
      simp only [bst, keys, hs, List.map_cons, List.map_nil]
      decide
    rw [prec_eq_find ltT 4 s hbs, prec_eq_find ltT 1 s hbs, prec_eq_find ltT 0 s hbs, hs]
    refine ⟨?_, ?_, ?_⟩ <;> simp [List.find?_cons]

theorem prec_greatest_key_at_or_below_witness :
    bst tree_1357 ∧
    ((prec (fun a b => decide (a < b)) 4 tree_1357 = none ↔
        ∀ k ∈ keys tree_1357, ¬ k ≤ (4 : Int)) ∧
    (∀ k v, prec (fun a b => decide (a < b)) 4 tree_1357 = some (k, v) ↔
      (k, v) ∈ inorder tree_1357 ∧ k ≤ 4 ∧ ∀ k' ∈ keys tree_1357, k' ≤ 4 → k' ≤ k) ∧
    (∀ v, ((4 : Int), v) ∈ inorder tree_1357 →
      prec (fun a b => decide (a < b)) 4 tree_1357 = some (4, v)) ∧
    (∀ ltT' : Int → Int → Bool,
      prec ltT' 4 tree_1357 = prec (fun a b => decide (a < b)) 4 tree_1357) ∧
    (∀ (s : Node Int Int) (a b c d : Int), inorder s = [(1, a), (3, b), (5, c), (7, d)] →
      prec (fun a b => decide (a < b)) 4 s = some (3, b) ∧
      prec (fun a b => decide (a < b)) 1 s = some (1, a) ∧
      prec (fun a b => decide (a < b)) 0 s = none)) :=
  ⟨by decide, prec_greatest_key_at_or_below _ tree_1357 4 (by decide)⟩

/-- C8. Overwrite semantics: after `insert(k, v1)` then `insert(k, v2)` on a
well-formed tree, `find(k)` returns `v2`, and the second insert leaves the
number of nodes (and the stored keys) unchanged. -/
theorem insert_overwrite [Inhabited T] (t : Node K T) (k : K) (v1 v2 : T)
    (hw : well_formed t) :
    ∃ t1 t2, insert k v1 t = some t1 ∧ insert k v2 t1 = some t2 ∧
      find k t2 = v2 ∧ size t2 = size t1 ∧ keys t2 = keys t1 := by
  obtain ⟨t1, e1, w1, io1⟩ := insert_spec k v1 t hw
  obtain ⟨t2, e2, w2, io2⟩ := insert_spec k v2 t1 w1
  rw [io1, ins_list_ins_list] at io2
  have hk : keys t2 = keys t1 := by
    simp only [keys, io1, io2]
    exact keys_ins_list k v2 v1 _
  refine ⟨t1, t2, e1, e2, ?_, ?_, hk⟩
  · exact find_of_mem k v2 t2 w2.1 (io2 ▸ mem_ins_list_self k v2 _)
  · have h1 := congrArg List.length hk
    simp only [keys, List.length_map] at h1
    rw [size_eq_length, size_eq_length, h1]

theorem insert_overwrite_witness :
    well_formed tree_1357 ∧
    ∃ t1 t2, insert 4 40 tree_1357 = some t1 ∧ insert 4 41 t1 = some t2 ∧
      find 4 t2 = 41 ∧ size t2 = size t1 ∧ keys t2 = keys t1 :=
  ⟨by decide, insert_overwrite tree_1357 4 40 41 (by decide)⟩

/-- C9. `erase` of an absent key is a no-op: on a well-formed tree that does
not store `k`, `erase(k)` returns and leaves the in-order key/value sequence,
indeed the whole tree, unchanged; on the empty tree it leaves the tree
empty. -/
theorem erase_absent_noop (t : Node K T) (k : K) (hw : well_formed t) (hk : k ∉ keys t) :
    (∃ t', erase k t = some t' ∧ inorder t' = inorder t ∧ t' = t) ∧
    erase k (.null : Node K T) = some .null := by
  obtain ⟨t', e, -, -, same⟩ := erase_spec k t hw
  have h := same hk
  subst h
  exact ⟨⟨t', e, rfl, rfl⟩, rfl⟩

theorem erase_absent_noop_witness :
    well_formed tree_1357 ∧ (4 : Int) ∉ keys tree_1357 ∧
    ((∃ t', erase 4 tree_1357 = some t' ∧ inorder t' = inorder tree_1357 ∧ t' = tree_1357) ∧
     erase 4 (.null : Node Int Int) = some .null) :=
  ⟨by decide, by decide, erase_absent_noop tree_1357 4 (by decide) (by decide)⟩

/-- C10. Idempotence: on a well-formed tree, `insert(k, v)` twice gives the
same in-order key/value sequence as once, and `erase(k)` twice gives the same
in-order key/value sequence as once. -/
theorem repeated_ops_idempotent (t : Node K T) (k : K) (v : T) (hw : well_formed t) :
    (∃ t1 t2, insert k v t = some t1 ∧ insert k v t1 = some t2 ∧
      inorder t2 = inorder t1) ∧
    (∃ u1 u2, erase k t = some u1 ∧ erase k u1 = some u2 ∧ inorder u2 = inorder u1) := by
  constructor
  · obtain ⟨t1, e1, w1, io1⟩ := insert_spec k v t hw
    obtain ⟨t2, e2, -, io2⟩ := insert_spec k v t1 w1
    refine ⟨t1, t2, e1, e2, ?_⟩
    rw [io2, io1, ins_list_ins_list]
  · obtain ⟨u1, e1, w1, io1, -⟩ := erase_spec k t hw
    obtain ⟨u2, e2, -, io2, -⟩ := erase_spec k u1 w1
    refine ⟨u1, u2, e1, e2, ?_⟩
    rw [io2, io1, List.filter_filter]
    simp

theorem repeated_ops_idempotent_witness :
    well_formed tree_1357 ∧
    ((∃ t1 t2, insert 4 40 tree_1357 = some t1 ∧ insert 4 40 t1 = some t2 ∧
      inorder t2 = inorder t1) ∧
    (∃ u1 u2, erase 4 tree_1357 = some u1 ∧ erase 4 u1 = some u2 ∧
      inorder u2 = inorder u1)) :=
  ⟨by decide, repeated_ops_idempotent tree_1357 4 40 (by decide)⟩

end order

theorem min_nodes_le_succ (n : Nat) : min_nodes n ≤ min_nodes (n + 1) := by
  induction n using Nat.strong_induction_on with
  | _ n ih =>
    match n with
    | 0 => simp [min_nodes]
    | 1 => simp [min_nodes]
    | m + 2 =>
      have := ih (m + 1) (by omega)
      simp only [min_nodes] at *
      omega

theorem min_nodes_mono {a b : Nat} (h : a ≤ b) : min_nodes a ≤ min_nodes b := by
  induction h with
  | refl => exact le_refl _
  | step _ ih => exact le_trans ih (min_nodes_le_succ _)

theorem min_nodes_le_size (t : Node K T) (a : avl t) :
    ∀ n : Nat, get_h t = (n : Int) → min_nodes n ≤ size t := by
  induction t with
  | null =>
    intro n hn
    simp only [get_h_null] at hn
    have : n = 0 := by omega
    subst this
    simp [min_nodes]
  | node lc key val h rc ihl ihr =>
    intro n hn
    obtain ⟨al, ar, hh, b1, b2⟩ := a
    have nl := avl_get_h_nonneg al
    have nr := avl_get_h_nonneg ar
    simp only [get_h_node] at hn
    have h1 := ihl al (get_h lc).toNat (by omega)
    have h2 := ihr ar (get_h rc).toNat (by omega)
    simp only [size]
    by_cases c : get_h lc ≤ get_h rc
    · -- n = 1 + hr
      have e : n = (get_h rc).toNat + 1 := by omega
      subst e
      cases hr : (get_h rc).toNat with
      | zero => 
        simp only [min_nodes]; omega
      | succ m =>
        rw [hr] at h2
        have h3 : min_nodes m ≤ min_nodes (get_h lc).toNat := min_nodes_mono (by omega)
        simp only [min_nodes]
        omega
    · have e : n = (get_h lc).toNat + 1 := by omega
      subst e
      cases hl : (get_h lc).toNat with
      | zero => 
        simp only [min_nodes]; omega
      | succ m =>
        rw [hl] at h1
        have h3 : min_nodes m ≤ min_nodes (get_h rc).toNat := min_nodes_mono (by omega)
        simp only [min_nodes]
        omega

set_option exponentiation.threshold 600 in
theorem pow_bound_small : ∀ n : Nat, n < 20 → 2 ^ (25 * n) ≤ (min_nodes n + 2) ^ 36 := by
  decide

theorem min_nodes_20 : min_nodes 20 = 17710 := by decide

section order
variable [LinearOrder K]

theorem length_ins_list_le (k : K) (v : T) (xs : List (K × T)) :
    (ins_list k v xs).length ≤ xs.length + 1 := by
  induction xs with
  | nil => simp [ins_list]
  | cons x xs ih =>
    simp only [ins_list]
    split_ifs <;> simp only [List.length_cons] <;> omega

theorem apply_op_spec (op : Op K T) (t : Node K T) (hw : well_formed t) :
    ∃ t', apply_op op t = some t' ∧ well_formed t' ∧ size t' ≤ size t + 1 := by
  cases op with
  | ins k v =>
    obtain ⟨t', e, w, io⟩ := insert_spec k v t hw
    refine ⟨t', e, w, ?_⟩
    rw [size_eq_length, size_eq_length, io]
    exact length_ins_list_le k v _
  | del k =>
    obtain ⟨t', e, w, io, -⟩ := erase_spec k t hw
    refine ⟨t', e, w, ?_⟩
    rw [size_eq_length, size_eq_length, io]
    exact le_trans (List.length_filter_le _ _) (Nat.le_succ _)

theorem run_ops_spec (ops : List (Op K T)) (t : Node K T) (hw : well_formed t) :
    ∃ t', run_ops ops t = some t' ∧ well_formed t' ∧ size t' ≤ size t + ops.length := by
  induction ops generalizing t with
  | nil => exact ⟨t, rfl, hw, le_refl _⟩
  | cons op ops ih =>
    obtain ⟨t1, e1, w1, s1⟩ := apply_op_spec op t hw
    obtain ⟨t', e', w', s'⟩ := ih t1 w1
    refine ⟨t', ?_, w', ?_⟩
    · simpa [run_ops, e1] using e'
    · simp only [List.length_cons]; omega

/-- C11. AVL height bound: every tree obtained from the empty tree by at most
10,000 public `insert`/`erase` calls, with `N` nodes and root height `h`
(stored, equal to the true height, 0 for the empty tree), satisfies
`h ≤ 1.44 * log2 (N + 2)`, in exact arithmetic `2 ^ (25 * h) ≤ (N + 2) ^ 36`. -/
theorem height_bound (ops : List (Op K T)) (hn : ops.length ≤ 10000) :
    ∃ t, run_ops ops .null = some t ∧ 0 ≤ get_h t ∧ get_h t = height t ∧
      2 ^ (25 * (get_h t).toNat) ≤ (size t + 2) ^ 36 := by
  obtain ⟨t, e, w, s⟩ := run_ops_spec ops (.null : Node K T) well_formed_null
  have a : avl t := (avl_iff t).mpr w.2
  have h0 := avl_get_h_nonneg a
  have hm := min_nodes_le_size t a (get_h t).toNat (by omega)
  have hs : size t ≤ 10000 := by
    simp only [size] at s
    omega
  have hlt : (get_h t).toNat < 20 := by
    by_contra hc
    have := min_nodes_mono (not_lt.mp hc)
    rw [min_nodes_20] at this
    omega
  refine ⟨t, e, h0, get_h_eq_height w.2.2, ?_⟩
  exact le_trans (pow_bound_small _ hlt) (Nat.pow_le_pow_left (by omega) 36)

theorem height_bound_witness :
    [Op.ins (5 : Int) (50 : Int), Op.ins 3 30, Op.del 5, Op.ins 8 80].length ≤ 10000 ∧
    ∃ t, run_ops [Op.ins (5 : Int) (50 : Int), Op.ins 3 30, Op.del 5, Op.ins 8 80] .null
        = some t ∧ 0 ≤ get_h t ∧ get_h t = height t ∧
      2 ^ (25 * (get_h t).toNat) ≤ (size t + 2) ^ 36 :=
  ⟨by decide, height_bound _ (by decide)⟩

end order

/-- C12. End-to-end scenario: inserting 5, 3, 8, 1, 4, 7, 9, 2, 6 into the
empty tree, after every insert the in-order traversal is the sorted list of
the keys inserted so far (each with its value) and every stored height is
correct; after the last insert the keys are 1..9, the node holding 5 has two
children and its right child has a left child; erasing 5 then leaves keys
1, 2, 3, 4, 6, 7, 8, 9 with every node balanced within 1. -/
theorem scenario_end_to_end (val : Int → T) :
    (∀ n : Fin 10, ∃ t, insert_all (scenario_ops val n) .null = some t ∧
      inorder t =
        ((scenario_keys.take n).insertionSort (· ≤ ·)).map (fun k => (k, val k)) ∧
      heights_ok t) ∧
    ∃ t9, insert_all (scenario_ops val 9) .null = some t9 ∧
      keys t9 = [1, 2, 3, 4, 5, 6, 7, 8, 9] ∧
      (∃ lc h rlc rk rv rh rrc,
        t9 = .node lc 5 (val 5) h (.node rlc rk rv rh rrc) ∧ lc ≠ .null ∧ rlc ≠ .null) ∧
      ∃ t', erase 5 t9 = some t' ∧ keys t' = [1, 2, 3, 4, 6, 7, 8, 9] ∧
        inorder t' = [1, 2, 3, 4, 6, 7, 8, 9].map (fun k => (k, val k)) ∧
        balanced t' ∧ heights_ok t' := by
  constructor
  · intro n
    fin_cases n <;> exact ⟨_, rfl, rfl, of_decide_eq_true rfl⟩
  · refine ⟨_, rfl, rfl, ⟨_, _, _, _, _, _, _, rfl, ?_, ?_⟩, _, rfl, rfl, rfl,
      of_decide_eq_true rfl, of_decide_eq_true rfl⟩
    · exact fun h => Node.noConfusion h
    · exact fun h => Node.noConfusion h

section order
variable [LinearOrder K]

theorem count_of_not_mem (k : K) (t : Node K T) (hm : k ∉ keys t) : count k t = false := by
  induction t with
  | null => rfl
  | node lc nkey nval h rc ihl ihr =>
    rw [mem_keys_node] at hm
    push_neg at hm
    obtain ⟨h1, h2, h3⟩ := hm
    simp only [count]
    split_ifs with c1 c2
    · exact ihl h1
    · exact ihr h3
    · exact absurd (le_antisymm (not_lt.mp c2) (not_lt.mp c1)) h2

theorem lookup_congr [Inhabited T] (k : K) (t t' : Node K T) (hb : bst t) (hb' : bst t')
    (hio : ∀ v, (k, v) ∈ inorder t' ↔ (k, v) ∈ inorder t) :
    find k t' = find k t ∧ count k t' = count k t := by
  by_cases hk : k ∈ keys t
  · obtain ⟨v, hv⟩ := (mem_keys_iff k t).mp hk
    have hv' := (hio v).mpr hv
    rw [find_of_mem k v t hb hv, find_of_mem k v t' hb' hv',
      (count_iff k t hb).mpr hk, (count_iff k t' hb').mpr ((mem_keys_iff k t').mpr ⟨v, hv'⟩)]
    exact ⟨rfl, rfl⟩
  · have hk' : k ∉ keys t' := by
      intro hm
      obtain ⟨v, hv⟩ := (mem_keys_iff k t').mp hm
      exact hk ((mem_keys_iff k t).mpr ⟨v, (hio v).mp hv⟩)
    rw [find_of_not_mem k t hk, find_of_not_mem k t' hk', count_of_not_mem k t hk,
      count_of_not_mem k t' hk']
    exact ⟨rfl, rfl⟩

theorem ins_list_split (k : K) (v : T) (xs : List (K × T))
    (hs : (xs.map Prod.fst).Pairwise (· < ·)) :
    ∃ L R, ins_list k v xs = L ++ (k, v) :: R ∧ (∀ p ∈ L, p.1 < k) ∧ (∀ p ∈ R, k < p.1) ∧
      (xs = L ++ R ∨ ∃ v0, xs = L ++ (k, v0) :: R) := by
  induction xs with
  | nil => exact ⟨[], [], rfl, by simp, by simp, Or.inl rfl⟩
  | cons x xs ih =>
    simp only [List.map_cons, List.pairwise_cons, List.mem_map] at hs
    obtain ⟨hx, hxs⟩ := hs
    simp only [ins_list]
    split_ifs with c1 c2
    · refine ⟨[], x :: xs, rfl, by simp, ?_, Or.inl rfl⟩
      intro p hp
      rcases List.mem_cons.mp hp with e | hp
      · rw [e]; exact c1
      · exact lt_trans c1 (hx _ ⟨p, hp, rfl⟩)
    · obtain ⟨L, R, e, hL, hR, hsplit⟩ := ih hxs
      refine ⟨x :: L, R, by rw [e]; rfl, ?_, hR, ?_⟩
      · intro p hp
        rcases List.mem_cons.mp hp with e' | hp
        · rw [e']; exact c2
        · exact hL p hp
      · rcases hsplit with e' | ⟨v0, e'⟩
        · exact Or.inl (by rw [e']; rfl)
        · exact Or.inr ⟨v0, by rw [e']; rfl⟩
    · have e : x.1 = k := le_antisymm (not_lt.mp c1) (not_lt.mp c2)
      refine ⟨[], xs, rfl, by simp, ?_, Or.inr ⟨x.2, ?_⟩⟩
      · intro p hp
        exact e ▸ hx _ ⟨p, hp, rfl⟩
      · rw [← e]; rfl

/-- The statement of C13 fails on the code: the empty tree does not store key 1,
the one-node tree storing key 1 with value 0 does, and `find(1)` returns the
same result, 0, on both. -/
theorem find_missing_not_distinguishable :
    (1 : Int) ∉ keys (.null : Node Int Int) ∧
    (1 : Int) ∈ keys (new_node (1 : Int) (0 : Int)) ∧
    find 1 (.null : Node Int Int) = find 1 (new_node (1 : Int) (0 : Int)) := by
  decide

/-- C13, amended. A missing-key `find` returns the default-constructed value:
if `t` does not store `k` then `find(k)` is `T()` and `count(k)` is false; on a
BST-ordered tree storing `k` with value `v`, `find(k)` is `v` and `count(k)` is
true; so the two `find` results differ exactly when `v` is not `T()`, while
`count` always tells the two trees apart.  `find` is a total function: it
returns a value on every tree. -/
theorem find_missing_returns_default [Inhabited T] (t t' : Node K T) (k : K) (v : T)
    (hk : k ∉ keys t) (hb : bst t') (hv : (k, v) ∈ inorder t') :
    find k t = default ∧ count k t = false ∧ find k t' = v ∧ count k t' = true ∧
      (find k t ≠ find k t' ↔ v ≠ default) := by
  have h1 := find_of_not_mem k t hk
  have h2 := find_of_mem k v t' hb hv
  refine ⟨h1, count_of_not_mem k t hk, h2,
    (count_iff k t' hb).mpr ((mem_keys_iff k t').mpr ⟨v, hv⟩), ?_⟩
  rw [h1, h2]
  exact ⟨fun h e => h e.symm, fun h e => h e.symm⟩

theorem find_missing_returns_default_witness :
    (5 : Int) ∉ keys (.null : Node Int Int) ∧ bst tree_1357 ∧
    ((5 : Int), (50 : Int)) ∈ inorder tree_1357 ∧
    (find 5 (.null : Node Int Int) = default ∧ count 5 (.null : Node Int Int) = false ∧
      find 5 tree_1357 = 50 ∧ count 5 tree_1357 = true ∧
      (find 5 (.null : Node Int Int) ≠ find 5 tree_1357 ↔ (50 : Int) ≠ default)) :=
  ⟨by decide, by decide, by decide,
    find_missing_returns_default .null tree_1357 5 50 (by decide) (by decide) (by decide)⟩

/-- C14. `erase` removes exactly one entry and keeps every other: on a
well-formed tree storing `k`, the in-order key/value sequence after `erase(k)`
is the sequence before with the single entry of `k` deleted; the node count
drops by exactly 1 and every other key keeps its `find` and `count` result. -/
theorem erase_removes_one_entry [Inhabited T] (t : Node K T) (k : K)
    (hw : well_formed t) (hk : k ∈ keys t) :
    ∃ t' L R v, erase k t = some t' ∧ inorder t = L ++ (k, v) :: R ∧
      inorder t' = L ++ R ∧ size t' + 1 = size t ∧
      ∀ k', k' ≠ k → find k' t' = find k' t ∧ count k' t' = count k' t := by
  obtain ⟨t', e, w', io, -⟩ := erase_spec k t hw
  obtain ⟨v, hv⟩ := (mem_keys_iff k t).mp hk
  obtain ⟨L, R, hLR⟩ := List.append_of_mem hv
  have hs : ((L ++ (k, v) :: R).map Prod.fst).Pairwise (· < ·) := hLR ▸ hw.1
  simp only [List.map_append, List.map_cons, List.pairwise_append, List.pairwise_cons,
    List.mem_map, List.mem_cons] at hs
  obtain ⟨-, ⟨hR, -⟩, hL⟩ := hs
  have hL' : ∀ p ∈ L, p.1 < k := fun p hp => hL _ ⟨p, hp, rfl⟩ _ (Or.inl rfl)
  have hR' : ∀ p ∈ R, k < p.1 := fun p hp => hR _ ⟨p, hp, rfl⟩
  have io' : inorder t' = L ++ R := by
    rw [io, hLR]
    exact filter_ne_append_eq k v L R hL' hR'
  refine ⟨t', L, R, v, e, hLR, io', ?_, ?_⟩
  · rw [size_eq_length, size_eq_length, io', hLR]
    simp only [List.length_append, List.length_cons]
    omega
  · intro k' hk'
    apply lookup_congr k' t t' hw.1 w'.1
    intro v'
    rw [io, List.mem_filter]
    simp [hk']

theorem erase_removes_one_entry_witness :
    well_formed tree_1357 ∧ (3 : Int) ∈ keys tree_1357 ∧
    ∃ t' L R v, erase 3 tree_1357 = some t' ∧ inorder tree_1357 = L ++ ((3 : Int), v) :: R ∧
      inorder t' = L ++ R ∧ size t' + 1 = size tree_1357 ∧
      ∀ k', k' ≠ 3 → find k' t' = find k' tree_1357 ∧ count k' t' = count k' tree_1357 :=
  ⟨by decide, by decide, erase_removes_one_entry tree_1357 3 (by decide) (by decide)⟩

/-- C15. `insert` changes only the entry of its key: on a well-formed tree the
in-order key/value sequence after `insert(k, v)` is the sequence before with
`(k, v)` placed at its sorted position when `k` was absent (one node more), or
with the value of `k` replaced by `v` when `k` was stored (same node count);
every other key keeps its `find` and `count` result. -/
theorem insert_changes_only_its_entry [Inhabited T] (t : Node K T) (k : K) (v : T)
    (hw : well_formed t) :
    ∃ t' L R, insert k v t = some t' ∧ inorder t' = L ++ (k, v) :: R ∧
      (∀ p ∈ L, p.1 < k) ∧ (∀ p ∈ R, k < p.1) ∧
      (k ∉ keys t → inorder t = L ++ R ∧ size t' = size t + 1) ∧
      (k ∈ keys t → (∃ v0, inorder t = L ++ (k, v0) :: R) ∧ size t' = size t) ∧
      ∀ k', k' ≠ k → find k' t' = find k' t ∧ count k' t' = count k' t := by
  obtain ⟨t', e, w', io⟩ := insert_spec k v t hw
  obtain ⟨L, R, hio, hL, hR, hsplit⟩ := ins_list_split k v (inorder t) hw.1
  have hnot : ∀ p ∈ L ++ R, p.1 ≠ k := by
    intro p hp
    rcases List.mem_append.mp hp with h | h
    · exact ne_of_lt (hL p h)
    · exact ne_of_gt (hR p h)
  refine ⟨t', L, R, e, io.trans hio, hL, hR, ?_, ?_, ?_⟩
  · intro hk
    rcases hsplit with h | ⟨v0, h⟩
    · refine ⟨h, ?_⟩
      rw [size_eq_length, size_eq_length, io, hio, h]
      simp only [List.length_append, List.length_cons]
      omega
    · exact absurd ((mem_keys_iff k t).mpr ⟨v0, by rw [h]; simp⟩) hk
  · intro hk
    rcases hsplit with h | ⟨v0, h⟩
    · obtain ⟨v0, hv0⟩ := (mem_keys_iff k t).mp hk
      exact absurd rfl (hnot _ (h ▸ hv0))
    · refine ⟨⟨v0, h⟩, ?_⟩
      rw [size_eq_length, size_eq_length, io, hio, h]
      simp only [List.length_append, List.length_cons]
  · intro k' hk'
    apply lookup_congr k' t t' hw.1 w'.1
    intro v'
    rw [io, hio]
    rcases hsplit with h | ⟨v0, h⟩ <;> rw [h] <;>
      simp only [List.mem_append, List.mem_cons, Prod.mk.injEq, hk', false_and, false_or]

theorem insert_changes_only_its_entry_witness :
    well_formed tree_1357 ∧
    ∃ t' L R, insert 4 40 tree_1357 = some t' ∧ inorder t' = L ++ ((4 : Int), (40 : Int)) :: R ∧
      (∀ p ∈ L, p.1 < 4) ∧ (∀ p ∈ R, 4 < p.1) ∧
      ((4 : Int) ∉ keys tree_1357 → inorder tree_1357 = L ++ R ∧
        size t' = size tree_1357 + 1) ∧
      ((4 : Int) ∈ keys tree_1357 → (∃ v0, inorder tree_1357 = L ++ ((4 : Int), v0) :: R) ∧
        size t' = size tree_1357) ∧
      ∀ k', k' ≠ 4 → find k' t' = find k' tree_1357 ∧ count k' t' = count k' tree_1357 :=
  ⟨by decide, insert_changes_only_its_entry tree_1357 4 40 (by decide)⟩

end order

theorem balance_traced_fst (t : Node K T) :
    (balance_traced t).map Prod.fst = balance t := by
  cases t with
  | null => rfl
  | node lc key val h rc =>
    simp only [balance_traced, balance]
    split_ifs
    · simp [Option.map_map, Function.comp_def]
    · cases left_rot lc <;> simp [Option.map_map, Function.comp_def]
    · simp [Option.map_map, Function.comp_def]
    · cases right_rot rc <;> simp [Option.map_map, Function.comp_def]
    · rfl

theorem balance_traced_le_two (t t' : Node K T) (n : Nat)
    (h : balance_traced t = some (t', n)) : n ≤ 2 := by
  cases t with
  | null => simp [balance_traced] at h; omega
  | node lc key val h0 rc =>
    simp only [balance_traced] at h
    split_ifs at h
    · simp only [Option.map_eq_some', Prod.mk.injEq] at h
      obtain ⟨_, _, _, rfl⟩ := h; omega
    · cases hl : left_rot lc with
      | none => simp [hl] at h
      | some lc' =>
        simp only [hl, Option.map_eq_some', Prod.mk.injEq] at h
        obtain ⟨_, _, _, rfl⟩ := h; omega
    · simp only [Option.map_eq_some', Prod.mk.injEq] at h
      obtain ⟨_, _, _, rfl⟩ := h; omega
    · cases hl : right_rot rc with
      | none => simp [hl] at h
      | some rc' =>
        simp only [hl, Option.map_eq_some', Prod.mk.injEq] at h
        obtain ⟨_, _, _, rfl⟩ := h; omega
    · simp only [Option.some.injEq, Prod.mk.injEq] at h
      obtain ⟨_, rfl⟩ := h; omega

/-- C16. `balance` restores local balance: for a node whose two subtrees are
AVL trees (balanced, stored heights correct) with heights differing by at most
2, `balance(node)` returns (every rotation it calls finds the child it pivots
on), makes at most two rotation calls, and leaves a subtree in which every node
is balanced within 1 and every stored height is correct, with the same in-order
key/value sequence and with height `1 + max` of the two input heights or
exactly one less. -/
theorem balance_restores_balance (lc rc : Node K T) (key : K) (val : T) (h : Int)
    (hl : balanced lc ∧ heights_ok lc) (hr : balanced rc ∧ heights_ok rc)
    (hd : |get_h lc - get_h rc| ≤ 2) :
    ∃ t n, balance (.node lc key val h rc) = some t ∧
      balance_traced (.node lc key val h rc) = some (t, n) ∧ n ≤ 2 ∧
      balanced t ∧ heights_ok t ∧
      inorder t = inorder lc ++ (key, val) :: inorder rc ∧
      (get_h t = 1 + max (get_h lc) (get_h rc) ∨
        get_h t + 1 = 1 + max (get_h lc) (get_h rc)) := by
  have al := (avl_iff lc).mpr hl
  have ar := (avl_iff rc).mpr hr
  have hd' := abs_le.mp hd
  obtain ⟨t, e, at', io, g1, g2, -⟩ :=
    balance_spec lc rc key val h al ar (by omega) (by omega)
  have ht := balance_traced_fst (.node lc key val h rc)
  rw [e] at ht
  cases hb : balance_traced (.node lc key val h rc) with
  | none => rw [hb] at ht; simp at ht
  | some r =>
    obtain ⟨t1, n⟩ := r
    rw [hb] at ht
    simp only [Option.map_some', Option.some.injEq] at ht
    subst ht
    have w := (avl_iff _).mp at'
    exact ⟨_, n, e, rfl, balance_traced_le_two _ _ _ hb, w.1, w.2, io, by omega⟩

theorem balance_restores_balance_witness :
    (balanced (new_node (-1 : Int) (-10 : Int)) ∧ heights_ok (new_node (-1 : Int) (-10 : Int))) ∧
    (balanced tree_1357 ∧ heights_ok tree_1357) ∧
    |get_h (new_node (-1 : Int) (-10 : Int)) - get_h tree_1357| ≤ 2 ∧
    ∃ t n, balance (.node (new_node (-1) (-10)) 0 0 0 tree_1357) = some t ∧
      balance_traced (.node (new_node (-1) (-10)) 0 0 0 tree_1357) = some (t, n) ∧ n ≤ 2 ∧
      balanced t ∧ heights_ok t ∧
      inorder t = inorder (new_node (-1 : Int) (-10 : Int)) ++ (0, 0) :: inorder tree_1357 ∧
      (get_h t = 1 + max (get_h (new_node (-1 : Int) (-10 : Int))) (get_h tree_1357) ∨
        get_h t + 1 = 1 + max (get_h (new_node (-1 : Int) (-10 : Int))) (get_h tree_1357)) :=
  ⟨by decide, by decide, by decide,
    balance_restores_balance (new_node (-1) (-10)) tree_1357 0 0 0 (by decide) (by decide)
      (by decide)⟩

theorem left_rot_node (A B C : Node K T) (nk rk : K) (nv rv : T) (nh rh : Int) :
    left_rot (.node A nk nv nh (.node B rk rv rh C)) =
      some (.node (.node A nk nv (1 + max (get_h A) (get_h B)) B) rk rv
        (1 + max (1 + max (get_h A) (get_h B)) (get_h C)) C) := rfl

theorem right_rot_node (A B C : Node K T) (nk rk : K) (nv rv : T) (nh rh : Int) :
    right_rot (.node (.node A rk rv rh B) nk nv nh C) =
      some (.node A rk rv (1 + max (get_h A) (1 + max (get_h B) (get_h C)))
        (.node B nk nv (1 + max (get_h B) (get_h C)) C)) := rfl

/-- C17. Rotation shape: for a node `N` with left subtree `A` and right child
`R` with subtrees `B`, `C`, `left_rot(N)` puts `R` in the place of `N`, with
left child `N` (children `A`, `B`) and right subtree `C`, the stored height of
`N` and then of `R` recomputed from the new children; `right_rot` is the
mirror image; both leave the in-order key/value sequence unchanged. -/
theorem rotation_shape (A B C : Node K T) (nk rk : K) (nv rv : T) (nh rh : Int) :
    left_rot (.node A nk nv nh (.node B rk rv rh C)) =
      some (.node (.node A nk nv (1 + max (get_h A) (get_h B)) B) rk rv
        (1 + max (1 + max (get_h A) (get_h B)) (get_h C)) C) ∧
    right_rot (.node (.node A rk rv rh B) nk nv nh C) =
      some (.node A rk rv (1 + max (get_h A) (1 + max (get_h B) (get_h C)))
        (.node B nk nv (1 + max (get_h B) (get_h C)) C)) ∧
    (left_rot (.node A nk nv nh (.node B rk rv rh C))).map inorder =
      some (inorder (.node A nk nv nh (.node B rk rv rh C))) ∧
    (right_rot (.node (.node A rk rv rh B) nk nv nh C)).map inorder =
      some (inorder (.node (.node A rk rv rh B) nk nv nh C)) := by
  refine ⟨rfl, rfl, ?_, ?_⟩ <;> simp [left_rot, right_rot, update, inorder]

theorem heights_ok_nonneg {t : Node K T} (ht : heights_ok t) : 0 ≤ get_h t := by
  induction t with
  | null => simp
  | node lc key val h rc ihl ihr =>
    obtain ⟨hl, hr, hh⟩ := ht
    have := ihl hl
    have := ihr hr
    simp only [get_h_node]
    omega

/-- The statement of C18 fails on the code: in a tree whose stored heights are
all correct, `left_rot` on the left child of the root, with its refresh of the
root's stored height, changes the root's height from 4 to 3. -/
theorem rotation_changes_parent_height :
    heights_ok rot_parent_example ∧ get_h rot_parent_example = 4 ∧
    (rot_child left_rot true rot_parent_example).map get_h = some 3 := by
  decide

theorem rot_child_spec (rot : Node K T → Option (Node K T)) (is_lc : Bool)
    (N N' S : Node K T) (pk : K) (pv : T) (ph : Int)
    (hrot : rot N = some N') (hN' : heights_ok N') (hio : inorder N' = inorder N)
    (hb : get_h N - 1 ≤ get_h N' ∧ get_h N' ≤ get_h N + 1)
    (hP : heights_ok (parent_of is_lc N S pk pv ph)) :
    ∃ P', rot_child rot is_lc (parent_of is_lc N S pk pv ph) = some P' ∧
      heights_ok P' ∧ inorder P' = inorder (parent_of is_lc N S pk pv ph) ∧
      |get_h P' - get_h (parent_of is_lc N S pk pv ph)| ≤ 1 ∧
      (get_h N' = get_h N → get_h P' = get_h (parent_of is_lc N S pk pv ph)) := by
  cases is_lc with
  | true =>
    simp only [parent_of, if_true] at hP ⊢
    obtain ⟨-, hS, hh⟩ := hP
    refine ⟨update (.node N' pk pv ph S), by simp [rot_child, hrot], ⟨hN', hS, rfl⟩, ?_, ?_, ?_⟩
    · simp [update, inorder, hio]
    · simp only [update, get_h_node]
      rw [abs_le]; omega
    · intro e
      simp only [update, get_h_node, e, hh]
  | false =>
    simp only [parent_of, Bool.false_eq_true, if_false] at hP ⊢
    obtain ⟨hS, -, hh⟩ := hP
    refine ⟨update (.node S pk pv ph N'), by simp [rot_child, hrot], ⟨hS, hN', rfl⟩, ?_, ?_, ?_⟩
    · simp [update, inorder, hio]
    · simp only [update, get_h_node]
      rw [abs_le]; omega
    · intro e
      simp only [update, get_h_node, e, hh]

/-- C18, amended. A rotation changes the parent's height by at most one: in a
tree with correct stored heights, for a node `N` that is the left or right
child of `P` and has the child the rotation pivots on (a right child for
`left_rot`, a left child for `right_rot`), the call with its refresh of `P`
returns and leaves `P` with a height within 1 of its height before; the
height of `P` is unchanged whenever the subtree in the place of `N` keeps its
height.  Only the subtree of `P` enters the statement: there the stored
heights are correct before and again after the call, and the in-order
sequence is unchanged. -/
theorem rotation_parent_height (rot : Node K T → Option (Node K T)) (is_lc : Bool)
    (N S : Node K T) (pk : K) (pv : T) (ph : Int)
    (hP : heights_ok (parent_of is_lc N S pk pv ph))
    (hpiv : (rot = left_rot ∧ rc_of N ≠ .null) ∨ (rot = right_rot ∧ lc_of N ≠ .null)) :
    ∃ N' P', rot N = some N' ∧
      rot_child rot is_lc (parent_of is_lc N S pk pv ph) = some P' ∧
      heights_ok P' ∧ inorder P' = inorder (parent_of is_lc N S pk pv ph) ∧
      |get_h P' - get_h (parent_of is_lc N S pk pv ph)| ≤ 1 ∧
      (get_h N' = get_h N → get_h P' = get_h (parent_of is_lc N S pk pv ph)) := by
  have hN : heights_ok N := by
    cases is_lc
    · exact hP.2.1
    · exact hP.1
  rcases hpiv with ⟨rfl, hp⟩ | ⟨rfl, hp⟩
  · cases N with
    | null => exact absurd rfl hp
    | node A nk nv nh R =>
      cases R with
      | null => exact absurd rfl hp
      | node B rk rv rh C =>
        obtain ⟨hA, ⟨hB, hC, e2⟩, e1⟩ := hN
        have := heights_ok_nonneg hA
        have := heights_ok_nonneg hB
        have := heights_ok_nonneg hC
        simp only [get_h_node] at e1
        obtain ⟨P', h1, h2, h3, h4, h5⟩ := rot_child_spec left_rot is_lc _ _ S pk pv ph
          (left_rot_node A B C nk rk nv rv nh rh) ⟨⟨hA, hB, rfl⟩, hC, rfl⟩
          (by simp [inorder]) (by simp only [get_h_node]; omega) hP
        exact ⟨_, P', (left_rot_node A B C nk rk nv rv nh rh), h1, h2, h3, h4, h5⟩
  · cases N with
    | null => exact absurd rfl hp
    | node L nk nv nh C =>
      cases L with
      | null => exact absurd rfl hp
      | node A rk rv rh B =>
        obtain ⟨⟨hA, hB, e2⟩, hC, e1⟩ := hN
        have := heights_ok_nonneg hA
        have := heights_ok_nonneg hB
        have := heights_ok_nonneg hC
        simp only [get_h_node] at e1
        obtain ⟨P', h1, h2, h3, h4, h5⟩ := rot_child_spec right_rot is_lc _ _ S pk pv ph
          (right_rot_node A B C nk rk nv rv nh rh) ⟨hA, ⟨hB, hC, rfl⟩, rfl⟩
          (by simp [inorder]) (by simp only [get_h_node]; omega) hP
        exact ⟨_, P', (right_rot_node A B C nk rk nv rv nh rh), h1, h2, h3, h4, h5⟩

theorem rotation_parent_height_witness :
    heights_ok (parent_of true (lc_of rot_parent_example) (rc_of rot_parent_example) 4 40 4) ∧
    ((left_rot = (left_rot : Node Int Int → Option (Node Int Int)) ∧
        rc_of (lc_of rot_parent_example) ≠ .null) ∨
      (left_rot = (right_rot : Node Int Int → Option (Node Int Int)) ∧
        lc_of (lc_of rot_parent_example) ≠ .null)) ∧
    ∃ N' P', left_rot (lc_of rot_parent_example) = some N' ∧
      rot_child left_rot true
        (parent_of true (lc_of rot_parent_example) (rc_of rot_parent_example) 4 40 4) =
          some P' ∧
      heights_ok P' ∧
      inorder P' =
        inorder (parent_of true (lc_of rot_parent_example) (rc_of rot_parent_example) 4 40 4) ∧
      |get_h P' -
        get_h (parent_of true (lc_of rot_parent_example) (rc_of rot_parent_example) 4 40 4)|
          ≤ 1 ∧
      (get_h N' = get_h (lc_of rot_parent_example) → get_h P' =
        get_h (parent_of true (lc_of rot_parent_example) (rc_of rot_parent_example) 4 40 4)) :=
  ⟨by decide, Or.inl ⟨rfl, by decide⟩,
    rotation_parent_height left_rot true (lc_of rot_parent_example)
      (rc_of rot_parent_example) 4 40 4 (by decide) (Or.inl ⟨rfl, by decide⟩)⟩

theorem balance_traced_of_even (lc rc : Node K T) (key : K) (val : T) (h : Int)
    (c1 : get_h rc - get_h lc ≠ -2) (c2 : get_h rc - get_h lc ≠ 2) :
    balance_traced (.node lc key val h rc) =
      some (.node lc key val (1 + max (get_h lc) (get_h rc)) rc, 0) := by
  simp [balance_traced, update, get_bf, c1, c2]

section order
variable [LinearOrder K]

theorem insert_node_traced_node (k : K) (v : T) (lc rc : Node K T) (nkey : K) (nval : T)
    (h : Int) :
    insert_node_traced k v (.node lc nkey nval h rc) =
      if nkey = k then some (.node lc nkey v h rc, 0)
      else if k < nkey then
        match lc with
        | .null => balance_traced (.node (new_node k v) nkey nval h rc)
        | .node .. =>
          match insert_node_traced k v lc with
          | none => none
          | some (lc', n) =>
            match balance_traced (.node lc' nkey nval h rc) with
            | none => none
            | some (t, m) => some (t, n + m)
      else
        match rc with
        | .null => balance_traced (.node lc nkey nval h (new_node k v))
        | .node .. =>
          match insert_node_traced k v rc with
          | none => none
          | some (rc', n) =>
            match balance_traced (.node lc nkey nval h rc') with
            | none => none
            | some (t, m) => some (t, n + m) := by
  cases lc <;> cases rc <;> rfl

theorem insert_node_traced_fst (k : K) (v : T) (t : Node K T) :
    (insert_node_traced k v t).map Prod.fst = insert_node k v t := by
  induction t with
  | null => rfl
  | node lc nkey nval h rc ihl ihr =>
    rw [insert_node_traced_node, insert_node_node]
    split_ifs with c1 c2
    · rfl
    · cases lc with
      | null => exact balance_traced_fst _
      | node ll lk lv lh lr =>
        simp only
        rw [← ihl]
        cases insert_node_traced k v (.node ll lk lv lh lr) with
        | none => rfl
        | some r =>
          obtain ⟨lc', n⟩ := r
          simp only [Option.map_some']
          rw [← balance_traced_fst]
          cases balance_traced (.node lc' nkey nval h rc) with
          | none => rfl
          | some r2 => rfl
    · cases rc with
      | null => exact balance_traced_fst _
      | node rl rk rv rh rr =>
        simp only
        rw [← ihr]
        cases insert_node_traced k v (.node rl rk rv rh rr) with
        | none => rfl
        | some r =>
          obtain ⟨rc', n⟩ := r
          simp only [Option.map_some']
          rw [← balance_traced_fst]
          cases balance_traced (.node lc nkey nval h rc') with
          | none => rfl
          | some r2 => rfl

theorem insert_traced_fst (k : K) (v : T) (t : Node K T) :
    (insert_traced k v t).map Prod.fst = insert k v t := by
  cases t with
  | null => rfl
  | node lc nkey nval h rc => exact insert_node_traced_fst k v _

theorem get_h_replace_val (k : K) (v : T) (t : Node K T) :
    get_h (replace_val k v t) = get_h t := by
  cases t <;> rfl

theorem replace_val_of_not_mem (k : K) (v : T) (t : Node K T) (hk : k ∉ keys t) :
    replace_val k v t = t := by
  induction t with
  | null => rfl
  | node lc key val h rc ihl ihr =>
    rw [mem_keys_node] at hk
    push_neg at hk
    obtain ⟨h1, h2, h3⟩ := hk
    simp only [replace_val, ihl h1, ihr h3, if_neg (Ne.symm h2)]

theorem insert_node_traced_present (k : K) (v : T) (t : Node K T) (a : avl t) (b : bst t)
    (hk : k ∈ keys t) :
    insert_node_traced k v t = some (replace_val k v t, 0) := by
  induction t with
  | null => simp [keys, inorder] at hk
  | node lc nkey nval h rc ihl ihr =>
    obtain ⟨al, ar, hh, b1, b2⟩ := a
    obtain ⟨bl, br, hlt, hgt⟩ := (bst_node _ _ _ _ _).mp b
    have hL : ∀ x ∈ keys lc, x < nkey := by
      intro x hx
      obtain ⟨w, hw⟩ := (mem_keys_iff x lc).mp hx
      exact hlt _ hw
    have hR : ∀ x ∈ keys rc, nkey < x := by
      intro x hx
      obtain ⟨w, hw⟩ := (mem_keys_iff x rc).mp hx
      exact hgt _ hw
    rw [insert_node_traced_node]
    by_cases c1 : nkey = k
    · subst c1
      have h1 : nkey ∉ keys lc := fun hm => lt_irrefl _ (hL _ hm)
      have h2 : nkey ∉ keys rc := fun hm => lt_irrefl _ (hR _ hm)
      simp [replace_val, replace_val_of_not_mem _ _ _ h1, replace_val_of_not_mem _ _ _ h2]
    · rw [mem_keys_node] at hk
      by_cases c2 : k < nkey
      · have hkl : k ∈ keys lc := by
          rcases hk with h | h | h
          · exact h
          · exact absurd h.symm c1
          · exact absurd (lt_trans (hR k h) c2) (lt_irrefl _)
        have h2 : k ∉ keys rc := fun hm => lt_irrefl _ (lt_trans (hR _ hm) c2)
        cases lc with
        | null => simp [keys, inorder] at hkl
        | node ll lk lv lh lr =>
          have e1 := ihl al bl hkl
          have e2 := balance_traced_of_even (replace_val k v (.node ll lk lv lh lr)) rc nkey
            nval h (by rw [get_h_replace_val]; omega) (by rw [get_h_replace_val]; omega)
          rw [get_h_replace_val, ← hh] at e2
          simp only [c1, c2, if_false, if_true, e1, e2]
          simp only [replace_val, if_neg c1, replace_val_of_not_mem _ _ _ h2, add_zero]
      · have c3 : nkey < k := lt_of_le_of_ne (not_lt.mp c2) c1
        have hkr : k ∈ keys rc := by
          rcases hk with h | h | h
          · exact absurd (lt_trans (hL k h) c3) (lt_irrefl _)
          · exact absurd h.symm c1
          · exact h
        have h1 : k ∉ keys lc := fun hm => lt_irrefl _ (lt_trans c3 (hL _ hm))
        cases rc with
        | null => simp [keys, inorder] at hkr
        | node rl rk rv rh rr =>
          have e1 := ihr ar br hkr
          have e2 := balance_traced_of_even lc (replace_val k v (.node rl rk rv rh rr)) nkey
            nval h (by rw [get_h_replace_val]; omega) (by rw [get_h_replace_val]; omega)
          rw [get_h_replace_val, ← hh] at e2
          simp only [c1, c2, if_false, e1, e2]
          simp only [replace_val, if_neg c1, replace_val_of_not_mem _ _ _ h1, add_zero]

/-- C19. Inserting an existing key makes no structural change: on a
well-formed tree that stores `k`, `insert(k, v)` returns the same tree (same
shape, keys, stored heights and values under every other key) with the value
under `k` replaced by `v`, and the `balance` calls run on the ancestors of that
node make no rotation call. -/
theorem insert_existing_key (t : Node K T) (k : K) (v : T) (hw : well_formed t)
    (hk : k ∈ keys t) :
    insert k v t = some (replace_val k v t) ∧
    insert_traced k v t = some (replace_val k v t, 0) ∧
    size (replace_val k v t) = size t ∧ keys (replace_val k v t) = keys t ∧
    inorder (replace_val k v t) =
      (inorder t).map (fun p => if p.1 = k then (p.1, v) else p) := by
  have a : avl t := (avl_iff t).mpr hw.2
  have ht : insert_traced k v t = some (replace_val k v t, 0) := by
    cases t with
    | null => simp [keys, inorder] at hk
    | node lc nkey nval h rc => exact insert_node_traced_present k v _ a hw.1 hk
  have hio : ∀ s : Node K T, inorder (replace_val k v s) =
      (inorder s).map (fun p => if p.1 = k then (p.1, v) else p) := by
    intro s
    induction s with
    | null => rfl
    | node lc key val h rc ihl ihr =>
      simp only [replace_val, inorder, ihl, ihr, List.map_append, List.map_cons]
      split_ifs <;> rfl
  refine ⟨?_, ht, ?_, ?_, hio t⟩
  · rw [← insert_traced_fst, ht]; rfl
  · rw [size_eq_length, size_eq_length, hio, List.length_map]
  · simp only [keys, hio, List.map_map]
    congr 1
    funext p
    simp only [Function.comp]
    split_ifs <;> rfl

theorem insert_existing_key_witness :
    well_formed tree_1357 ∧ (5 : Int) ∈ keys tree_1357 ∧
    (insert 5 51 tree_1357 = some (replace_val 5 51 tree_1357) ∧
    insert_traced 5 51 tree_1357 = some (replace_val 5 51 tree_1357, 0) ∧
    size (replace_val 5 (51 : Int) tree_1357) = size tree_1357 ∧
    keys (replace_val 5 (51 : Int) tree_1357) = keys tree_1357 ∧
    inorder (replace_val 5 (51 : Int) tree_1357) =
      (inorder tree_1357).map (fun p => if p.1 = 5 then (p.1, 51) else p)) :=
  ⟨by decide, by decide, insert_existing_key tree_1357 5 51 (by decide) (by decide)⟩

end order

theorem get_h_nonneg_of (t : Node K T) (h : heights_nonneg t) : 0 ≤ get_h t := by
  cases t with
  | null => simp
  | node lc k v h' rc => exact h.2.2

/-- With nonnegative stored heights below it, `balance` never rotates on a
missing child: it returns, and the stored heights stay nonnegative. -/
theorem balance_nonneg (lc rc : Node K T) (key : K) (val : T) (h : Int)
    (hl : heights_nonneg lc) (hr : heights_nonneg rc) :
    ∃ t', balance (.node lc key val h rc) = some t' ∧ heights_nonneg t' := by
  have nl := get_h_nonneg_of lc hl
  have nr := get_h_nonneg_of rc hr
  simp only [balance, update, get_bf, get_h_node]
  by_cases c1 : get_h rc - get_h lc = -2
  · simp only [c1, if_true]
    cases lc with
    | null => simp only [get_h_null] at c1; omega
    | node A k2 v2 h2 R2 =>
      obtain ⟨hA, hR2, -⟩ := hl
      have nA := get_h_nonneg_of A hA
      by_cases c2 : get_h R2 - get_h A = 1
      · simp only [get_bf, c2, ne_eq, not_true_eq_false, if_false]
        cases R2 with
        | null => simp only [get_h_null] at c2; omega
        | node B k3 v3 h3 C =>
          obtain ⟨hB, hC, -⟩ := hR2
          have nB := get_h_nonneg_of B hB
          have nC := get_h_nonneg_of C hC
          rw [left_rot_node A B C k2 k3 v2 v3 h2 h3]
          simp only [update]
          rw [right_rot_node _ _ rc key k3 val v3 _ _]
          refine ⟨_, rfl, ⟨hA, hB, ?_⟩, ⟨hC, hr, ?_⟩, ?_⟩ <;> (try simp only [get_h_node]) <;> omega
      · simp only [get_bf, c2, ne_eq, not_false_eq_true, if_true]
        have nR := get_h_nonneg_of R2 hR2
        rw [right_rot_node A R2 rc key k2 val v2 _ h2]
        refine ⟨_, rfl, hA, ⟨hR2, hr, ?_⟩, ?_⟩ <;> omega
  · simp only [c1, if_false]
    by_cases c3 : get_h rc - get_h lc = 2
    · simp only [c3, if_true]
      cases rc with
      | null => simp only [get_h_null] at c3; omega
      | node L2 k2 v2 h2 C =>
        obtain ⟨hL2, hC, -⟩ := hr
        have nC := get_h_nonneg_of C hC
        by_cases c4 : get_h C - get_h L2 = -1
        · simp only [get_bf, c4, ne_eq, not_true_eq_false, if_false]
          cases L2 with
          | null => simp only [get_h_null] at c4; omega
          | node A k3 v3 h3 B =>
            obtain ⟨hA, hB, -⟩ := hL2
            have nA := get_h_nonneg_of A hA
            have nB := get_h_nonneg_of B hB
            rw [right_rot_node A B C k2 k3 v2 v3 h2 h3]
            simp only [update]
            rw [left_rot_node lc _ _ key k3 val v3 _ _]
            refine ⟨_, rfl, ⟨hl, hA, ?_⟩, ⟨hB, hC, ?_⟩, ?_⟩ <;> (try simp only [get_h_node]) <;> omega
        · simp only [get_bf, c4, ne_eq, not_false_eq_true, if_true]
          have nL := get_h_nonneg_of L2 hL2
          rw [left_rot_node lc L2 C key k2 val v2 _ h2]
          refine ⟨_, rfl, ⟨hl, hL2, ?_⟩, hC, ?_⟩ <;> omega
    · simp only [c3, if_false]
      exact ⟨_, rfl, hl, hr, by omega⟩

section order
variable [LinearOrder K]

theorem insert_node_nonneg (key : K) (val : T) (t : Node K T) (hne : t ≠ .null)
    (ht : heights_nonneg t) :
    ∃ t', insert_node key val t = some t' ∧ heights_nonneg t' := by
  induction t with
  | null => exact absurd rfl hne
  | node lc k v h rc ihl ihr =>
    obtain ⟨hl, hr, hh⟩ := ht
    have hnew : heights_nonneg (new_node key val) := ⟨trivial, trivial, by decide⟩
    rw [insert_node_node]
    by_cases c1 : k = key
    · simp only [c1, if_true]
      exact ⟨_, rfl, hl, hr, hh⟩
    · simp only [c1, if_false]
      by_cases c2 : key < k
      · simp only [c2, if_true]
        cases lc with
        | null => exact balance_nonneg _ _ _ _ _ hnew hr
        | node a b c d e =>
          obtain ⟨l', e1, h1⟩ := ihl (by simp) hl
          simp only [e1]
          exact balance_nonneg _ _ _ _ _ h1 hr
      · simp only [c2, if_false]
        cases rc with
        | null => exact balance_nonneg _ _ _ _ _ hl hnew
        | node a b c d e =>
          obtain ⟨r', e1, h1⟩ := ihr (by simp) hr
          simp only [e1]
          exact balance_nonneg _ _ _ _ _ hl h1

theorem insert_nonneg (key : K) (val : T) (t : Node K T) (ht : heights_nonneg t) :
    ∃ t', insert key val t = some t' ∧ heights_nonneg t' := by
  cases t with
  | null => exact ⟨_, rfl, trivial, trivial, by decide⟩
  | node lc k v h rc => exact insert_node_nonneg key val _ (by simp) ht

end order

theorem erase_elem_nonneg (t : Node K T) (ht : heights_nonneg t) :
    ∃ t' w, erase_elem t = some (t', w) ∧ heights_nonneg t' := by
  induction t with
  | null => exact ⟨_, _, rfl, trivial⟩
  | node lc k v h rc ihl ihr =>
    obtain ⟨hl, hr, hh⟩ := ht
    rw [erase_elem_node]
    cases lc with
    | null =>
      cases rc with
      | null => exact ⟨_, _, rfl, trivial⟩
      | node a b c d e =>
        obtain ⟨ha, he, -⟩ := hr
        obtain ⟨t', e1, h1⟩ := balance_nonneg a e b c h ha he
        simp only [e1]
        exact ⟨_, _, rfl, h1⟩
    | node a b c d e =>
      obtain ⟨l', w, e1, h1⟩ := ihl hl
      simp only [e1]
      obtain ⟨t', e2, h2⟩ := balance_nonneg l' rc k v h h1 hr
      simp only [e2]
      exact ⟨_, _, rfl, h2⟩

section order
variable [LinearOrder K]

theorem erase_node_nonneg (key : K) (t : Node K T) (ht : heights_nonneg t) :
    ∃ t', erase_node key t = some t' ∧ heights_nonneg t' := by
  induction t with
  | null => exact ⟨_, rfl, trivial⟩
  | node lc k v h rc ihl ihr =>
    obtain ⟨hl, hr, hh⟩ := ht
    rw [erase_node_node]
    by_cases c1 : key = k
    · simp only [if_pos c1]
      cases lc with
      | null =>
        cases rc with
        | null => exact ⟨_, rfl, trivial⟩
        | node a b c d e => exact balance_nonneg _ _ _ _ _ hr.1 hr.2.1
      | node a b c d e =>
        cases rc with
        | null => exact balance_nonneg _ _ _ _ _ hl.1 hl.2.1
        | node a2 b2 c2 d2 e2 =>
          cases a2 with
          | null => exact balance_nonneg _ _ _ _ _ hl hr.2.1
          | node a3 b3 c3 d3 e3 =>
            obtain ⟨r', w, e1, h1⟩ := erase_elem_nonneg _ hr
            simp only [e1]
            cases w with
            | none => exact balance_nonneg _ _ _ _ _ hl h1
            | some kv => exact balance_nonneg _ _ _ _ _ hl h1
    · simp only [if_neg c1]
      by_cases c2 : key < k
      · simp only [if_pos c2]
        obtain ⟨l', e1, h1⟩ := ihl hl
        simp only [e1]
        exact balance_nonneg _ _ _ _ _ h1 hr
      · simp only [if_neg c2]
        obtain ⟨r', e1, h1⟩ := ihr hr
        simp only [e1]
        exact balance_nonneg _ _ _ _ _ hl h1

end order

/-! ## The pointer-level model simulates the value-level model -/

namespace Linked

@[simp] theorem write_heap (m : Mem K T) (a : Nat) (c : Cell K T) (x : Nat) :
    (m.write a c).heap x = if x = a then some c else m.heap x := rfl

@[simp] theorem write_root (m : Mem K T) (a : Nat) (c : Cell K T) :
    (m.write a c).root = m.root := rfl

@[simp] theorem free_heap (m : Mem K T) (a : Nat) (x : Nat) :
    (m.free a).heap x = if x = a then none else m.heap x := rfl

@[simp] theorem free_root (m : Mem K T) (a : Nat) : (m.free a).root = m.root := rfl

theorem modify_of (m : Mem K T) (a : Nat) (f : Cell K T → Cell K T) (c : Cell K T)
    (h : m.heap a = some c) : m.modify a f = some (m.write a (f c)) := by
  simp [Mem.modify, h]

theorem Rep_live {heap : Nat → Option (Cell K T)} {t : Node K T} {p par : Option Nat}
    {fp : List Nat} (hr : Rep heap t p par fp) : ∀ a ∈ fp, ∃ c, heap a = some c := by
  induction t generalizing p par fp with
  | null => obtain ⟨-, rfl⟩ := hr; simp
  | node l k v h r ihl ihr =>
    obtain ⟨a, pl, pr, fl, fr, rfl, ha, hl, hr', rfl, -, -, -⟩ := hr
    intro x hx
    simp only [List.mem_cons, List.mem_append] at hx
    rcases hx with rfl | hx | hx
    · exact ⟨_, ha⟩
    · exact ihl hl x hx
    · exact ihr hr' x hx

theorem Rep_frame {heap heap' : Nat → Option (Cell K T)} {t : Node K T} {p par : Option Nat}
    {fp : List Nat} (hr : Rep heap t p par fp) (hf : ∀ a ∈ fp, heap' a = heap a) :
    Rep heap' t p par fp := by
  induction t generalizing p par fp with
  | null => exact hr
  | node l k v h r ihl ihr =>
    obtain ⟨a, pl, pr, fl, fr, rfl, ha, hl, hr', rfl, h1, h2, h3⟩ := hr
    refine ⟨a, pl, pr, fl, fr, rfl, ?_, ?_, ?_, rfl, h1, h2, h3⟩
    · rw [hf a (by simp), ha]
    · exact ihl hl (fun x hx => hf x (by simp [hx]))
    · exact ihr hr' (fun x hx => hf x (by simp [hx]))

theorem Rep_reparent {heap heap' : Nat → Option (Cell K T)} {t : Node K T}
    {p par par' : Option Nat} {fp : List Nat} (hr : Rep heap t p par fp)
    (hf : ∀ a ∈ fp, some a ≠ p → heap' a = heap a)
    (hp : ∀ a c, p = some a → heap a = some c → heap' a = some { c with par := par' }) :
    Rep heap' t p par' fp := by
  cases t with
  | null => exact hr
  | node l k v h r =>
    obtain ⟨a, pl, pr, fl, fr, rfl, ha, hl, hr', rfl, h1, h2, h3⟩ := hr
    refine ⟨a, pl, pr, fl, fr, rfl, ?_, ?_, ?_, rfl, h1, h2, h3⟩
    · rw [hp a _ rfl ha]
    · refine Rep_frame hl (fun x hx => hf x (by simp [hx]) ?_)
      intro e; cases e; exact h1 hx
    · refine Rep_frame hr' (fun x hx => hf x (by simp [hx]) ?_)
      intro e; cases e; exact h2 hx

theorem Rep_root_mem {heap : Nat → Option (Cell K T)} {t : Node K T} {a : Nat}
    {par : Option Nat} {fp : List Nat} (hr : Rep heap t (some a) par fp) : a ∈ fp := by
  cases t with
  | null => obtain ⟨h, -⟩ := hr; cases h
  | node l k v h r =>
    obtain ⟨a', pl, pr, fl, fr, e, -, -, -, rfl, -⟩ := hr
    cases e; simp

theorem Rep_none {heap : Nat → Option (Cell K T)} {t : Node K T}
    {par : Option Nat} {fp : List Nat} (hr : Rep heap t none par fp) :
    t = .null ∧ fp = [] := by
  cases t with
  | null => exact ⟨rfl, hr.2⟩
  | node l k v h r =>
    obtain ⟨a', pl, pr, fl, fr, e, -⟩ := hr
    cases e

theorem Rep_get_h {m : Mem K T} {t : Node K T} {p par : Option Nat} {fp : List Nat}
    (hr : Rep m.heap t p par fp) : get_h m p = some (AVLTree.get_h t) := by
  cases t with
  | null => obtain ⟨rfl, -⟩ := hr; rfl
  | node l k v h r =>
    obtain ⟨a, pl, pr, fl, fr, rfl, ha, -⟩ := hr
    simp [get_h, ha]

theorem get_h_congr {m m' : Mem K T} {p : Option Nat}
    (h : ∀ a, p = some a → ∃ c c', m.heap a = some c ∧ m'.heap a = some c' ∧ c'.h = c.h) :
    get_h m' p = get_h m p := by
  cases p with
  | none => rfl
  | some a =>
    obtain ⟨c, c', h1, h2, h3⟩ := h a rfl
    simp [get_h, h1, h2, h3]

theorem update_of (m : Mem K T) (a : Nat) (c : Cell K T) (hl hr : Int)
    (h : m.heap a = some c) (h1 : get_h m c.lc = some hl) (h2 : get_h m c.rc = some hr) :
    update m (some a) = some (m.write a { c with h := 1 + max hl hr }) := by
  simp [update, h, h1, h2]

theorem get_h_of (m : Mem K T) (a : Nat) (c : Cell K T) (h : m.heap a = some c) :
    get_h m (some a) = some c.h := by
  simp [get_h, h]

theorem get_h_eq_of (m m' : Mem K T) (p : Option Nat)
    (h : ∀ x, p = some x → (m'.heap x).map Cell.h = (m.heap x).map Cell.h) :
    get_h m' p = get_h m p := by
  cases p with
  | none => rfl
  | some a =>
    have := h a rfl
    simp only [get_h]
    cases h1 : m'.heap a <;> cases h2 : m.heap a <;> simp_all

theorem set_par_spec (m : Mem K T) (p par : Option Nat)
    (hl : ∀ b, p = some b → ∃ c, m.heap b = some c) :
    ∃ m', set_par m p par = some m' ∧ m'.root = m.root ∧
      (∀ x, p ≠ some x → m'.heap x = m.heap x) ∧
      (∀ b c, p = some b → m.heap b = some c → m'.heap b = some { c with par := par }) := by
  cases p with
  | none => exact ⟨m, rfl, rfl, fun _ _ => rfl, fun b c h => by cases h⟩
  | some a =>
    obtain ⟨c, hc⟩ := hl a rfl
    refine ⟨m.write a { c with par := par }, by simp [set_par, Mem.modify, hc], rfl, ?_, ?_⟩
    · intro x hx
      have : x ≠ a := fun e => hx (e ▸ rfl)
      simp [this]
    · intro b c' hb hc'
      cases hb
      rw [hc] at hc'
      cases hc'
      simp

theorem set_slot_spec (m : Mem K T) (par : Option Nat) (node : Nat) (p : Option Nat)
    (hl : ∀ q, par = some q → ∃ c, m.heap q = some c) :
    ∃ m', set_slot m par node p = some m' ∧ (par = none → m'.root = p) ∧
      (par ≠ none → m'.root = m.root) ∧
      (∀ x, par ≠ some x → m'.heap x = m.heap x) ∧
      (∀ q c, par = some q → m.heap q = some c →
        (c.lc = some node → m'.heap q = some { c with lc := p }) ∧
        (c.lc ≠ some node → m'.heap q = some { c with rc := p })) := by
  cases par with
  | none =>
    exact ⟨⟨p, m.heap⟩, rfl, fun _ => rfl, fun h => absurd rfl h, fun _ _ => rfl,
      fun q c h => by cases h⟩
  | some q =>
    obtain ⟨c, hc⟩ := hl q rfl
    by_cases hs : c.lc = some node
    · refine ⟨m.write q { c with lc := p }, by simp [set_slot, hc, hs],
        (fun h => by cases h), (fun _ => rfl), ?_, ?_⟩
      · intro x hx
        have : x ≠ q := fun e => hx (e ▸ rfl)
        simp [this]
      · intro q' c' hq hc'
        cases hq
        rw [hc] at hc'
        cases hc'
        exact ⟨fun _ => by simp, fun h => absurd hs h⟩
    · refine ⟨m.write q { c with rc := p }, by simp [set_slot, hc, hs],
        (fun h => by cases h), (fun _ => rfl), ?_, ?_⟩
      · intro x hx
        have : x ≠ q := fun e => hx (e ▸ rfl)
        simp [this]
      · intro q' c' hq hc'
        cases hq
        rw [hc] at hc'
        cases hc'
        exact ⟨fun h => absurd h hs, fun _ => by simp⟩

theorem update_spec (m : Mem K T) (p : Option Nat)
    (hl : ∀ q, p = some q → ∃ c hl hr, m.heap q = some c ∧ get_h m c.lc = some hl ∧
      get_h m c.rc = some hr) :
    ∃ m', update m p = some m' ∧ m'.root = m.root ∧
      (∀ x, p ≠ some x → m'.heap x = m.heap x) ∧
      (∀ q c hl hr, p = some q → m.heap q = some c → get_h m c.lc = some hl →
        get_h m c.rc = some hr → m'.heap q = some { c with h := 1 + max hl hr }) := by
  cases p with
  | none => exact ⟨m, rfl, rfl, fun _ _ => rfl, fun q c _ _ h => by cases h⟩
  | some a =>
    obtain ⟨c, h1, h2, hc, e1, e2⟩ := hl a rfl
    refine ⟨_, update_of m a c h1 h2 hc e1 e2, rfl, ?_, ?_⟩
    · intro x hx
      have : x ≠ a := fun e => hx (e ▸ rfl)
      simp [this]
    · intro q c' hl' hr' hq hc' e1' e2'
      cases hq
      rw [hc] at hc'
      cases hc'
      rw [e1] at e1'
      rw [e2] at e2'
      cases e1'
      cases e2'
      simp

theorem left_rot_post (m : Mem K T) (A B C : Node K T) (k k2 : K) (v v2 : T) (h h2 : Int)
    (n : Nat) (par : Option Nat) (side : Bool) (fp : List Nat)
    (hrep : Rep m.heap (.node A k v h (.node B k2 v2 h2 C)) (some n) par fp)
    (hs : Slot m (some n) par side fp) :
    ∃ m', left_rot m n = some m' ∧
      Post m m' (.node (.node A k v (1 + max (AVLTree.get_h A) (AVLTree.get_h B)) B) k2 v2
        (1 + max (1 + max (AVLTree.get_h A) (AVLTree.get_h B)) (AVLTree.get_h C)) C)
        par side fp := by
  obtain ⟨n', pa, pr, fa, fR, e, hn, hA, hR, rfl, hnfa, hnfR, hd1⟩ := hrep
  cases e
  obtain ⟨r, pb, pc, fb, fc, e, hr, hB, hC, rfl, hrfb, hrfc, hd2⟩ := hR
  cases e
  have hnr : n ≠ r := fun e => hnfR (by simp [e])
  have hnfb : n ∉ fb := fun e => hnfR (by simp [e])
  have hnfc : n ∉ fc := fun e => hnfR (by simp [e])
  have hrfa : r ∉ fa := fun e => hd1 r e (by simp)
  have hab : ∀ x ∈ fa, x ∉ fb := fun x hx e => hd1 x hx (by simp [e])
  have hac : ∀ x ∈ fa, x ∉ fc := fun x hx e => hd1 x hx (by simp [e])
  -- the slot owner
  have hq : ∀ q, par = some q → q ≠ n ∧ q ≠ r ∧ q ∉ fa ∧ q ∉ fb ∧ q ∉ fc ∧
      ∃ cq, m.heap q = some cq ∧ child cq side = some n ∧
        Sib m (child cq (!side)) (n :: (fa ++ r :: (fb ++ fc))) q := by
    intro q hq
    subst hq
    obtain ⟨h1, cq, h2, h3, h4⟩ := hs
    simp only [List.mem_cons, List.mem_append, not_or] at h1
    exact ⟨h1.1, h1.2.2.1, h1.2.1, h1.2.2.2.1, h1.2.2.2.2, cq, h2, h3, h4⟩
  have hpa := Rep_get_h hA
  have hpb := Rep_get_h hB
  have hpc := Rep_get_h hC
  have hpbm : ∀ b, pb = some b → b ∈ fb := fun b e => Rep_root_mem (e ▸ hB)
  have hpam : ∀ b, pa = some b → b ∈ fa := fun b e => Rep_root_mem (e ▸ hA)
  have hpcm : ∀ b, pc = some b → b ∈ fc := fun b e => Rep_root_mem (e ▸ hC)
  simp only [left_rot, hn, hr, Option.bind_eq_bind, Option.some_bind]
  rw [modify_of _ _ _ _ hn]
  simp only [Option.some_bind]
  obtain ⟨m2, e2, r2, f2, g2⟩ := set_par_spec
    (m.write n ⟨k, v, h, pa, pb, par⟩) pb (some n) (by
      intro b hb
      obtain ⟨c, hc⟩ := Rep_live hB b (hpbm b hb)
      have : b ≠ n := fun e => hnfb (e ▸ hpbm b hb)
      exact ⟨c, by simp [this, hc]⟩)
  rw [e2]
  simp only [Option.some_bind]
  have h2x : ∀ x, x ≠ n → pb ≠ some x → m2.heap x = m.heap x := by
    intro x h1 h2
    rw [f2 x h2]
    simp [h1]
  have hpbn : pb ≠ some n := fun e => hnfb (hpbm n e)
  have hpbr : pb ≠ some r := fun e => hrfb (hpbm r e)
  have h2r : m2.heap r = some ⟨k2, v2, h2, pb, pc, some n⟩ := by
    rw [h2x r (Ne.symm hnr) hpbr, hr]
  have h2n : m2.heap n = some ⟨k, v, h, pa, pb, par⟩ := by
    rw [f2 n hpbn]
    simp
  rw [modify_of _ r _ _ h2r]
  simp only [Option.some_bind]
  rw [modify_of _ n _ ⟨k, v, h, pa, pb, par⟩ (by simp [hnr, h2n])]
  simp only [Option.some_bind]
  rw [modify_of _ r _ ⟨k2, v2, h2, some n, pc, some n⟩ (by simp [Ne.symm hnr])]
  simp only [Option.some_bind]
  have h5x : ∀ x, x ≠ n → x ≠ r → pb ≠ some x →
      ((((m2.write r ⟨k2, v2, h2, some n, pc, some n⟩).write n
        ⟨k, v, h, pa, pb, some r⟩).write r ⟨k2, v2, h2, some n, pc, par⟩).heap x) =
        m.heap x := by
    intro x h1 h2' h3
    simp [h1, h2', h2x x h1 h3]
  obtain ⟨m6, e6, r6a, r6b, f6, g6⟩ := set_slot_spec
    (((m2.write r ⟨k2, v2, h2, some n, pc, some n⟩).write n
      ⟨k, v, h, pa, pb, some r⟩).write r ⟨k2, v2, h2, some n, pc, par⟩) par n (some r) (by
      intro q hq'
      obtain ⟨q1, q2, q3, q4, q5, cq, hcq, -, -⟩ := hq q hq'
      exact ⟨cq, by rw [h5x q q1 q2 (fun e => q4 (hpbm q e)), hcq]⟩)
  rw [e6]
  simp only [Option.some_bind]
  have hparn : par ≠ some n := fun e => (hq n e).1 rfl
  have hparr : par ≠ some r := fun e => (hq r e).2.1 rfl
  have h6n : m6.heap n = some ⟨k, v, h, pa, pb, some r⟩ := by
    rw [f6 n hparn]; simp [hnr]
  have h6r : m6.heap r = some ⟨k2, v2, h2, some n, pc, par⟩ := by
    rw [f6 r hparr]; simp
  have h6x : ∀ x, x ≠ n → x ≠ r → pb ≠ some x → par ≠ some x → m6.heap x = m.heap x := by
    intro x h1 h2' h3 h4
    rw [f6 x h4, h5x x h1 h2' h3]
  have h6b : ∀ b c, pb = some b → m.heap b = some c →
      m6.heap b = some { c with par := some n } := by
    intro b c hb hc
    have hbfb := hpbm b hb
    have hbn : b ≠ n := fun e => hnfb (e ▸ hbfb)
    have hbr : b ≠ r := fun e => hrfb (e ▸ hbfb)
    rw [f6 b (fun e => (hq b e).2.2.2.1 hbfb)]
    simp only [write_heap, hbn, hbr, if_false]
    exact g2 b c hb (by simp [hbn, hc])
  have g6pa : get_h m6 pa = some (AVLTree.get_h A) := by
    rw [← hpa]
    apply get_h_eq_of
    intro x hx
    have hxa := hpam x hx
    rw [h6x x (fun e => hnfa (e ▸ hxa)) (fun e => hrfa (e ▸ hxa))
      (fun e => hab x hxa (hpbm x e)) (fun e => (hq x e).2.2.1 hxa)]
  have g6pb : get_h m6 pb = some (AVLTree.get_h B) := by
    rw [← hpb]
    apply get_h_eq_of
    intro x hx
    obtain ⟨c, hc⟩ := Rep_live hB x (hpbm x hx)
    rw [h6b x c hx hc, hc]
    rfl
  rw [update_of m6 n _ _ _ h6n g6pa g6pb]
  simp only [Option.some_bind]
  have g7pc : get_h (m6.write n ⟨k, v, 1 + max (AVLTree.get_h A) (AVLTree.get_h B), pa, pb,
      some r⟩) pc = some (AVLTree.get_h C) := by
    rw [← hpc]
    apply get_h_eq_of
    intro x hx
    have hxc := hpcm x hx
    have hxn : x ≠ n := fun e => hnfc (e ▸ hxc)
    simp only [write_heap, hxn, if_false]
    rw [h6x x hxn (fun e => hrfc (e ▸ hxc))
      (fun e => hd2 x (hpbm x e) hxc) (fun e => (hq x e).2.2.2.2.1 hxc)]
  rw [update_of _ r ⟨k2, v2, h2, some n, pc, par⟩
    (1 + max (AVLTree.get_h A) (AVLTree.get_h B)) (AVLTree.get_h C)
    (by simp [Ne.symm hnr, h6r]) (by simp [get_h]) g7pc]
  simp only [Option.some_bind]
  have h8x : ∀ x, x ≠ n → x ≠ r →
      ((m6.write n ⟨k, v, 1 + max (AVLTree.get_h A) (AVLTree.get_h B), pa, pb, some r⟩).write r
        ⟨k2, v2, 1 + max (1 + max (AVLTree.get_h A) (AVLTree.get_h B)) (AVLTree.get_h C),
          some n, pc, par⟩).heap x = m6.heap x := by
    intro x h1 h2'
    simp [h1, h2']
  have hsib : ∀ q s, par = some q → Sib m s (n :: (fa ++ r :: (fb ++ fc))) q → ∃ z, get_h
      ((m6.write n ⟨k, v, 1 + max (AVLTree.get_h A) (AVLTree.get_h B), pa, pb, some r⟩).write r
        ⟨k2, v2, 1 + max (1 + max (AVLTree.get_h A) (AVLTree.get_h B)) (AVLTree.get_h C),
          some n, pc, par⟩) s = some z := by
    intro q s hq' hs'
    rcases hs' with rfl | ⟨b, cb, rfl, hb1, hb2, hb3⟩
    · exact ⟨0, rfl⟩
    · simp only [List.mem_cons, List.mem_append, not_or] at hb1
      obtain ⟨b1, b2, b3, b4, b5⟩ := hb1
      refine ⟨cb.h, ?_⟩
      have : m6.heap b = some cb := by
        rw [h6x b b1 b3 (fun e => b4 (hpbm b e)) (fun e => hb2 (by rw [hq'] at e; cases e; rfl)),
          hb3]
      simp [get_h, b1, b3, this]
  obtain ⟨m9, e9, r9, f9, g9⟩ := update_spec
    ((m6.write n ⟨k, v, 1 + max (AVLTree.get_h A) (AVLTree.get_h B), pa, pb, some r⟩).write r
      ⟨k2, v2, 1 + max (1 + max (AVLTree.get_h A) (AVLTree.get_h B)) (AVLTree.get_h C),
        some n, pc, par⟩) par (by
      intro q hq'
      obtain ⟨q1, q2, q3, q4, q5, cq, hcq, hch, hsb⟩ := hq q hq'
      have hm5q := h5x q q1 q2 (fun e => q4 (hpbm q e))
      rw [hcq] at hm5q
      have hg := g6 q cq hq' hm5q
      cases side
      swap
      · have hl : cq.lc = some n := hch
        have hsb : Sib m cq.rc _ q := hsb
        obtain ⟨z, hz⟩ := hsib q _ hq' hsb
        refine ⟨{ cq with lc := some r }, (1 + max (1 + max (AVLTree.get_h A) (AVLTree.get_h B)) (AVLTree.get_h C)), z,
          by rw [h8x q q1 q2]; exact hg.1 hl, by simp [get_h], hz⟩
      · have hsb : Sib m cq.lc _ q := hsb
        have hl : cq.lc ≠ some n := by
          rcases hsb with e | ⟨b, cb, e, hb1, -, -⟩
          · rw [e]; exact fun e' => by cases e'
          · rw [e]; intro e'; cases e'; exact hb1 (by simp)
        obtain ⟨z, hz⟩ := hsib q _ hq' hsb
        refine ⟨{ cq with rc := some r }, z, (1 + max (1 + max (AVLTree.get_h A) (AVLTree.get_h B)) (AVLTree.get_h C)),
          by rw [h8x q q1 q2]; exact hg.2 hl, hz, by simp [get_h]⟩)
  rw [e9]
  have h9n : m9.heap n =
      some ⟨k, v, 1 + max (AVLTree.get_h A) (AVLTree.get_h B), pa, pb, some r⟩ := by
    rw [f9 n hparn]; simp [hnr]
  have h9r : m9.heap r = some ⟨k2, v2,
      1 + max (1 + max (AVLTree.get_h A) (AVLTree.get_h B)) (AVLTree.get_h C),
      some n, pc, par⟩ := by
    rw [f9 r hparr]; simp
  have h9x : ∀ x, x ≠ n → x ≠ r → pb ≠ some x → par ≠ some x → m9.heap x = m.heap x := by
    intro x h1 h2' h3 h4
    rw [f9 x h4, h8x x h1 h2', h6x x h1 h2' h3 h4]
  have h9b : ∀ b c, pb = some b → m.heap b = some c →
      m9.heap b = some { c with par := some n } := by
    intro b c hb hc
    have hbfb := hpbm b hb
    have hbn : b ≠ n := fun e => hnfb (e ▸ hbfb)
    have hbr : b ≠ r := fun e => hrfb (e ▸ hbfb)
    rw [f9 b (fun e => (hq b e).2.2.2.1 hbfb), h8x b hbn hbr]
    exact h6b b c hb hc
  refine ⟨m9, rfl, some r, r :: ((n :: (fa ++ fb)) ++ fc), ?_, ?_, ?_, ?_⟩
  · refine ⟨r, some n, pc, n :: (fa ++ fb), fc, rfl, h9r, ?_, ?_, rfl, ?_, hrfc, ?_⟩
    · refine ⟨n, pa, pb, fa, fb, rfl, h9n, ?_, ?_, rfl, hnfa, hnfb, hab⟩
      · refine Rep_frame hA (fun x hx => ?_)
        exact h9x x (fun e => hnfa (e ▸ hx)) (fun e => hrfa (e ▸ hx))
          (fun e => hab x hx (hpbm x e)) (fun e => (hq x e).2.2.1 hx)
      · refine Rep_reparent hB (fun x hx hne => ?_) (fun b c hb hc => h9b b c hb hc)
        exact h9x x (fun e => hnfb (e ▸ hx)) (fun e => hrfb (e ▸ hx))
          (fun e => hne e.symm) (fun e => (hq x e).2.2.2.1 hx)
    · refine Rep_frame hC (fun x hx => ?_)
      exact h9x x (fun e => hnfc (e ▸ hx)) (fun e => hrfc (e ▸ hx))
        (fun e => hd2 x (hpbm x e) hx) (fun e => (hq x e).2.2.2.2.1 hx)
    · simp only [List.mem_cons, List.mem_append, not_or]
      exact ⟨Ne.symm hnr, hrfa, hrfb⟩
    · intro x hx
      simp only [List.mem_cons, List.mem_append] at hx
      rcases hx with rfl | hx | hx
      · exact hnfc
      · exact hac x hx
      · exact hd2 x hx
  · intro a ha
    simp only [List.mem_cons, List.mem_append] at ha ⊢
    tauto
  · cases par with
    | none =>
      show m9.root = some r
      rw [r9]
      simp only [write_root]
      exact r6a rfl
    | some q =>
      obtain ⟨q1, q2, q3, q4, q5, cq, hcq, hch, hsb⟩ := hq q rfl
      have hm5q := h5x q q1 q2 (fun e => q4 (hpbm q e))
      rw [hcq] at hm5q
      have hg := g6 q cq rfl hm5q
      refine ⟨?_, ?_⟩
      · rw [r9]
        simp only [write_root]
        rw [r6b (by simp), write_root, write_root, write_root, r2, write_root]
      · cases side
        swap
        · have hl : cq.lc = some n := hch
          have hsb : Sib m cq.rc _ q := hsb
          obtain ⟨z, hz⟩ := hsib q _ rfl hsb
          have h8q := (h8x q q1 q2).trans (hg.1 hl)
          have := g9 q _ (1 + max (1 + max (AVLTree.get_h A) (AVLTree.get_h B)) (AVLTree.get_h C)) z rfl h8q (by simp [get_h]) hz
          exact ⟨cq, _, hcq, this⟩
        · have hsb : Sib m cq.lc _ q := hsb
          have hl : cq.lc ≠ some n := by
            rcases hsb with e | ⟨b, cb, e, hb1, -, -⟩
            · rw [e]; exact fun e' => by cases e'
            · rw [e]; intro e'; cases e'; exact hb1 (by simp)
          obtain ⟨z, hz⟩ := hsib q _ rfl hsb
          have h8q := (h8x q q1 q2).trans (hg.2 hl)
          have := g9 q _ z (1 + max (1 + max (AVLTree.get_h A) (AVLTree.get_h B)) (AVLTree.get_h C)) rfl h8q hz (by simp [get_h])
          exact ⟨cq, _, hcq, this⟩
  · intro a ha hpar
    simp only [List.mem_cons, List.mem_append, not_or] at ha
    obtain ⟨a1, a2, a3, a4, a5⟩ := ha
    exact h9x a a1 a3 (fun e => a4 (hpbm a e)) (fun e => hpar e.symm)

theorem right_rot_post (m : Mem K T) (A B C : Node K T) (k k2 : K) (v v2 : T) (h h2 : Int)
    (n : Nat) (par : Option Nat) (side : Bool) (fp : List Nat)
    (hrep : Rep m.heap (.node (.node A k2 v2 h2 B) k v h C) (some n) par fp)
    (hs : Slot m (some n) par side fp) :
    ∃ m', right_rot m n = some m' ∧
      Post m m' (.node A k2 v2
        (1 + max (AVLTree.get_h A) (1 + max (AVLTree.get_h B) (AVLTree.get_h C)))
        (.node B k v (1 + max (AVLTree.get_h B) (AVLTree.get_h C)) C))
        par side fp := by
  obtain ⟨n', pl, pc, fL, fc, e, hn, hL, hC, rfl, hnfL, hnfc, hd1⟩ := hrep
  cases e
  obtain ⟨r, pa, pb, fa, fb, e, hr, hA, hB, rfl, hrfa, hrfb, hd2⟩ := hL
  cases e
  have hnr : n ≠ r := fun e => hnfL (by simp [e])
  have hnfa : n ∉ fa := fun e => hnfL (by simp [e])
  have hnfb : n ∉ fb := fun e => hnfL (by simp [e])
  have hrfc : r ∉ fc := hd1 r (by simp)
  have hac : ∀ x ∈ fa, x ∉ fc := fun x hx => hd1 x (by simp [hx])
  have hbc : ∀ x ∈ fb, x ∉ fc := fun x hx => hd1 x (by simp [hx])
  have hq : ∀ q, par = some q → q ≠ n ∧ q ≠ r ∧ q ∉ fa ∧ q ∉ fb ∧ q ∉ fc ∧
      ∃ cq, m.heap q = some cq ∧ child cq side = some n ∧
        Sib m (child cq (!side)) (n :: (r :: (fa ++ fb) ++ fc)) q := by
    intro q hq
    subst hq
    obtain ⟨h1, cq, h2, h3, h4⟩ := hs
    simp only [List.mem_cons, List.mem_append, List.cons_append, not_or] at h1
    exact ⟨h1.1, h1.2.1, h1.2.2.1.1, h1.2.2.1.2, h1.2.2.2, cq, h2, h3, h4⟩
  have hpa := Rep_get_h hA
  have hpb := Rep_get_h hB
  have hpc := Rep_get_h hC
  have hpbm : ∀ b, pb = some b → b ∈ fb := fun b e => Rep_root_mem (e ▸ hB)
  have hpam : ∀ b, pa = some b → b ∈ fa := fun b e => Rep_root_mem (e ▸ hA)
  have hpcm : ∀ b, pc = some b → b ∈ fc := fun b e => Rep_root_mem (e ▸ hC)
  simp only [right_rot, hn, hr, Option.bind_eq_bind, Option.some_bind]
  rw [modify_of _ _ _ _ hn]
  simp only [Option.some_bind]
  obtain ⟨m2, e2, r2, f2, g2⟩ := set_par_spec
    (m.write n ⟨k, v, h, pb, pc, par⟩) pb (some n) (by
      intro b hb
      obtain ⟨c, hc⟩ := Rep_live hB b (hpbm b hb)
      have : b ≠ n := fun e => hnfb (e ▸ hpbm b hb)
      exact ⟨c, by simp [this, hc]⟩)
  rw [e2]
  simp only [Option.some_bind]
  have h2x : ∀ x, x ≠ n → pb ≠ some x → m2.heap x = m.heap x := by
    intro x h1 h2
    rw [f2 x h2]
    simp [h1]
  have hpbn : pb ≠ some n := fun e => hnfb (hpbm n e)
  have hpbr : pb ≠ some r := fun e => hrfb (hpbm r e)
  have h2r : m2.heap r = some ⟨k2, v2, h2, pa, pb, some n⟩ := by
    rw [h2x r (Ne.symm hnr) hpbr, hr]
  have h2n : m2.heap n = some ⟨k, v, h, pb, pc, par⟩ := by
    rw [f2 n hpbn]
    simp
  rw [modify_of _ r _ _ h2r]
  simp only [Option.some_bind]
  rw [modify_of _ n _ ⟨k, v, h, pb, pc, par⟩ (by simp [hnr, h2n])]
  simp only [Option.some_bind]
  rw [modify_of _ r _ ⟨k2, v2, h2, pa, some n, some n⟩ (by simp [Ne.symm hnr])]
  simp only [Option.some_bind]
  have h5x : ∀ x, x ≠ n → x ≠ r → pb ≠ some x →
      ((((m2.write r ⟨k2, v2, h2, pa, some n, some n⟩).write n
        ⟨k, v, h, pb, pc, some r⟩).write r ⟨k2, v2, h2, pa, some n, par⟩).heap x) =
        m.heap x := by
    intro x h1 h2' h3
    simp [h1, h2', h2x x h1 h3]
  obtain ⟨m6, e6, r6a, r6b, f6, g6⟩ := set_slot_spec
    (((m2.write r ⟨k2, v2, h2, pa, some n, some n⟩).write n
      ⟨k, v, h, pb, pc, some r⟩).write r ⟨k2, v2, h2, pa, some n, par⟩) par n (some r) (by
      intro q hq'
      obtain ⟨q1, q2, q3, q4, q5, cq, hcq, -, -⟩ := hq q hq'
      exact ⟨cq, by rw [h5x q q1 q2 (fun e => q4 (hpbm q e)), hcq]⟩)
  rw [e6]
  simp only [Option.some_bind]
  have hparn : par ≠ some n := fun e => (hq n e).1 rfl
  have hparr : par ≠ some r := fun e => (hq r e).2.1 rfl
  have h6n : m6.heap n = some ⟨k, v, h, pb, pc, some r⟩ := by
    rw [f6 n hparn]; simp [hnr]
  have h6r : m6.heap r = some ⟨k2, v2, h2, pa, some n, par⟩ := by
    rw [f6 r hparr]; simp
  have h6x : ∀ x, x ≠ n → x ≠ r → pb ≠ some x → par ≠ some x → m6.heap x = m.heap x := by
    intro x h1 h2' h3 h4
    rw [f6 x h4, h5x x h1 h2' h3]
  have h6b : ∀ b c, pb = some b → m.heap b = some c →
      m6.heap b = some { c with par := some n } := by
    intro b c hb hc
    have hbfb := hpbm b hb
    have hbn : b ≠ n := fun e => hnfb (e ▸ hbfb)
    have hbr : b ≠ r := fun e => hrfb (e ▸ hbfb)
    rw [f6 b (fun e => (hq b e).2.2.2.1 hbfb)]
    simp only [write_heap, hbn, hbr, if_false]
    exact g2 b c hb (by simp [hbn, hc])
  have g6pc : get_h m6 pc = some (AVLTree.get_h C) := by
    rw [← hpc]
    apply get_h_eq_of
    intro x hx
    have hxc := hpcm x hx
    rw [h6x x (fun e => hnfc (e ▸ hxc)) (fun e => hrfc (e ▸ hxc))
      (fun e => hbc x (hpbm x e) hxc) (fun e => (hq x e).2.2.2.2.1 hxc)]
  have g6pb : get_h m6 pb = some (AVLTree.get_h B) := by
    rw [← hpb]
    apply get_h_eq_of
    intro x hx
    obtain ⟨c, hc⟩ := Rep_live hB x (hpbm x hx)
    rw [h6b x c hx hc, hc]
    rfl
  rw [update_of m6 n _ _ _ h6n g6pb g6pc]
  simp only [Option.some_bind]
  have g7pa : get_h (m6.write n ⟨k, v, 1 + max (AVLTree.get_h B) (AVLTree.get_h C), pb, pc,
      some r⟩) pa = some (AVLTree.get_h A) := by
    rw [← hpa]
    apply get_h_eq_of
    intro x hx
    have hxa := hpam x hx
    have hxn : x ≠ n := fun e => hnfa (e ▸ hxa)
    simp only [write_heap, hxn, if_false]
    rw [h6x x hxn (fun e => hrfa (e ▸ hxa))
      (fun e => hd2 x hxa (hpbm x e)) (fun e => (hq x e).2.2.1 hxa)]
  rw [update_of _ r ⟨k2, v2, h2, pa, some n, par⟩
    (AVLTree.get_h A) (1 + max (AVLTree.get_h B) (AVLTree.get_h C))
    (by simp [Ne.symm hnr, h6r]) g7pa (by simp [get_h])]
  simp only [Option.some_bind]
  have h8x : ∀ x, x ≠ n → x ≠ r →
      ((m6.write n ⟨k, v, 1 + max (AVLTree.get_h B) (AVLTree.get_h C), pb, pc, some r⟩).write r
        ⟨k2, v2, 1 + max (AVLTree.get_h A) (1 + max (AVLTree.get_h B) (AVLTree.get_h C)),
          pa, some n, par⟩).heap x = m6.heap x := by
    intro x h1 h2'
    simp [h1, h2']
  have hsib : ∀ q s, par = some q → Sib m s (n :: (r :: (fa ++ fb) ++ fc)) q → ∃ z, get_h
      ((m6.write n ⟨k, v, 1 + max (AVLTree.get_h B) (AVLTree.get_h C), pb, pc, some r⟩).write r
        ⟨k2, v2, 1 + max (AVLTree.get_h A) (1 + max (AVLTree.get_h B) (AVLTree.get_h C)),
          pa, some n, par⟩) s = some z := by
    intro q s hq' hs'
    rcases hs' with rfl | ⟨b, cb, rfl, hb1, hb2, hb3⟩
    · exact ⟨0, rfl⟩
    · simp only [List.mem_cons, List.mem_append, List.cons_append, not_or] at hb1
      obtain ⟨b1, b2, ⟨b3, b4⟩, b5⟩ := hb1
      refine ⟨cb.h, ?_⟩
      have : m6.heap b = some cb := by
        rw [h6x b b1 b2 (fun e => b4 (hpbm b e)) (fun e => hb2 (by rw [hq'] at e; cases e; rfl)),
          hb3]
      simp [get_h, b1, b2, this]
  obtain ⟨m9, e9, r9, f9, g9⟩ := update_spec
    ((m6.write n ⟨k, v, 1 + max (AVLTree.get_h B) (AVLTree.get_h C), pb, pc, some r⟩).write r
      ⟨k2, v2, 1 + max (AVLTree.get_h A) (1 + max (AVLTree.get_h B) (AVLTree.get_h C)),
        pa, some n, par⟩) par (by
      intro q hq'
      obtain ⟨q1, q2, q3, q4, q5, cq, hcq, hch, hsb⟩ := hq q hq'
      have hm5q := h5x q q1 q2 (fun e => q4 (hpbm q e))
      rw [hcq] at hm5q
      have hg := g6 q cq hq' hm5q
      cases side
      swap
      · have hl : cq.lc = some n := hch
        have hsb : Sib m cq.rc _ q := hsb
        obtain ⟨z, hz⟩ := hsib q _ hq' hsb
        refine ⟨{ cq with lc := some r },
          (1 + max (AVLTree.get_h A) (1 + max (AVLTree.get_h B) (AVLTree.get_h C))), z,
          by rw [h8x q q1 q2]; exact hg.1 hl, by simp [get_h], hz⟩
      · have hsb : Sib m cq.lc _ q := hsb
        have hl : cq.lc ≠ some n := by
          rcases hsb with e | ⟨b, cb, e, hb1, -, -⟩
          · rw [e]; exact fun e' => by cases e'
          · rw [e]; intro e'; cases e'; exact hb1 (by simp)
        obtain ⟨z, hz⟩ := hsib q _ hq' hsb
        refine ⟨{ cq with rc := some r }, z,
          (1 + max (AVLTree.get_h A) (1 + max (AVLTree.get_h B) (AVLTree.get_h C))),
          by rw [h8x q q1 q2]; exact hg.2 hl, hz, by simp [get_h]⟩)
  rw [e9]
  have h9n : m9.heap n =
      some ⟨k, v, 1 + max (AVLTree.get_h B) (AVLTree.get_h C), pb, pc, some r⟩ := by
    rw [f9 n hparn]; simp [hnr]
  have h9r : m9.heap r = some ⟨k2, v2,
      1 + max (AVLTree.get_h A) (1 + max (AVLTree.get_h B) (AVLTree.get_h C)),
      pa, some n, par⟩ := by
    rw [f9 r hparr]; simp
  have h9x : ∀ x, x ≠ n → x ≠ r → pb ≠ some x → par ≠ some x → m9.heap x = m.heap x := by
    intro x h1 h2' h3 h4
    rw [f9 x h4, h8x x h1 h2', h6x x h1 h2' h3 h4]
  have h9b : ∀ b c, pb = some b → m.heap b = some c →
      m9.heap b = some { c with par := some n } := by
    intro b c hb hc
    have hbfb := hpbm b hb
    have hbn : b ≠ n := fun e => hnfb (e ▸ hbfb)
    have hbr : b ≠ r := fun e => hrfb (e ▸ hbfb)
    rw [f9 b (fun e => (hq b e).2.2.2.1 hbfb), h8x b hbn hbr]
    exact h6b b c hb hc
  refine ⟨m9, rfl, some r, r :: (fa ++ (n :: (fb ++ fc))), ?_, ?_, ?_, ?_⟩
  · refine ⟨r, pa, some n, fa, n :: (fb ++ fc), rfl, h9r, ?_, ?_, rfl, hrfa, ?_, ?_⟩
    · refine Rep_frame hA (fun x hx => ?_)
      exact h9x x (fun e => hnfa (e ▸ hx)) (fun e => hrfa (e ▸ hx))
        (fun e => hd2 x hx (hpbm x e)) (fun e => (hq x e).2.2.1 hx)
    · refine ⟨n, pb, pc, fb, fc, rfl, h9n, ?_, ?_, rfl, hnfb, hnfc, hbc⟩
      · refine Rep_reparent hB (fun x hx hne => ?_) (fun b c hb hc => h9b b c hb hc)
        exact h9x x (fun e => hnfb (e ▸ hx)) (fun e => hrfb (e ▸ hx))
          (fun e => hne e.symm) (fun e => (hq x e).2.2.2.1 hx)
      · refine Rep_frame hC (fun x hx => ?_)
        exact h9x x (fun e => hnfc (e ▸ hx)) (fun e => hrfc (e ▸ hx))
          (fun e => hbc x (hpbm x e) hx) (fun e => (hq x e).2.2.2.2.1 hx)
    · simp only [List.mem_cons, List.mem_append, not_or]
      exact ⟨Ne.symm hnr, hrfb, hrfc⟩
    · intro x hx
      simp only [List.mem_cons, List.mem_append, not_or]
      exact ⟨fun e => hnfa (e ▸ hx), hd2 x hx, hac x hx⟩
  · intro a ha
    simp only [List.mem_cons, List.mem_append, List.cons_append] at ha ⊢
    tauto
  · cases par with
    | none =>
      show m9.root = some r
      rw [r9]
      simp only [write_root]
      exact r6a rfl
    | some q =>
      obtain ⟨q1, q2, q3, q4, q5, cq, hcq, hch, hsb⟩ := hq q rfl
      have hm5q := h5x q q1 q2 (fun e => q4 (hpbm q e))
      rw [hcq] at hm5q
      have hg := g6 q cq rfl hm5q
      refine ⟨?_, ?_⟩
      · rw [r9]
        simp only [write_root]
        rw [r6b (by simp), write_root, write_root, write_root, r2, write_root]
      · cases side
        swap
        · have hl : cq.lc = some n := hch
          have hsb : Sib m cq.rc _ q := hsb
          obtain ⟨z, hz⟩ := hsib q _ rfl hsb
          have h8q := (h8x q q1 q2).trans (hg.1 hl)
          have := g9 q _
            (1 + max (AVLTree.get_h A) (1 + max (AVLTree.get_h B) (AVLTree.get_h C))) z rfl h8q
            (by simp [get_h]) hz
          exact ⟨cq, _, hcq, this⟩
        · have hsb : Sib m cq.lc _ q := hsb
          have hl : cq.lc ≠ some n := by
            rcases hsb with e | ⟨b, cb, e, hb1, -, -⟩
            · rw [e]; exact fun e' => by cases e'
            · rw [e]; intro e'; cases e'; exact hb1 (by simp)
          obtain ⟨z, hz⟩ := hsib q _ rfl hsb
          have h8q := (h8x q q1 q2).trans (hg.2 hl)
          have := g9 q _ z
            (1 + max (AVLTree.get_h A) (1 + max (AVLTree.get_h B) (AVLTree.get_h C))) rfl h8q hz
            (by simp [get_h])
          exact ⟨cq, _, hcq, this⟩
  · intro a ha hpar
    simp only [List.mem_cons, List.mem_append, List.cons_append, not_or] at ha
    obtain ⟨a1, a2, ⟨a3, a4⟩, a5⟩ := ha
    exact h9x a a1 a2 (fun e => a4 (hpbm a e)) (fun e => hpar e.symm)

theorem set_child_child (c : Cell K T) (side : Bool) (p : Option Nat)
    (h : child c side = p) : set_child { c with h := c.h } side p = c := by
  cases side <;> simp only [child, set_child, Bool.false_eq_true, if_false, if_true] at h ⊢ <;>
    subst h <;> rfl

theorem Rep_get_bf {m : Mem K T} {t : Node K T} {p par : Option Nat} {fp : List Nat}
    (hr : Rep m.heap t p par fp) : get_bf m p = some (AVLTree.get_bf t) := by
  cases t with
  | null => obtain ⟨rfl, -⟩ := hr; rfl
  | node l k v h r =>
    obtain ⟨a, pl, pr, fl, fr, rfl, ha, hl, hr', -⟩ := hr
    simp [get_bf, ha, Rep_get_h hl, Rep_get_h hr', AVLTree.get_bf]

/-- The slot of a child of a represented node. -/
theorem Slot_child {m : Mem K T} {l r : Node K T} {k : K} {v : T} {h : Int} {n : Nat}
    {par : Option Nat} {fp : List Nat} (hrep : Rep m.heap (.node l k v h r) (some n) par fp) :
    ∃ pl pr fl fr, m.heap n = some ⟨k, v, h, pl, pr, par⟩ ∧
      Rep m.heap l pl (some n) fl ∧ Rep m.heap r pr (some n) fr ∧ fp = n :: (fl ++ fr) ∧
      n ∉ fl ∧ n ∉ fr ∧ (∀ x ∈ fl, x ∉ fr) ∧
      Slot m pl (some n) true fl ∧ Slot m pr (some n) false fr := by
  obtain ⟨a, pl, pr, fl, fr, e, ha, hl, hr', rfl, h1, h2, h3⟩ := hrep
  cases e
  refine ⟨pl, pr, fl, fr, ha, hl, hr', rfl, h1, h2, h3, ?_, ?_⟩
  · refine ⟨h1, _, ha, rfl, ?_⟩
    show Sib m pr fl n
    cases pr with
    | none => exact Or.inl rfl
    | some b =>
      have hb := Rep_root_mem hr'
      obtain ⟨cb, hcb⟩ := Rep_live hr' b hb
      exact Or.inr ⟨b, cb, rfl, fun e => h3 b e hb, fun e => h2 (e ▸ hb), hcb⟩
  · refine ⟨h2, _, ha, rfl, ?_⟩
    show Sib m pl fr n
    cases pl with
    | none => exact Or.inl rfl
    | some b =>
      have hb := Rep_root_mem hl
      obtain ⟨cb, hcb⟩ := Rep_live hl b hb
      exact Or.inr ⟨b, cb, rfl, fun e => h3 b hb e, fun e => h1 (e ▸ hb), hcb⟩

/-- The slot is still well-formed after an operation on its subtree. -/
theorem Slot_after {m m' : Mem K T} {p p' par : Option Nat} {side : Bool} {fp fp' : List Nat}
    (hs : Slot m p par side fp) (hp : SlotPost m m' p' par side)
    (hsub : ∀ a ∈ fp', a ∈ fp)
    (hf : ∀ a, a ∉ fp → some a ≠ par → m'.heap a = m.heap a) :
    Slot m' p' par side fp' := by
  cases par with
  | none => exact hp
  | some q =>
    obtain ⟨h1, cq, h2, h3, h4⟩ := hs
    obtain ⟨-, cq', h', e1, e2⟩ := hp
    rw [h2] at e1
    cases e1
    refine ⟨fun e => h1 (hsub q e), _, e2, ?_, ?_⟩
    · cases side <;> simp [child, set_child]
    · have : child (set_child { cq with h := h' } side p') (!side) = child cq (!side) := by
        cases side <;> simp [child, set_child]
      rw [this]
      rcases h4 with e | ⟨b, cb, e, hb1, hb2, hb3⟩
      · exact Or.inl e
      · refine Or.inr ⟨b, cb, e, fun e' => hb1 (hsub b e'), hb2, ?_⟩
        rw [hf b hb1 (fun e' => hb2 (by cases e'; rfl)), hb3]

/-- An operation on the subtree in a slot, performed after changes confined to
that subtree, is an operation on the slot of the state before those changes. -/
theorem Post_of_inner {m m1 m2 : Mem K T} {t2 : Node K T} {par : Option Nat} {side : Bool}
    {fp fp1 : List Nat}
    (hroot : m1.root = m.root) (hf : ∀ a, a ∉ fp → m1.heap a = m.heap a)
    (hsub : ∀ a ∈ fp1, a ∈ fp) (hpar : ∀ q, par = some q → q ∉ fp)
    (h : Post m1 m2 t2 par side fp1) : Post m m2 t2 par side fp := by
  obtain ⟨p2, fp2, hrep, hs2, hsp, hfr⟩ := h
  refine ⟨p2, fp2, hrep, fun a ha => hsub a (hs2 a ha), ?_, ?_⟩
  · cases par with
    | none => exact hsp
    | some q =>
      obtain ⟨hr, cq, h', e1, e2⟩ := hsp
      exact ⟨hr.trans hroot, cq, h', by rw [← hf q (hpar q rfl)]; exact e1, e2⟩
  · intro a ha hp
    rw [hfr a (fun e => ha (hsub a e)) hp, hf a ha]

/-- After an operation on the left subtree of a represented node, the node is
represented again, with the new left subtree and some cached height.  `gl` is
the region of the operation, `g` a region containing the whole node. -/
theorem ascend_lc {m m1 : Mem K T} {l' r : Node K T} {k : K} {v : T} {h : Int} {n : Nat}
    {par : Option Nat} {side : Bool} {g : List Nat} {pl pr : Option Nat} {gl fr : List Nat}
    (hn : m.heap n = some ⟨k, v, h, pl, pr, par⟩)
    (hr : Rep m.heap r pr (some n) fr)
    (h1 : n ∉ gl) (h2 : n ∉ fr) (h3 : ∀ x ∈ gl, x ∉ fr)
    (hg1 : n ∈ g) (hg2 : ∀ a ∈ gl, a ∈ g) (hg3 : ∀ a ∈ fr, a ∈ g)
    (hs : Slot m (some n) par side g)
    (hp : Post m m1 l' (some n) true gl) :
    ∃ h' fp1, Rep m1.heap (.node l' k v h' r) (some n) par fp1 ∧ (∀ a ∈ fp1, a ∈ g) ∧
      Slot m1 (some n) par side fp1 ∧ m1.root = m.root ∧
      ∀ a, a ∉ g → m1.heap a = m.heap a := by
  obtain ⟨pl', fl', hrep, hsub, ⟨hroot, cq, h', e1, e2⟩, hfr⟩ := hp
  rw [hn] at e1
  cases e1
  have hfr' : ∀ a, a ∉ g → m1.heap a = m.heap a := by
    intro a ha
    exact hfr a (fun e => ha (hg2 a e)) (fun e => ha (by cases e; exact hg1))
  have hsub' : ∀ a ∈ n :: (fl' ++ fr), a ∈ g := by
    intro a ha
    simp only [List.mem_cons, List.mem_append] at ha
    rcases ha with e | e | e
    · exact e ▸ hg1
    · exact hg2 a (hsub a e)
    · exact hg3 a e
  refine ⟨h', n :: (fl' ++ fr), ?_, hsub', ?_, hroot, hfr'⟩
  · refine ⟨n, pl', pr, fl', fr, rfl, e2, hrep, ?_, rfl, fun e => h1 (hsub n e), h2,
      fun x hx => h3 x (hsub x hx)⟩
    refine Rep_frame hr (fun x hx => hfr x (fun e => h3 x e hx) ?_)
    intro e; cases e; exact h2 hx
  · cases par with
    | none => exact hroot.trans hs
    | some q =>
      obtain ⟨q1, cq, q2, q3, q4⟩ := hs
      refine ⟨fun e => q1 (hsub' q e), cq, by rw [hfr' q q1, q2], q3, ?_⟩
      rcases q4 with e | ⟨b, cb, e, hb1, hb2, hb3⟩
      · exact Or.inl e
      · exact Or.inr ⟨b, cb, e, fun e' => hb1 (hsub' b e'), hb2, by rw [hfr' b hb1, hb3]⟩

/-- After an operation on the right subtree of a represented node, the node is
represented again, with the new right subtree and some cached height.  `gr` is
the region of the operation, `g` a region containing the whole node. -/
theorem ascend_rc {m m1 : Mem K T} {l r' : Node K T} {k : K} {v : T} {h : Int} {n : Nat}
    {par : Option Nat} {side : Bool} {g : List Nat} {pl pr : Option Nat} {fl gr : List Nat}
    (hn : m.heap n = some ⟨k, v, h, pl, pr, par⟩)
    (hl : Rep m.heap l pl (some n) fl)
    (h1 : n ∉ fl) (h2 : n ∉ gr) (h3 : ∀ x ∈ fl, x ∉ gr)
    (hg1 : n ∈ g) (hg2 : ∀ a ∈ fl, a ∈ g) (hg3 : ∀ a ∈ gr, a ∈ g)
    (hs : Slot m (some n) par side g)
    (hp : Post m m1 r' (some n) false gr) :
    ∃ h' fp1, Rep m1.heap (.node l k v h' r') (some n) par fp1 ∧ (∀ a ∈ fp1, a ∈ g) ∧
      Slot m1 (some n) par side fp1 ∧ m1.root = m.root ∧
      ∀ a, a ∉ g → m1.heap a = m.heap a := by
  obtain ⟨pr', fr', hrep, hsub, ⟨hroot, cq, h', e1, e2⟩, hfr⟩ := hp
  rw [hn] at e1
  cases e1
  have hfr' : ∀ a, a ∉ g → m1.heap a = m.heap a := by
    intro a ha
    exact hfr a (fun e => ha (hg3 a e)) (fun e => ha (by cases e; exact hg1))
  have hsub' : ∀ a ∈ n :: (fl ++ fr'), a ∈ g := by
    intro a ha
    simp only [List.mem_cons, List.mem_append] at ha
    rcases ha with e | e | e
    · exact e ▸ hg1
    · exact hg2 a e
    · exact hg3 a (hsub a e)
  refine ⟨h', n :: (fl ++ fr'), ?_, hsub', ?_, hroot, hfr'⟩
  · refine ⟨n, pl, pr', fl, fr', rfl, e2, ?_, hrep, rfl, h1, fun e => h2 (hsub n e),
      fun x hx e => h3 x hx (hsub x e)⟩
    refine Rep_frame hl (fun x hx => hfr x (fun e => h3 x hx e) ?_)
    intro e; cases e; exact h1 hx
  · cases par with
    | none => exact hroot.trans hs
    | some q =>
      obtain ⟨q1, cq, q2, q3, q4⟩ := hs
      refine ⟨fun e => q1 (hsub' q e), cq, by rw [hfr' q q1, q2], q3, ?_⟩
      rcases q4 with e | ⟨b, cb, e, hb1, hb2, hb3⟩
      · exact Or.inl e
      · exact Or.inr ⟨b, cb, e, fun e' => hb1 (hsub' b e'), hb2, by rw [hfr' b hb1, hb3]⟩

/-- The slot owner lies outside the subtree. -/
theorem Slot_par_not_mem {m : Mem K T} {p par : Option Nat} {side : Bool} {fp : List Nat}
    (hs : Slot m p par side fp) : ∀ q, par = some q → q ∉ fp := by
  intro q hq
  subst hq
  exact hs.1

/-- A state that represents `t'` in the slot and differs from `m` only at the
root cell of the subtree is a `Post` state. -/
theorem Post_of_same {m m1 : Mem K T} {t' : Node K T} {n : Nat} {par : Option Nat}
    {side : Bool} {fp : List Nat}
    (hrep : Rep m1.heap t' (some n) par fp) (hs : Slot m (some n) par side fp)
    (hroot : m1.root = m.root) (hf : ∀ a, a ≠ n → m1.heap a = m.heap a) :
    Post m m1 t' par side fp := by
  have hn : n ∈ fp := Rep_root_mem hrep
  refine ⟨some n, fp, hrep, fun a ha => ha, ?_, fun a ha _ => hf a (fun e => ha (e ▸ hn))⟩
  cases par with
  | none => exact hroot.trans hs
  | some q =>
    obtain ⟨q1, cq, q2, q3, q4⟩ := hs
    refine ⟨hroot, cq, cq.h, q2, ?_⟩
    rw [hf q (fun e => q1 (e ▸ hn)), q2, set_child_child cq side _ q3]

theorem Slot_frame {m m1 : Mem K T} {p par : Option Nat} {side : Bool} {fp : List Nat}
    (hs : Slot m p par side fp) (hroot : m1.root = m.root)
    (hf : ∀ a, a ∉ fp → m1.heap a = m.heap a) : Slot m1 p par side fp := by
  cases par with
  | none => exact hroot.trans hs
  | some q =>
    obtain ⟨q1, cq, q2, q3, q4⟩ := hs
    refine ⟨q1, cq, by rw [hf q q1, q2], q3, ?_⟩
    rcases q4 with e | ⟨b, cb, e, hb1, hb2, hb3⟩
    · exact Or.inl e
    · exact Or.inr ⟨b, cb, e, hb1, hb2, by rw [hf b hb1, hb3]⟩

/-- The statement `update(node)` on a represented node. -/
theorem update_node_post {m : Mem K T} {l r : Node K T} {k : K} {v : T} {h : Int} {n : Nat}
    {par : Option Nat} {side : Bool} {fp : List Nat}
    (hrep : Rep m.heap (.node l k v h r) (some n) par fp) (hs : Slot m (some n) par side fp) :
    ∃ m1, update m (some n) = some m1 ∧
      Rep m1.heap (.node l k v (1 + max (AVLTree.get_h l) (AVLTree.get_h r)) r) (some n) par fp ∧
      Slot m1 (some n) par side fp ∧ m1.root = m.root ∧
      ∀ a, a ≠ n → m1.heap a = m.heap a := by
  obtain ⟨a, pl, pr, fl, fr, e, hn, hl, hr, rfl, h1, h2, h3⟩ := hrep
  cases e
  refine ⟨_, update_of m n _ _ _ hn (Rep_get_h hl) (Rep_get_h hr), ?_, ?_, rfl, ?_⟩
  · refine ⟨n, pl, pr, fl, fr, rfl, by simp, ?_, ?_, rfl, h1, h2, h3⟩
    · exact Rep_frame hl (fun x hx => by
        have : x ≠ n := fun e => h1 (e ▸ hx)
        simp [this])
    · exact Rep_frame hr (fun x hx => by
        have : x ≠ n := fun e => h2 (e ▸ hx)
        simp [this])
  · refine Slot_frame hs rfl (fun x hx => ?_)
    have : x ≠ n := fun e => hx (by simp [e])
    simp [this]
  · intro x hx
    simp [hx]

theorem Rep_node_some {heap : Nat → Option (Cell K T)} {l r : Node K T} {k : K} {v : T}
    {h : Int} {p par : Option Nat} {fp : List Nat}
    (hr : Rep heap (.node l k v h r) p par fp) : ∃ a, p = some a := by
  obtain ⟨a, pl, pr, fl, fr, e, -⟩ := hr
  exact ⟨a, e⟩

theorem get_bf_node (l r : Node K T) (k : K) (v : T) (h : Int) :
    AVLTree.get_bf (.node l k v h r) = AVLTree.get_h r - AVLTree.get_h l := rfl

theorem balance_post (m : Mem K T) (l r : Node K T) (k : K) (v : T) (h : Int) (n : Nat)
    (par : Option Nat) (side : Bool) (fp : List Nat)
    (hrep : Rep m.heap (.node l k v h r) (some n) par fp) (hs : Slot m (some n) par side fp)
    (t' : Node K T) (hb : AVLTree.balance (.node l k v h r) = some t') :
    ∃ m', balance m (some n) = some m' ∧ Post m m' t' par side fp := by
  obtain ⟨m1, e1, hrep1, hs1, hroot1, hf1⟩ := update_node_post hrep hs
  have hnfp : n ∈ fp := Rep_root_mem hrep
  have hf1' : ∀ a, a ∉ fp → m1.heap a = m.heap a := fun a ha => hf1 a (fun e => ha (e ▸ hnfp))
  have hparfp := Slot_par_not_mem hs
  have hbf := Rep_get_bf hrep1
  rw [get_bf_node] at hbf
  obtain ⟨pl, pr, fl, fr, hn1, hl1, hr1, hfp, d1, d2, d3, hsl, hsr⟩ := Slot_child hrep1
  simp only [balance, e1, hbf, Option.bind_eq_bind, Option.some_bind, read, hn1,
    Rep_get_bf hl1, Rep_get_bf hr1]
  simp only [AVLTree.balance, AVLTree.update] at hb
  simp only [get_bf_node, get_h_node] at hb ⊢
  by_cases c1 : AVLTree.get_h r - AVLTree.get_h l = -2
  · simp only [c1, if_true] at hb ⊢
    by_cases c2 : AVLTree.get_bf l = 1
    · simp only [c2, ne_eq, not_true_eq_false, if_false] at hb ⊢
      cases l with
      | null => simp [AVLTree.left_rot] at hb
      | node A k2 v2 h2 R2 =>
        cases R2 with
        | null => simp [AVLTree.left_rot] at hb
        | node B k3 v3 h3 C =>
          obtain ⟨la, hla⟩ := Rep_node_some hl1
          subst hla
          obtain ⟨m2, e2, hp2⟩ := left_rot_post m1 A B C k2 k3 v2 v3 h2 h3 la (some n) true fl
            hl1 hsl
          obtain ⟨h', fp1, hrep2, hsub2, hs2, hroot2, hf2⟩ :=
            ascend_lc hn1 hr1 d1 d2 d3 (by simp [hfp]) (fun a ha => by simp [hfp, ha])
              (fun a ha => by simp [hfp, ha]) hs1 hp2
          obtain ⟨m3, e3, hp3⟩ := right_rot_post m2 _ _ r k k3 v v3 h' _ n par side fp1
            hrep2 hs2
          rw [(left_rot_node A B C k2 k3 v2 v3 h2 h3)] at hb
          simp only [AVLTree.update] at hb
          rw [(right_rot_node _ _ r k k3 v v3 _ _)] at hb
          cases hb
          refine ⟨m3, ?_, Post_of_inner hroot1 hf1' (fun a ha => ha) hparfp
            (Post_of_inner hroot2 hf2 hsub2 hparfp hp3)⟩
          simp only [Option.some_bind, e2, e3]
    · simp only [c2, ne_eq, not_false_eq_true, if_true] at hb ⊢
      cases l with
      | null => simp [AVLTree.right_rot] at hb
      | node A k2 v2 h2 B =>
        obtain ⟨m', e', hp⟩ := right_rot_post m1 A B r k k2 v v2 _ h2 n par side fp hrep1 hs1
        have := (right_rot_node A B r k k2 v v2
          (1 + max (AVLTree.get_h (.node A k2 v2 h2 B)) (AVLTree.get_h r)) h2)
        rw [this] at hb
        cases hb
        exact ⟨m', e', Post_of_inner hroot1 hf1' (fun a ha => ha) hparfp hp⟩
  · simp only [c1, if_false] at hb ⊢
    by_cases c3 : AVLTree.get_h r - AVLTree.get_h l = 2
    · simp only [c3, if_true] at hb ⊢
      by_cases c4 : AVLTree.get_bf r = -1
      · simp only [c4, ne_eq, not_true_eq_false, if_false] at hb ⊢
        cases r with
        | null => simp [AVLTree.right_rot] at hb
        | node L2 k2 v2 h2 C =>
          cases L2 with
          | null => simp [AVLTree.right_rot] at hb
          | node A k3 v3 h3 B =>
            obtain ⟨ra, hra⟩ := Rep_node_some hr1
            subst hra
            obtain ⟨m2, e2, hp2⟩ := right_rot_post m1 A B C k2 k3 v2 v3 h2 h3 ra (some n) false
              fr hr1 hsr
            obtain ⟨h', fp1, hrep2, hsub2, hs2, hroot2, hf2⟩ :=
              ascend_rc hn1 hl1 d1 d2 d3 (by simp [hfp]) (fun a ha => by simp [hfp, ha])
                (fun a ha => by simp [hfp, ha]) hs1 hp2
            obtain ⟨m3, e3, hp3⟩ := left_rot_post m2 l _ _ k k3 v v3 h' _ n par side fp1
              hrep2 hs2
            rw [(right_rot_node A B C k2 k3 v2 v3 h2 h3)] at hb
            simp only [AVLTree.update] at hb
            rw [(left_rot_node l _ _ k k3 v v3 _ _)] at hb
            cases hb
            refine ⟨m3, ?_, Post_of_inner hroot1 hf1' (fun a ha => ha) hparfp
              (Post_of_inner hroot2 hf2 hsub2 hparfp hp3)⟩
            simp only [Option.some_bind, e2, e3]
      · simp only [c4, ne_eq, not_false_eq_true, if_true] at hb ⊢
        cases r with
        | null => simp [AVLTree.left_rot] at hb
        | node B k2 v2 h2 C =>
          obtain ⟨m', e', hp⟩ := left_rot_post m1 l B C k k2 v v2 _ h2 n par side fp hrep1 hs1
          have := (left_rot_node l B C k k2 v v2
            (1 + max (AVLTree.get_h l) (AVLTree.get_h (.node B k2 v2 h2 C))) h2)
          rw [this] at hb
          cases hb
          exact ⟨m', e', Post_of_inner hroot1 hf1' (fun a ha => ha) hparfp hp⟩
    · simp only [c3, if_false] at hb ⊢
      cases hb
      exact ⟨m1, rfl, Post_of_same hrep1 hs hroot1 hf1⟩

theorem balance_h_irrel (l r : Node K T) (k : K) (v : T) (h h' : Int) :
    AVLTree.balance (.node l k v h r) = AVLTree.balance (.node l k v h' r) := rfl

theorem Post_mono {m m' : Mem K T} {t' : Node K T} {par : Option Nat} {side : Bool}
    {fp g : List Nat} (h : Post m m' t' par side fp) (hsub : ∀ a ∈ fp, a ∈ g) :
    Post m m' t' par side g := by
  obtain ⟨p', fp', hrep, hs, hsp, hf⟩ := h
  exact ⟨p', fp', hrep, fun a ha => hsub a (hs a ha), hsp,
    fun a ha hp => hf a (fun e => ha (hsub a e)) hp⟩

/-- A slot stays a slot when a dead address is added to the region. -/
theorem Slot_add_fresh {m : Mem K T} {p par : Option Nat} {side : Bool} {fp : List Nat}
    {fresh : Nat} (hs : Slot m p par side fp) (hfresh : m.heap fresh = none) :
    Slot m p par side (fresh :: fp) := by
  cases par with
  | none => exact hs
  | some q =>
    obtain ⟨q1, cq, q2, q3, q4⟩ := hs
    refine ⟨?_, cq, q2, q3, ?_⟩
    · simp only [List.mem_cons, not_or]
      exact ⟨fun e => by rw [e, hfresh] at q2; exact absurd q2 (by simp), q1⟩
    · rcases q4 with e | ⟨b, cb, e, hb1, hb2, hb3⟩
      · exact Or.inl e
      · refine Or.inr ⟨b, cb, e, ?_, hb2, hb3⟩
        simp only [List.mem_cons, not_or]
        exact ⟨fun e' => by rw [e', hfresh] at hb3; exact absurd hb3 (by simp), hb1⟩

theorem Sim_mono {α : Type} {v : Option α} {r : Option (Mem K T)} {P Q : α → Mem K T → Prop}
    (h : Sim v r P) (hpq : ∀ a m', P a m' → Q a m') : Sim v r Q := by
  cases v with
  | none => exact h
  | some a =>
    obtain ⟨m', e, hp⟩ := h
    exact ⟨m', e, hpq a m' hp⟩

/-- When the value-level `balance` rotates on a missing child, so does the
`balance` on the heap. -/
theorem balance_fail (m : Mem K T) (l r : Node K T) (k : K) (v : T) (h : Int) (n : Nat)
    (par : Option Nat) (side : Bool) (fp : List Nat)
    (hrep : Rep m.heap (.node l k v h r) (some n) par fp) (hs : Slot m (some n) par side fp)
    (hb : AVLTree.balance (.node l k v h r) = none) :
    balance m (some n) = none := by
  obtain ⟨m1, e1, hrep1, hs1, hroot1, hf1⟩ := update_node_post hrep hs
  have hbf := Rep_get_bf hrep1
  rw [get_bf_node] at hbf
  obtain ⟨pl, pr, fl, fr, hn1, hl1, hr1, hfp, d1, d2, d3, hsl, hsr⟩ := Slot_child hrep1
  simp only [balance, e1, hbf, Option.bind_eq_bind, Option.some_bind, read, hn1,
    Rep_get_bf hl1, Rep_get_bf hr1]
  simp only [AVLTree.balance, AVLTree.update] at hb
  simp only [get_bf_node, get_h_node] at hb ⊢
  by_cases c1 : AVLTree.get_h r - AVLTree.get_h l = -2
  · simp only [c1, if_true] at hb ⊢
    by_cases c2 : AVLTree.get_bf l = 1
    · simp only [c2, ne_eq, not_true_eq_false, if_false] at hb ⊢
      cases l with
      | null => simp [AVLTree.get_bf] at c2
      | node A k2 v2 h2 R2 =>
        obtain ⟨la, hla⟩ := Rep_node_some hl1
        subst hla
        cases R2 with
        | null =>
          obtain ⟨pa, pr2, fa, fr2, hla, -, hR2, -⟩ := Slot_child hl1
          obtain ⟨rfl, -⟩ := hR2
          simp [left_rot, hla]
        | node B k3 v3 h3 C =>
          rw [left_rot_node A B C k2 k3 v2 v3 h2 h3] at hb
          simp only [AVLTree.update] at hb
          rw [right_rot_node _ _ r k k3 v v3 _ _] at hb
          cases hb
    · simp only [c2, ne_eq, not_false_eq_true, if_true] at hb ⊢
      cases l with
      | null =>
        obtain ⟨rfl, -⟩ := hl1
        simp [right_rot, hn1]
      | node A k2 v2 h2 B =>
        rw [right_rot_node A B r k k2 v v2 _ h2] at hb
        cases hb
  · simp only [c1, if_false] at hb ⊢
    by_cases c3 : AVLTree.get_h r - AVLTree.get_h l = 2
    · simp only [c3, if_true] at hb ⊢
      by_cases c4 : AVLTree.get_bf r = -1
      · simp only [c4, ne_eq, not_true_eq_false, if_false] at hb ⊢
        cases r with
        | null => simp [AVLTree.get_bf] at c4
        | node L2 k2 v2 h2 C =>
          obtain ⟨ra, hra⟩ := Rep_node_some hr1
          subst hra
          cases L2 with
          | null =>
            obtain ⟨pl2, pc, fl2, fc, hra, hL2, -, -⟩ := Slot_child hr1
            obtain ⟨rfl, -⟩ := hL2
            simp [right_rot, hra]
          | node A k3 v3 h3 B =>
            rw [right_rot_node A B C k2 k3 v2 v3 h2 h3] at hb
            simp only [AVLTree.update] at hb
            rw [left_rot_node l _ _ k k3 v v3 _ _] at hb
            cases hb
      · simp only [c4, ne_eq, not_false_eq_true, if_true] at hb ⊢
        cases r with
        | null =>
          obtain ⟨rfl, -⟩ := hr1
          simp [left_rot, hn1]
        | node B k2 v2 h2 C =>
          rw [left_rot_node l B C k k2 v v2 _ h2] at hb
          cases hb
    · simp only [c3, if_false] at hb
      cases hb

/-- The `balance` on the heap follows the value-level `balance`. -/
theorem balance_sim (m : Mem K T) (l r : Node K T) (k : K) (v : T) (h : Int) (n : Nat)
    (par : Option Nat) (side : Bool) (fp : List Nat)
    (hrep : Rep m.heap (.node l k v h r) (some n) par fp) (hs : Slot m (some n) par side fp) :
    Sim (AVLTree.balance (.node l k v h r)) (balance m (some n))
      (fun t' m' => Post m m' t' par side fp) := by
  cases hb : AVLTree.balance (.node l k v h r) with
  | none => exact balance_fail m l r k v h n par side fp hrep hs hb
  | some t' => exact balance_post m l r k v h n par side fp hrep hs t' hb

theorem Rep_new_node (heap : Nat → Option (Cell K T)) (key : K) (val : T) (a : Nat)
    (par : Option Nat) (h : heap a = some ⟨key, val, 1, none, none, par⟩) :
    Rep heap (new_node key val) (some a) par [a] :=
  ⟨a, none, none, [], [], rfl, h, ⟨rfl, rfl⟩, ⟨rfl, rfl⟩, rfl, by simp, by simp, by simp⟩

/-- A slot stays a slot in a state that agrees outside a larger region, for
any region inside the larger one. -/
theorem Slot_sub {m m1 : Mem K T} {p par : Option Nat} {side : Bool} {g g1 : List Nat}
    (hs : Slot m p par side g) (hroot : m1.root = m.root)
    (hf : ∀ a, a ∉ g → m1.heap a = m.heap a) (hsub : ∀ a ∈ g1, a ∈ g) :
    Slot m1 p par side g1 := by
  cases par with
  | none => exact hroot.trans hs
  | some q =>
    obtain ⟨q1, cq, q2, q3, q4⟩ := hs
    refine ⟨fun e => q1 (hsub q e), cq, by rw [hf q q1, q2], q3, ?_⟩
    rcases q4 with e | ⟨b, cb, e, hb1, hb2, hb3⟩
    · exact Or.inl e
    · exact Or.inr ⟨b, cb, e, fun e' => hb1 (hsub b e'), hb2, by rw [hf b hb1, hb3]⟩

/-- The rebalancing of a node whose subtree has been changed in place. -/
theorem finish_sim {m m1 : Mem K T} {l r : Node K T} {k : K} {v : T} {h : Int} {n : Nat}
    {par : Option Nat} {side : Bool} {fp fp1 : List Nat}
    (hs : Slot m (some n) par side fp) (hroot : m1.root = m.root)
    (hf : ∀ a, a ∉ fp → m1.heap a = m.heap a)
    (hrep : Rep m1.heap (.node l k v h r) (some n) par fp1) (hsub : ∀ a ∈ fp1, a ∈ fp) :
    Sim (AVLTree.balance (.node l k v h r)) (balance m1 (some n))
      (fun t' m' => Post m m' t' par side fp) :=
  Sim_mono (balance_sim m1 l r k v h n par side fp1 hrep (Slot_sub hs hroot hf hsub))
    (fun _ _ hp => Post_of_inner hroot hf hsub (Slot_par_not_mem hs) hp)

section order
variable [LinearOrder K]

/-- The private `insert` on the heap follows the value-level `insert_node`. -/
theorem insert_node_sim (fresh : Nat) (key : K) (val : T) (t : Node K T) :
    ∀ (fuel : Nat) (m : Mem K T) (n : Nat) (par : Option Nat) (side : Bool) (fp : List Nat),
      Rep m.heap t (some n) par fp → Slot m (some n) par side fp → m.heap fresh = none →
      size t < fuel →
      Sim (AVLTree.insert_node key val t) (insert_node fresh key val fuel m n)
        (fun t' m' => Post m m' t' par side (fresh :: fp)) := by
  induction t with
  | null =>
    intro fuel m n par side fp hrep
    obtain ⟨h, -⟩ := hrep
    cases h
  | node l k v h r ihl ihr =>
    intro fuel m n par side fp hrep hs hfresh hfuel
    cases fuel with
    | zero => exact absurd hfuel (Nat.not_lt_zero _)
    | succ fuel =>
    obtain ⟨pl, pr, fl, fr, hn, hl, hr, hfp, d1, d2, d3, hsl, hsr⟩ := Slot_child hrep
    have hnfresh : n ≠ fresh := fun e => by rw [e, hfresh] at hn; exact absurd hn (by simp)
    have hlive : ∀ a ∈ fp, a ≠ fresh := by
      intro a ha e
      obtain ⟨c, hc⟩ := Rep_live hrep a ha
      rw [e, hfresh] at hc
      exact absurd hc (by simp)
    have hnfp : n ∈ fp := Rep_root_mem hrep
    have hsg := Slot_add_fresh hs hfresh
    have hparg := Slot_par_not_mem hsg
    simp only [size] at hfuel
    rw [insert_node_node]
    rw [insert_node]
    simp only [hn, Option.bind_eq_bind, Option.some_bind]
    by_cases c1 : k = key
    · simp only [c1, if_true]
      rw [modify_of m n _ _ hn]
      refine ⟨_, rfl, Post_mono (@Post_of_same _ _ m (m.write n _) _ n _ _ _ ?_ hs rfl ?_)
        (fun a ha => List.mem_cons_of_mem _ ha)⟩
      · subst hfp
        refine ⟨n, pl, pr, fl, fr, rfl, by simp [c1], ?_, ?_, rfl, d1, d2, d3⟩
        · exact Rep_frame hl (fun x hx => by
            have : x ≠ n := fun e => d1 (e ▸ hx)
            simp [this])
        · exact Rep_frame hr (fun x hx => by
            have : x ≠ n := fun e => d2 (e ▸ hx)
            simp [this])
      · intro a ha
        simp [ha]
    · simp only [c1, if_false]
      have hfr_fresh : fresh ∉ fr := fun e => hlive fresh (by simp [hfp, e]) rfl
      have hfl_fresh : fresh ∉ fl := fun e => hlive fresh (by simp [hfp, e]) rfl
      by_cases c2 : key < k
      · simp only [c2, if_true]
        cases l with
        | null =>
          obtain ⟨rfl, rfl⟩ := hl
          simp only
          rw [modify_of _ n _ ⟨k, v, h, none, pr, par⟩ (by simp [hnfresh, hn])]
          simp only [Option.some_bind]
          have hrep2 : Rep ((m.write fresh ⟨key, val, 1, none, none, some n⟩).write n
              ⟨k, v, h, some fresh, pr, par⟩).heap (.node (new_node key val) k v h r)
              (some n) par (n :: ([fresh] ++ fr)) := by
            refine ⟨n, some fresh, pr, [fresh], fr, rfl, by simp,
              Rep_new_node _ _ _ _ _ (by simp [Ne.symm hnfresh]), ?_, rfl, by simp [hnfresh],
              d2, by simpa using hfr_fresh⟩
            refine Rep_frame hr (fun x hx => ?_)
            have h1 : x ≠ n := fun e => d2 (e ▸ hx)
            have h2 : x ≠ fresh := fun e => hfr_fresh (e ▸ hx)
            simp [h1, h2]
          have hsub2 : ∀ a ∈ n :: ([fresh] ++ fr), a ∈ fresh :: fp := by
            intro a ha
            simp only [hfp, List.mem_cons, List.mem_append, List.nil_append,
              List.singleton_append] at ha ⊢
            tauto
          have hf2 : ∀ a, a ∉ fresh :: fp →
              ((m.write fresh ⟨key, val, 1, none, none, some n⟩).write n
                ⟨k, v, h, some fresh, pr, par⟩).heap a = m.heap a := by
            intro a ha
            simp only [List.mem_cons, not_or] at ha
            have h1 : a ≠ n := fun e => ha.2 (e ▸ hnfp)
            simp [h1, ha.1]
          exact finish_sim hsg (by rfl) hf2 hrep2 hsub2
        | node ll lk lv lh lr =>
          obtain ⟨la, hla⟩ := Rep_node_some hl
          subst hla
          simp only
          have ih := ihl fuel m la (some n) true fl hl hsl hfresh (by omega)
          cases hil : AVLTree.insert_node key val (.node ll lk lv lh lr) with
          | none =>
            rw [hil] at ih
            have e1 : insert_node fresh key val fuel m la = none := ih
            simp only [e1, Option.none_bind]
            rfl
          | some l' =>
            rw [hil] at ih
            obtain ⟨m1, e1, hp1⟩ := ih
            obtain ⟨h', fp1, hrep2, hsub2, hs2, hroot2, hf2⟩ :=
              ascend_lc (g := fresh :: fp) hn hr (by simp [hnfresh, d1]) d2
                (by
                  intro x hx
                  rcases List.mem_cons.mp hx with e | e
                  · exact e ▸ hfr_fresh
                  · exact d3 x e)
                (by simp [hnfp]) (fun a ha => by
                  rcases List.mem_cons.mp ha with e | e
                  · simp [e]
                  · simp [hfp, e])
                (fun a ha => by simp [hfp, ha]) hsg hp1
            simp only [e1, Option.some_bind]
            rw [balance_h_irrel _ _ _ _ h h']
            exact finish_sim hsg hroot2 hf2 hrep2 hsub2
      · simp only [c2, if_false]
        cases r with
        | null =>
          obtain ⟨rfl, rfl⟩ := hr
          simp only
          rw [modify_of _ n _ ⟨k, v, h, pl, none, par⟩ (by simp [hnfresh, hn])]
          simp only [Option.some_bind]
          have hrep2 : Rep ((m.write fresh ⟨key, val, 1, none, none, some n⟩).write n
              ⟨k, v, h, pl, some fresh, par⟩).heap (.node l k v h (new_node key val))
              (some n) par (n :: (fl ++ [fresh])) := by
            refine ⟨n, pl, some fresh, fl, [fresh], rfl, by simp, ?_,
              Rep_new_node _ _ _ _ _ (by simp [Ne.symm hnfresh]), rfl, d1, by simp [hnfresh],
              ?_⟩
            · refine Rep_frame hl (fun x hx => ?_)
              have h1 : x ≠ n := fun e => d1 (e ▸ hx)
              have h2 : x ≠ fresh := fun e => hfl_fresh (e ▸ hx)
              simp [h1, h2]
            · intro x hx
              simp only [List.mem_singleton]
              exact fun e => hfl_fresh (e ▸ hx)
          have hsub2 : ∀ a ∈ n :: (fl ++ [fresh]), a ∈ fresh :: fp := by
            intro a ha
            simp only [hfp, List.mem_cons, List.mem_append, List.append_nil,
              List.mem_singleton, List.not_mem_nil, or_false] at ha ⊢
            tauto
          have hf2 : ∀ a, a ∉ fresh :: fp →
              ((m.write fresh ⟨key, val, 1, none, none, some n⟩).write n
                ⟨k, v, h, pl, some fresh, par⟩).heap a = m.heap a := by
            intro a ha
            simp only [List.mem_cons, not_or] at ha
            have h1 : a ≠ n := fun e => ha.2 (e ▸ hnfp)
            simp [h1, ha.1]
          exact finish_sim hsg (by rfl) hf2 hrep2 hsub2
        | node rl rk rv rh rr =>
          obtain ⟨ra, hra⟩ := Rep_node_some hr
          subst hra
          simp only
          have ih := ihr fuel m ra (some n) false fr hr hsr hfresh (by omega)
          cases hir : AVLTree.insert_node key val (.node rl rk rv rh rr) with
          | none =>
            rw [hir] at ih
            have e1 : insert_node fresh key val fuel m ra = none := ih
            simp only [e1, Option.none_bind]
            rfl
          | some r' =>
            rw [hir] at ih
            obtain ⟨m1, e1, hp1⟩ := ih
            obtain ⟨h', fp1, hrep2, hsub2, hs2, hroot2, hf2⟩ :=
              ascend_rc (g := fresh :: fp) hn hl d1 (by simp [hnfresh, d2])
                (by
                  intro x hx e
                  rcases List.mem_cons.mp e with e | e
                  · exact hfl_fresh (e ▸ hx)
                  · exact d3 x hx e)
                (by simp [hnfp]) (fun a ha => by simp [hfp, ha])
                (fun a ha => by
                  rcases List.mem_cons.mp ha with e | e
                  · simp [e]
                  · simp [hfp, e]) hsg hp1
            simp only [e1, Option.some_bind]
            rw [balance_h_irrel _ _ _ _ h h']
            exact finish_sim hsg hroot2 hf2 hrep2 hsub2

end order

theorem write_write (m : Mem K T) (a : Nat) (c c' : Cell K T) :
    (m.write a c).write a c' = m.write a c' := by
  simp only [Mem.write, Mem.mk.injEq, true_and]
  funext x
  split <;> rfl

/-- A slot stays a slot when the cells outside the subtree keep their child
links. -/
theorem Slot_pres {m m1 : Mem K T} {p par : Option Nat} {side : Bool} {fp : List Nat}
    (hs : Slot m p par side fp) (hroot : m1.root = m.root)
    (hf : ∀ a c, a ∉ fp → m.heap a = some c →
      ∃ c1, m1.heap a = some c1 ∧ c1.lc = c.lc ∧ c1.rc = c.rc) :
    Slot m1 p par side fp := by
  cases par with
  | none => exact hroot.trans hs
  | some q =>
    obtain ⟨q1, cq, q2, q3, q4⟩ := hs
    obtain ⟨c1, e1, e2, e3⟩ := hf q cq q1 q2
    have hc : ∀ s, child c1 s = child cq s := by
      intro s
      cases s <;> simp [child, e2, e3]
    refine ⟨q1, c1, e1, by rw [hc, q3], ?_⟩
    rw [hc]
    rcases q4 with e | ⟨b, cb, e, hb1, hb2, hb3⟩
    · exact Or.inl e
    · obtain ⟨cb1, eb, -, -⟩ := hf b cb hb1 hb3
      exact Or.inr ⟨b, cb1, e, hb1, hb2, eb⟩

/-- A slot stays a slot when the key and value of a cell outside the subtree
are overwritten. -/
theorem Slot_write_kv {m : Mem K T} {p par : Option Nat} {side : Bool} {fp : List Nat}
    (hs : Slot m p par side fp) (e : Nat) (ce : Cell K T) (he : m.heap e = some ce)
    (k' : K) (v' : T) :
    Slot (m.write e { ce with key := k', val := v' }) p par side fp := by
  refine Slot_pres hs rfl (fun a c _ hc => ?_)
  by_cases hae : a = e
  · subst hae
    rw [he] at hc
    cases hc
    exact ⟨{ ce with key := k', val := v' }, by simp, rfl, rfl⟩
  · exact ⟨c, by simp [hae, hc], rfl, rfl⟩

/-- Nothing to do on an empty subtree. -/
theorem Post_null {m : Mem K T} {par : Option Nat} {side : Bool} {fp : List Nat}
    (hs : Slot m none par side fp) : Post m m .null par side fp := by
  refine ⟨none, [], ⟨rfl, rfl⟩, by simp, ?_, fun _ _ _ => rfl⟩
  cases par with
  | none => exact hs
  | some q =>
    obtain ⟨q1, cq, q2, q3, q4⟩ := hs
    exact ⟨rfl, cq, cq.h, q2, by rw [q2, set_child_child cq side _ q3]⟩

/-- The re-linking of the slot that holds `n`. -/
theorem set_slot_post {m : Mem K T} {n : Nat} {par : Option Nat} {side : Bool}
    {fp : List Nat} (hs : Slot m (some n) par side fp) (hn : n ∈ fp) (p' : Option Nat) :
    ∃ m1, set_slot m par n p' = some m1 ∧ SlotPost m m1 p' par side ∧
      ∀ x, par ≠ some x → m1.heap x = m.heap x := by
  cases par with
  | none => exact ⟨⟨p', m.heap⟩, rfl, rfl, fun _ _ => rfl⟩
  | some q =>
    obtain ⟨q1, cq, q2, q3, q4⟩ := hs
    obtain ⟨m1, e1, -, hr, hf, hq⟩ := set_slot_spec m (some q) n p'
      (fun x hx => by cases hx; exact ⟨cq, q2⟩)
    refine ⟨m1, e1, ⟨hr (by simp), cq, cq.h, q2, ?_⟩, hf⟩
    cases side with
    | true =>
      simp only [child, if_true] at q3
      rw [(hq q cq rfl q2).1 q3]
      rfl
    | false =>
      simp only [child, Bool.false_eq_true, if_false, Bool.not_false, if_true] at q3 q4
      have hne : cq.lc ≠ some n := by
        rcases q4 with e | ⟨b, cb, e, hb1, -, -⟩
        · rw [e]; simp
        · rw [e]
          intro e'
          cases e'
          exact hb1 hn
      rw [(hq q cq rfl q2).2 hne]
      rfl

/-- The removal of a childless node (`detach`). -/
theorem detach_post {m : Mem K T} {k : K} {v : T} {h : Int} {n : Nat} {par : Option Nat}
    {side : Bool} {fp : List Nat}
    (hrep : Rep m.heap (.node .null k v h .null) (some n) par fp)
    (hs : Slot m (some n) par side fp) :
    ∃ m', detach m n = some m' ∧ Post m m' .null par side fp := by
  have hnfp : n ∈ fp := Rep_root_mem hrep
  obtain ⟨a, pl, pr, fl, fr, e, hn, -, -, -, -, -, -⟩ := hrep
  cases e
  obtain ⟨m1, e1, hsp, hf⟩ := set_slot_post hs hnfp none
  refine ⟨m1.free n, by simp [detach, hn, e1], none, [], ⟨rfl, rfl⟩, by simp, ?_, ?_⟩
  · cases par with
    | none => exact hsp
    | some q =>
      obtain ⟨hr, cq, h', q2, q3⟩ := hsp
      have hqn : q ≠ n := fun e => hs.1 (e ▸ hnfp)
      exact ⟨hr, cq, h', q2, by simp [hqn, q3]⟩
  · intro x hx hp
    have hxn : x ≠ n := fun e => hx (e ▸ hnfp)
    simp only [free_heap, if_neg hxn]
    exact hf x (fun e => hp e.symm)

theorem Rep_some_mem {heap : Nat → Option (Cell K T)} {t : Node K T} {p par : Option Nat}
    {fp : List Nat} (hr : Rep heap t p par fp) : ∀ a, p = some a → a ∈ fp := by
  intro a e
  subst e
  exact Rep_root_mem hr

/-- The splice of the only child `c` into `n` (`splice`): `n` takes over the
key, the value and the children of `c`, which is deleted. -/
theorem splice_spec {m : Mem K T} {B C : Node K T} {k k2 : K} {v v2 : T} {h h2 : Int}
    {n c : Nat} {pl pr par : Option Nat} {f : List Nat}
    (hn : m.heap n = some ⟨k, v, h, pl, pr, par⟩)
    (hc : Rep m.heap (.node B k2 v2 h2 C) (some c) (some n) f) (hnf : n ∉ f) :
    ∃ m' f', splice m n c = some m' ∧ Rep m'.heap (.node B k2 v2 h C) (some n) par f' ∧
      (∀ a ∈ f', a = n ∨ a ∈ f) ∧ m'.root = m.root ∧
      ∀ a, a ≠ n → a ∉ f → m'.heap a = m.heap a := by
  obtain ⟨c', pb, pc, fb, fc, e, hcc, hB, hC, rfl, d1, d2, d3⟩ := hc
  cases e
  have hcn : c ≠ n := fun e => hnf (by simp [e])
  have hnb : n ∉ fb := fun e => hnf (by simp [e])
  have hnc : n ∉ fc := fun e => hnf (by simp [e])
  have hpb := Rep_some_mem hB
  have hpc := Rep_some_mem hC
  have h4 : ∀ x, x ≠ n → (m.write n ⟨k2, v2, h, pb, pc, par⟩).heap x = m.heap x := by
    intro x hx
    simp [hx]
  obtain ⟨m5, e5, hr5, hf5, hp5⟩ := set_par_spec (m.write n ⟨k2, v2, h, pb, pc, par⟩) pb
    (some n) (fun b hb => by
      have hb1 : b ∈ fb := hpb b hb
      obtain ⟨cb, hcb⟩ := Rep_live hB b hb1
      exact ⟨cb, by rw [h4 b (fun e => hnb (e ▸ hb1)), hcb]⟩)
  have h5 : ∀ x, x ∉ fb → m5.heap x = (m.write n ⟨k2, v2, h, pb, pc, par⟩).heap x :=
    fun x hx => hf5 x (fun e => hx (hpb x e))
  obtain ⟨m6, e6, hr6, hf6, hp6⟩ := set_par_spec m5 pc (some n) (fun b hb => by
      have hb1 : b ∈ fc := hpc b hb
      obtain ⟨cb, hcb⟩ := Rep_live hC b hb1
      exact ⟨cb, by rw [h5 b (fun e => d3 b e hb1), h4 b (fun e => hnc (e ▸ hb1)), hcb]⟩)
  have h6 : ∀ x, x ∉ fc → m6.heap x = m5.heap x :=
    fun x hx => hf6 x (fun e => hx (hpc x e))
  refine ⟨m6.free c, n :: (fb ++ fc), ?_, ?_, ?_, ?_, ?_⟩
  · simp only [splice, Option.bind_eq_bind, hcc, Option.some_bind, modify_of m n _ _ hn]
    simp only [write_heap, if_neg hcn, hcc, Option.some_bind]
    rw [modify_of _ n _ ⟨k2, v, h, pl, pr, par⟩ (by simp)]
    simp only [write_heap, if_neg hcn, hcc, Option.some_bind, write_write]
    rw [modify_of _ n _ ⟨k2, v2, h, pl, pr, par⟩ (by simp)]
    simp only [write_heap, if_neg hcn, hcc, Option.some_bind, write_write]
    rw [modify_of _ n _ ⟨k2, v2, h, pb, pr, par⟩ (by simp)]
    simp only [write_heap, if_true, Option.some_bind, write_write, e5]
    have e : m5.heap n = some ⟨k2, v2, h, pb, pc, par⟩ := by
      rw [h5 n hnb]; simp
    simp only [e, Option.some_bind, e6]
  · refine ⟨n, pb, pc, fb, fc, rfl, ?_, ?_, ?_, rfl, hnb, hnc, d3⟩
    · simp only [free_heap, if_neg hcn.symm]
      rw [h6 n hnc, h5 n hnb]
      simp
    · refine Rep_reparent hB ?_ ?_
      · intro a ha hne
        have hac : a ≠ c := fun e => d1 (e ▸ ha)
        simp only [free_heap, if_neg hac]
        rw [h6 a (d3 a ha), hf5 a (fun e => hne e.symm), h4 a (fun e => hnb (e ▸ ha))]
      · intro a c0 hpa hc0
        have ha : a ∈ fb := hpb a hpa
        have hac : a ≠ c := fun e => d1 (e ▸ ha)
        simp only [free_heap, if_neg hac]
        rw [h6 a (d3 a ha)]
        exact hp5 a c0 hpa (by rw [h4 a (fun e => hnb (e ▸ ha)), hc0])
    · refine Rep_reparent hC ?_ ?_
      · intro a ha hne
        have hac : a ≠ c := fun e => d2 (e ▸ ha)
        simp only [free_heap, if_neg hac]
        rw [hf6 a (fun e => hne e.symm), h5 a (fun e => d3 a e ha),
          h4 a (fun e => hnc (e ▸ ha))]
      · intro a c0 hpa hc0
        have ha : a ∈ fc := hpc a hpa
        have hac : a ≠ c := fun e => d2 (e ▸ ha)
        simp only [free_heap, if_neg hac]
        exact hp6 a c0 hpa (by
          rw [h5 a (fun e => d3 a e ha), h4 a (fun e => hnc (e ▸ ha)), hc0])
  · intro a ha
    simp only [List.mem_cons, List.mem_append] at ha ⊢
    tauto
  · simp only [free_root, hr6, hr5, write_root]
  · intro a han haf
    simp only [List.mem_cons, List.mem_append, not_or] at haf
    simp only [free_heap, if_neg haf.1]
    rw [h6 a haf.2.2, h5 a haf.2.1, h4 a han]

/-- The promotion of the right child `c` of `n` when `c` has no left child
(`promote`): `n` takes over the key, the value and the right child of `c`,
which is deleted. -/
theorem promote_spec {m : Mem K T} {A C : Node K T} {k k2 : K} {v v2 : T} {h h2 : Int}
    {n c : Nat} {pl par : Option Nat} {fl fr : List Nat}
    (hn : m.heap n = some ⟨k, v, h, pl, some c, par⟩)
    (hl : Rep m.heap A pl (some n) fl)
    (hc : Rep m.heap (.node .null k2 v2 h2 C) (some c) (some n) fr)
    (d1 : n ∉ fl) (d2 : n ∉ fr) (d3 : ∀ x ∈ fl, x ∉ fr) :
    ∃ m' f', promote m n c = some m' ∧ Rep m'.heap (.node A k2 v2 h C) (some n) par f' ∧
      (∀ a ∈ f', a = n ∨ a ∈ fl ∨ a ∈ fr) ∧ m'.root = m.root ∧
      ∀ a, a ≠ n → a ∉ fl → a ∉ fr → m'.heap a = m.heap a := by
  obtain ⟨c', pb, pc, fb, fc, e, hcc, hB, hC, rfl, e1, e2, e3⟩ := hc
  cases e
  obtain ⟨rfl, rfl⟩ := hB
  simp only [List.nil_append, List.mem_cons, not_or] at d2 d3
  have hcn : c ≠ n := fun e => d2.1 e.symm
  have hnc : n ∉ fc := d2.2
  have hcl : c ∉ fl := fun e => (d3 c e).1 rfl
  have hpc := Rep_some_mem hC
  have h4 : ∀ x, x ≠ n → (m.write n ⟨k2, v2, h, pl, pc, par⟩).heap x = m.heap x := by
    intro x hx
    simp [hx]
  obtain ⟨m5, e5, hr5, hf5, hp5⟩ := set_par_spec (m.write n ⟨k2, v2, h, pl, pc, par⟩) pc
    (some n) (fun b hb => by
      have hb1 : b ∈ fc := hpc b hb
      obtain ⟨cb, hcb⟩ := Rep_live hC b hb1
      exact ⟨cb, by rw [h4 b (fun e => hnc (e ▸ hb1)), hcb]⟩)
  have h5 : ∀ x, x ∉ fc → m5.heap x = (m.write n ⟨k2, v2, h, pl, pc, par⟩).heap x :=
    fun x hx => hf5 x (fun e => hx (hpc x e))
  refine ⟨m5.free c, n :: (fl ++ fc), ?_, ?_, ?_, ?_, ?_⟩
  · simp only [promote, Option.bind_eq_bind, hcc, Option.some_bind, modify_of m n _ _ hn]
    simp only [write_heap, if_neg hcn, hcc, Option.some_bind]
    rw [modify_of _ n _ ⟨k2, v, h, pl, some c, par⟩ (by simp)]
    simp only [write_heap, if_neg hcn, hcc, Option.some_bind, write_write]
    rw [modify_of _ n _ ⟨k2, v2, h, pl, some c, par⟩ (by simp)]
    simp only [write_heap, if_true, Option.some_bind, write_write, e5]
  · refine ⟨n, pl, pc, fl, fc, rfl, ?_, ?_, ?_, rfl, d1, hnc, fun x hx => (d3 x hx).2⟩
    · simp only [free_heap, if_neg hcn.symm]
      rw [h5 n hnc]
      simp
    · refine Rep_frame hl ?_
      intro a ha
      have hac : a ≠ c := fun e => hcl (e ▸ ha)
      simp only [free_heap, if_neg hac]
      rw [h5 a (d3 a ha).2, h4 a (fun e => d1 (e ▸ ha))]
    · refine Rep_reparent hC ?_ ?_
      · intro a ha hne
        have hac : a ≠ c := fun e => e2 (e ▸ ha)
        simp only [free_heap, if_neg hac]
        rw [hf5 a (fun e => hne e.symm), h4 a (fun e => hnc (e ▸ ha))]
      · intro a c0 hpa hc0
        have ha : a ∈ fc := hpc a hpa
        have hac : a ≠ c := fun e => e2 (e ▸ ha)
        simp only [free_heap, if_neg hac]
        exact hp5 a c0 hpa (by rw [h4 a (fun e => hnc (e ▸ ha)), hc0])
  · intro a ha
    simp only [List.mem_cons, List.mem_append, List.nil_append] at ha ⊢
    tauto
  · simp only [free_root, hr5, write_root]
  · intro a han hal haf
    simp only [List.nil_append, List.mem_cons, not_or] at haf
    simp only [free_heap, if_neg haf.1]
    rw [h5 a haf.2, h4 a han]

section order
variable [LinearOrder K]

/-- The successor extraction (`erase` with `elem != NULL`) on the heap follows
the value-level `erase_elem`; the extracted pair is written to `elem`. -/
theorem erase_elem_sim (key : K) (t : Node K T) :
    ∀ (fuel : Nat) (m : Mem K T) (n : Nat) (par : Option Nat) (side : Bool) (fp : List Nat)
      (e : Nat) (ce : Cell K T),
      Rep m.heap t (some n) par fp → Slot m (some n) par side fp → e ∉ fp →
      m.heap e = some ce → size t < fuel →
      Sim (AVLTree.erase_elem t) (erase_node key fuel m (some n) (some e))
        (fun x m' => ∃ k' v', x.2 = some (k', v') ∧
          Post (m.write e { ce with key := k', val := v' }) m' x.1 par side fp) := by
  induction t with
  | null =>
    intro fuel m n par side fp e ce hrep
    obtain ⟨h, -⟩ := hrep
    cases h
  | node l k v h r ihl ihr =>
    intro fuel m n par side fp e ce hrep hs he hce hfuel
    cases fuel with
    | zero => exact absurd hfuel (Nat.not_lt_zero _)
    | succ fuel =>
    obtain ⟨pl, pr, fl, fr, hn, hl, hr, hfp, d1, d2, d3, hsl, hsr⟩ := Slot_child hrep
    have hnfp : n ∈ fp := Rep_root_mem hrep
    have hne : n ≠ e := fun x => he (x ▸ hnfp)
    have hfr0 : ∀ (k' : K) (v' : T) (x : Nat), x ∈ fp →
        (m.write e { ce with key := k', val := v' }).heap x = m.heap x := by
      intro k' v' x hx
      have : x ≠ e := fun x' => he (x' ▸ hx)
      simp [this]
    have hs0 : ∀ (k' : K) (v' : T),
        Slot (m.write e { ce with key := k', val := v' }) (some n) par side fp :=
      fun k' v' => Slot_write_kv hs e ce hce k' v'
    have hn0 : ∀ (k' : K) (v' : T), (m.write e { ce with key := k', val := v' }).heap n =
        some ⟨k, v, h, pl, pr, par⟩ := fun k' v' => by rw [hfr0 k' v' n hnfp, hn]
    have hflsub : ∀ a ∈ fl, a ∈ fp := fun a ha => by simp [hfp, ha]
    have hfrsub : ∀ a ∈ fr, a ∈ fp := fun a ha => by simp [hfp, ha]
    simp only [size] at hfuel
    rw [erase_elem_node]
    rw [erase_node]
    simp only [hn, Option.bind_eq_bind, Option.some_bind]
    cases l with
    | null =>
      obtain ⟨rfl, rfl⟩ := hl
      simp only
      rw [modify_of m e _ ce hce]
      simp only [Option.some_bind, write_heap, if_neg hne, hn]
      rw [modify_of _ e _ { ce with key := k } (by simp)]
      simp only [Option.some_bind, write_write, write_heap, if_neg hne, hn]
      cases r with
      | null =>
        obtain ⟨rfl, rfl⟩ := hr
        simp only
        obtain ⟨m', e1, hp⟩ := detach_post (Rep_frame hrep (hfr0 k v)) (hs0 k v)
        exact ⟨m', e1, k, v, rfl, hp⟩
      | node rl rk rv rh rr =>
        obtain ⟨c, hc⟩ := Rep_node_some hr
        subst hc
        simp only
        obtain ⟨m1, f1, e1, hrep1, hsub1, hroot1, hf1⟩ := splice_spec (hn0 k v)
          (Rep_frame hr (fun x hx => hfr0 k v x (hfrsub x hx))) d2
        have fs := finish_sim (hs0 k v) hroot1
          (fun a ha => hf1 a (fun x => ha (x ▸ hnfp)) (fun x => ha (hfrsub a x))) hrep1
          (fun a ha => by
            rcases hsub1 a ha with x | x
            · exact x ▸ hnfp
            · exact hfrsub a x)
        simp only [e1, Option.some_bind]
        cases hb : AVLTree.balance (.node rl rk rv h rr) with
        | none =>
          rw [hb] at fs
          exact fs
        | some tb =>
          rw [hb] at fs
          obtain ⟨m2, e2, hp2⟩ := fs
          exact ⟨m2, e2, k, v, rfl, hp2⟩
    | node ll lk lv lh lr =>
      obtain ⟨la, hla⟩ := Rep_node_some hl
      subst hla
      simp only
      have ih := ihl fuel m la (some n) true fl e ce hl hsl (fun x => he (hflsub e x)) hce
        (by omega)
      cases hxl : AVLTree.erase_elem (.node ll lk lv lh lr) with
      | none =>
        rw [hxl] at ih
        have e1 : erase_node key fuel m (some la) (some e) = none := ih
        simp only [e1, Option.none_bind]
        rfl
      | some res =>
        obtain ⟨l', w⟩ := res
        rw [hxl] at ih
        obtain ⟨m1, e1, k', v', hw, hp1⟩ := ih
        simp only at hw hp1
        obtain ⟨h', fp1, hrep2, hsub2, hs2, hroot2, hf2⟩ :=
          ascend_lc (g := fp) (hn0 k' v')
            (Rep_frame hr (fun x hx => hfr0 k' v' x (hfrsub x hx))) d1 d2 d3 hnfp
            hflsub hfrsub (hs0 k' v') hp1
        have fs := finish_sim (hs0 k' v') hroot2 hf2 hrep2 hsub2
        rw [← balance_h_irrel _ _ _ _ h h'] at fs
        simp only [e1, Option.some_bind]
        cases hb : AVLTree.balance (.node l' k v h r) with
        | none =>
          rw [hb] at fs
          exact fs
        | some tb =>
          rw [hb] at fs
          obtain ⟨m2, e2, hp2⟩ := fs
          exact ⟨m2, e2, k', v', hw, hp2⟩

/-- The private `erase` with `elem == NULL` on the heap follows the value-level
`erase_node`. -/
theorem erase_node_sim (key : K) (t : Node K T) :
    ∀ (fuel : Nat) (m : Mem K T) (p par : Option Nat) (side : Bool) (fp : List Nat),
      Rep m.heap t p par fp → Slot m p par side fp → size t < fuel →
      Sim (AVLTree.erase_node key t) (erase_node key fuel m p none)
        (fun t' m' => Post m m' t' par side fp) := by
  induction t with
  | null =>
    intro fuel m p par side fp hrep hs hfuel
    obtain ⟨rfl, rfl⟩ := hrep
    cases fuel with
    | zero => exact absurd hfuel (Nat.not_lt_zero _)
    | succ fuel => exact ⟨m, rfl, Post_null hs⟩
  | node l k v h r ihl ihr =>
    intro fuel m p par side fp hrep hs hfuel
    cases fuel with
    | zero => exact absurd hfuel (Nat.not_lt_zero _)
    | succ fuel =>
    obtain ⟨n, hp⟩ := Rep_node_some hrep
    subst hp
    obtain ⟨pl, pr, fl, fr, hn, hl, hr, hfp, d1, d2, d3, hsl, hsr⟩ := Slot_child hrep
    have hnfp : n ∈ fp := Rep_root_mem hrep
    have hflsub : ∀ a ∈ fl, a ∈ fp := fun a ha => by simp [hfp, ha]
    have hfrsub : ∀ a ∈ fr, a ∈ fp := fun a ha => by simp [hfp, ha]
    have hparg := Slot_par_not_mem hs
    simp only [size] at hfuel
    rw [erase_node_node]
    rw [erase_node]
    simp only [hn, Option.bind_eq_bind, Option.some_bind]
    by_cases c1 : key = k
    · simp only [if_pos c1]
      cases l with
      | null =>
        obtain ⟨rfl, rfl⟩ := hl
        cases r with
        | null =>
          obtain ⟨rfl, rfl⟩ := hr
          simp only
          exact detach_post hrep hs
        | node rl rk rv rh rr =>
          obtain ⟨c, hc⟩ := Rep_node_some hr
          subst hc
          simp only
          obtain ⟨m1, f1, e1, hrep1, hsub1, hroot1, hf1⟩ := splice_spec hn hr d2
          simp only [e1, Option.some_bind]
          exact finish_sim hs hroot1
            (fun a ha => hf1 a (fun x => ha (x ▸ hnfp)) (fun x => ha (hfrsub a x))) hrep1
            (fun a ha => by
              rcases hsub1 a ha with x | x
              · exact x ▸ hnfp
              · exact hfrsub a x)
      | node ll lk lv lh lr =>
        obtain ⟨la, hla⟩ := Rep_node_some hl
        subst hla
        cases r with
        | null =>
          obtain ⟨rfl, rfl⟩ := hr
          simp only
          obtain ⟨m1, f1, e1, hrep1, hsub1, hroot1, hf1⟩ := splice_spec hn hl d1
          simp only [e1, Option.some_bind]
          exact finish_sim hs hroot1
            (fun a ha => hf1 a (fun x => ha (x ▸ hnfp)) (fun x => ha (hflsub a x))) hrep1
            (fun a ha => by
              rcases hsub1 a ha with x | x
              · exact x ▸ hnfp
              · exact hflsub a x)
        | node rl rk rv rh rr =>
          obtain ⟨c, hc⟩ := Rep_node_some hr
          subst hc
          obtain ⟨prl, prr, frl, frr, hcc, hrl, hrr, -⟩ := Slot_child hr
          simp only [hcc, Option.some_bind]
          cases rl with
          | null =>
            obtain ⟨rfl, -⟩ := hrl
            simp only
            obtain ⟨m1, f1, e1, hrep1, hsub1, hroot1, hf1⟩ := promote_spec hn hl hr d1 d2 d3
            simp only [e1, Option.some_bind]
            exact finish_sim hs hroot1
              (fun a ha => hf1 a (fun x => ha (x ▸ hnfp)) (fun x => ha (hflsub a x))
                (fun x => ha (hfrsub a x))) hrep1
              (fun a ha => by
                rcases hsub1 a ha with x | x | x
                · exact x ▸ hnfp
                · exact hflsub a x
                · exact hfrsub a x)
          | node rll rlk rlv rlh rlr =>
            obtain ⟨x, hx'⟩ := Rep_node_some hrl
            subst hx'
            simp only
            have ih := erase_elem_sim key (.node (.node rll rlk rlv rlh rlr) rk rv rh rr) fuel m
              c (some n) false fr n _ hr hsr d2 hn (by simp only [size] at hfuel ⊢; omega)
            cases hxr : AVLTree.erase_elem (.node (.node rll rlk rlv rlh rlr) rk rv rh rr) with
            | none =>
              rw [hxr] at ih
              have e1 : erase_node key fuel m (some c) (some n) = none := ih
              simp only [e1, Option.none_bind]
              rfl
            | some res =>
              obtain ⟨r', w⟩ := res
              rw [hxr] at ih
              obtain ⟨m1, e1, k', v', hw, hp1⟩ := ih
              simp only at hw hp1
              subst hw
              simp only [e1, Option.some_bind]
              change Post (m.write n ⟨k', v', h, some la, some c, par⟩) m1 r' (some n) false fr
                at hp1
              have hf0 : ∀ a, a ∉ fp →
                  (m.write n ⟨k', v', h, some la, some c, par⟩).heap a = m.heap a := by
                intro a ha
                have : a ≠ n := fun x => ha (x ▸ hnfp)
                simp [this]
              have hs0 := Slot_frame hs (by rfl) hf0
              have hn0 : (m.write n ⟨k', v', h, some la, some c, par⟩).heap n =
                  some ⟨k', v', h, some la, some c, par⟩ := by simp
              obtain ⟨h', fp1, hrep2, hsub2, hs2, hroot2, hf2⟩ :=
                ascend_rc (g := fp) hn0
                  (Rep_frame hl (fun x hx => by
                    have : x ≠ n := fun e => d1 (e ▸ hx)
                    simp [this])) d1 d2 d3 hnfp hflsub hfrsub hs0 hp1
              rw [balance_h_irrel _ _ _ _ h h']
              exact Sim_mono (finish_sim hs0 hroot2 hf2 hrep2 hsub2)
                (fun _ _ hp => Post_of_inner (by rfl) hf0 (fun a ha => ha) hparg hp)
    · simp only [if_neg c1]
      by_cases c2 : key < k
      · simp only [if_pos c2]
        have ih := ihl fuel m pl (some n) true fl hl hsl (by omega)
        cases hxl : AVLTree.erase_node key l with
        | none =>
          rw [hxl] at ih
          have e1 : erase_node key fuel m pl none = none := ih
          simp only [e1, Option.none_bind]
          rfl
        | some l' =>
          rw [hxl] at ih
          obtain ⟨m1, e1, hp1⟩ := ih
          obtain ⟨h', fp1, hrep2, hsub2, hs2, hroot2, hf2⟩ :=
            ascend_lc (g := fp) hn hr d1 d2 d3 hnfp hflsub hfrsub hs hp1
          simp only [e1, Option.some_bind]
          rw [balance_h_irrel _ _ _ _ h h']
          exact finish_sim hs hroot2 hf2 hrep2 hsub2
      · simp only [if_neg c2]
        have ih := ihr fuel m pr (some n) false fr hr hsr (by omega)
        cases hxr : AVLTree.erase_node key r with
        | none =>
          rw [hxr] at ih
          have e1 : erase_node key fuel m pr none = none := ih
          simp only [e1, Option.none_bind]
          rfl
        | some r' =>
          rw [hxr] at ih
          obtain ⟨m1, e1, hp1⟩ := ih
          obtain ⟨h', fp1, hrep2, hsub2, hs2, hroot2, hf2⟩ :=
            ascend_rc (g := fp) hn hl d1 d2 d3 hnfp hflsub hfrsub hs hp1
          simp only [e1, Option.some_bind]
          rw [balance_h_irrel _ _ _ _ h h']
          exact finish_sim hs hroot2 hf2 hrep2 hsub2

end order

theorem Rep_of_Shape {heap : Nat → Option (Cell K T)} {t : Node K T} {p par : Option Nat}
    {fp : List Nat} (hs : Shape heap t p fp)
    (hroot : ∀ a c, p = some a → heap a = some c → c.par = par)
    (hl : ∀ a ∈ fp, ∀ c b cb, heap a = some c → (c.lc = some b ∨ c.rc = some b) →
      heap b = some cb → cb.par = some a) :
    Rep heap t p par fp := by
  induction t generalizing p par fp with
  | null => exact hs
  | node l k v h r ihl ihr =>
    obtain ⟨a, c, fl, fr, rfl, hc, rfl, rfl, rfl, sl, sr, rfl, d1, d2, d3⟩ := hs
    have hp := hroot a c rfl hc
    subst hp
    refine ⟨a, c.lc, c.rc, fl, fr, rfl, hc, ?_, ?_, rfl, d1, d2, d3⟩
    · refine ihl sl (fun b cb hb hcb => hl a (by simp) c b cb hc (Or.inl hb) hcb) ?_
      exact fun x hx => hl x (by simp [hx])
    · refine ihr sr (fun b cb hb hcb => hl a (by simp) c b cb hc (Or.inr hb) hcb) ?_
      exact fun x hx => hl x (by simp [hx])

theorem Shape_of_Rep {heap : Nat → Option (Cell K T)} {t : Node K T} {p par : Option Nat}
    {fp : List Nat} (hr : Rep heap t p par fp) :
    Shape heap t p fp ∧ (∀ a c, p = some a → heap a = some c → c.par = par) ∧
      ∀ a ∈ fp, ∀ c b cb, heap a = some c → (c.lc = some b ∨ c.rc = some b) →
        heap b = some cb → cb.par = some a := by
  induction t generalizing p par fp with
  | null =>
    obtain ⟨rfl, rfl⟩ := hr
    exact ⟨⟨rfl, rfl⟩, (fun a c h => by cases h), (fun a ha => by cases ha)⟩
  | node l k v h r ihl ihr =>
    obtain ⟨a, pl, pr, fl, fr, rfl, ha, hl, hr', rfl, d1, d2, d3⟩ := hr
    obtain ⟨sl, rl, ll⟩ := ihl hl
    obtain ⟨sr, rr, lr⟩ := ihr hr'
    refine ⟨⟨a, _, fl, fr, rfl, ha, rfl, rfl, rfl, sl, sr, rfl, d1, d2, d3⟩, ?_, ?_⟩
    · intro a' c e hc
      cases e
      rw [ha] at hc
      cases hc
      rfl
    · intro x hx c b cb hc hb hcb
      simp only [List.mem_cons, List.mem_append] at hx
      rcases hx with rfl | hx | hx
      · rw [ha] at hc
        cases hc
        rcases hb with hb | hb
        · exact rl b cb hb hcb
        · exact rr b cb hb hcb
      · exact ll x hx c b cb hc hb hcb
      · exact lr x hx c b cb hc hb hcb

theorem mem_5324_shape : Shape mem_5324.heap tree_5324 mem_5324.root [0, 1, 2, 3] :=
  ⟨0, _, [1, 2, 3], [], rfl, rfl, rfl, rfl, rfl,
    ⟨1, _, [2], [3], rfl, rfl, rfl, rfl, rfl,
      ⟨2, _, [], [], rfl, rfl, rfl, rfl, rfl, ⟨rfl, rfl⟩, ⟨rfl, rfl⟩, rfl,
        by simp, by simp, by simp⟩,
      ⟨3, _, [], [], rfl, rfl, rfl, rfl, rfl, ⟨rfl, rfl⟩, ⟨rfl, rfl⟩, rfl,
        by simp, by simp, by simp⟩, rfl, by simp, by simp, by simp⟩,
    ⟨rfl, rfl⟩, rfl, by simp, by simp, by simp⟩

theorem mem_5324_links : parent_links_ok mem_5324 [0, 1, 2, 3] := by
  refine ⟨?_, ?_⟩
  · intro a c ha hc
    cases ha
    cases hc
    rfl
  · intro a ha c b cb hc hb hcb
    simp only [List.mem_cons, List.mem_singleton, List.not_mem_nil, or_false] at ha
    rcases ha with rfl | rfl | rfl | rfl <;> cases hc <;>
      simp only [Option.some.injEq, false_or, or_false, or_self, reduceCtorEq] at hb
    · subst hb
      cases hcb
      rfl
    · rcases hb with rfl | rfl <;> cases hcb <;> rfl

/-- On the unbalanced tree `tree_5324`, `erase(5)` splices the only child of
the root into the root: the root cell takes over key 3 and the two children,
both children are re-parented to the root cell, and the child cell is
deleted. -/
theorem erase_reparents_example :
    (erase 5 4 mem_5324).map (fun m => (m.root,
      (m.heap 0).map (fun c => (c.key, c.lc, c.rc, c.par)),
      (m.heap 2).map (fun c => c.par), (m.heap 3).map (fun c => c.par),
      (m.heap 1).isNone)) =
    some (some 0, some (3, some 2, some 3, none), some (some 0), some (some 0), true) := by
  rfl

section order
variable [LinearOrder K]

/-- C20. Parent-link consistency is preserved by the public mutations, on
every tree, balanced or not: when the heap holds a tree `t` whose root has a
null `par` and in which the `par` of every child is the node holding it as
`lc` or `rc`, then `insert(key, val)` and `erase(ekey)` return with the heap
holding the trees computed by the value-level operations and with the same
parent-link property, after all the rotations, splices (children re-parented
to the surviving node), promotions and detachments performed on the way.  The
only runs without a result are those in which `balance` rotates on a missing
child (a `NULL` dereference, in both embeddings), and these need a negative
stored height in `t`, which no tree built by the class has. -/
theorem parent_links_preserved (t : Node K T) (m : Mem K T) (fp : List Nat)
    (fresh : Nat) (key : K) (val : T) (ekey : K) (fuel : Nat)
    (hshape : Shape m.heap t m.root fp) (hlinks : parent_links_ok m fp)
    (hfresh : m.heap fresh = none) (hfuel : size t < fuel) :
    ((∃ m' t' fp', insert fresh key val fuel m = some m' ∧
        AVLTree.insert key val t = some t' ∧
        Shape m'.heap t' m'.root fp' ∧ parent_links_ok m' fp') ∨
      (insert fresh key val fuel m = none ∧ AVLTree.insert key val t = none ∧
        ¬ heights_nonneg t)) ∧
    ((∃ m' t' fp', erase ekey fuel m = some m' ∧ AVLTree.erase ekey t = some t' ∧
        Shape m'.heap t' m'.root fp' ∧ parent_links_ok m' fp') ∨
      (erase ekey fuel m = none ∧ AVLTree.erase ekey t = none ∧ ¬ heights_nonneg t)) := by
  have hrep : Rep m.heap t m.root none fp := Rep_of_Shape hshape hlinks.1 hlinks.2
  have hslot : Slot m m.root none true fp := rfl
  constructor
  · cases t with
    | null =>
      obtain ⟨h0, -⟩ := hrep
      have hrep1 := Rep_new_node (m.write fresh ⟨key, val, 1, none, none, none⟩).heap key val
        fresh none (by simp)
      obtain ⟨s1, r1, l1⟩ := Shape_of_Rep hrep1
      refine Or.inl ⟨⟨some fresh, (m.write fresh ⟨key, val, 1, none, none, none⟩).heap⟩, _,
        [fresh], by simp only [insert, h0], rfl, s1, ?_, l1⟩
      exact r1
    | node l k v h r =>
      obtain ⟨n, hn⟩ := Rep_node_some hrep
      rw [hn] at hrep hslot
      have sim := insert_node_sim fresh key val _ fuel m n none true fp hrep hslot hfresh hfuel
      have e0 : AVLTree.insert key val (.node l k v h r) =
          AVLTree.insert_node key val (.node l k v h r) := rfl
      have e1 : insert fresh key val fuel m = insert_node fresh key val fuel m n := by
        simp only [insert, hn]
      rw [e0, e1]
      cases hv : AVLTree.insert_node key val (.node l k v h r) with
      | none =>
        rw [hv] at sim
        refine Or.inr ⟨sim, rfl, fun hnn => ?_⟩
        obtain ⟨t', e, -⟩ := insert_node_nonneg key val _ (by simp) hnn
        rw [hv] at e
        cases e
      | some t' =>
        rw [hv] at sim
        obtain ⟨m', e2, p', fp', hrep1, -, hsp, -⟩ := sim
        have hp : m'.root = p' := hsp
        subst hp
        obtain ⟨s1, r1, l1⟩ := Shape_of_Rep hrep1
        exact Or.inl ⟨m', t', fp', e2, rfl, s1, r1, l1⟩
  · have sim := erase_node_sim ekey t fuel m m.root none true fp hrep hslot hfuel
    have e0 : AVLTree.erase ekey t = AVLTree.erase_node ekey t := rfl
    have e1 : erase ekey fuel m = erase_node ekey fuel m m.root none := rfl
    rw [e0, e1]
    cases hv : AVLTree.erase_node ekey t with
    | none =>
      rw [hv] at sim
      refine Or.inr ⟨sim, rfl, fun hnn => ?_⟩
      obtain ⟨t', e, -⟩ := erase_node_nonneg ekey t hnn
      rw [hv] at e
      cases e
    | some t' =>
      rw [hv] at sim
      obtain ⟨m', e2, p', fp', hrep1, -, hsp, -⟩ := sim
      have hp : m'.root = p' := hsp
      subst hp
      obtain ⟨s1, r1, l1⟩ := Shape_of_Rep hrep1
      exact Or.inl ⟨m', t', fp', e2, rfl, s1, r1, l1⟩

theorem parent_links_preserved_witness :
    Shape mem_5324.heap tree_5324 mem_5324.root [0, 1, 2, 3] ∧
    parent_links_ok mem_5324 [0, 1, 2, 3] ∧ mem_5324.heap 4 = none ∧ size tree_5324 < 5 ∧
    ((∃ m' t' fp', insert 4 1 10 5 mem_5324 = some m' ∧
        AVLTree.insert 1 10 tree_5324 = some t' ∧
        Shape m'.heap t' m'.root fp' ∧ parent_links_ok m' fp') ∨
      (insert 4 1 10 5 mem_5324 = none ∧ AVLTree.insert 1 10 tree_5324 = none ∧
        ¬ heights_nonneg tree_5324)) ∧
    ((∃ m' t' fp', erase 5 5 mem_5324 = some m' ∧ AVLTree.erase 5 tree_5324 = some t' ∧
        Shape m'.heap t' m'.root fp' ∧ parent_links_ok m' fp') ∨
      (erase 5 5 mem_5324 = none ∧ AVLTree.erase 5 tree_5324 = none ∧
        ¬ heights_nonneg tree_5324)) :=
  ⟨mem_5324_shape, mem_5324_links, rfl, by decide,
    parent_links_preserved tree_5324 mem_5324 [0, 1, 2, 3] 4 1 10 5 5 mem_5324_shape
      mem_5324_links rfl (by decide)⟩

end order

end Linked

end AVLTree
